import Mathlib

/-!
# smdp: loading a markdown document and rendering its inline markup

A shallow embedding of `markdown_io.c` (line classifier and loader) and of the
inline interpreter of `src/viewer.c`, with the properties the specification
states about them.

Conventions of the embedding.

* A C string is the list of its characters; `char` and `wchar_t` values are
  `Char`. For a NUL-terminated `wchar_t *` the terminator is implicit: it sits
  at index `length`, and every index above it lies outside the line.
* `int` counters are natural numbers: the lines are shorter than `INT_MAX`.
* A chain of nodes linked through `prev`/`next` is the list of its nodes in
  `next` order: the head has no `prev`, the last node has no `next`, and a
  `NULL` chain is `[]`.
* `isspace`, `isprint`, `iswspace` and `iswalnum` are those of the C locale.
-/

namespace Smdp

/-! ## Character classes of the C library (C locale) -/

/-- The C library `isspace`: space, `\t`, `\n`, `\v`, `\f`, `\r`. -/
def isspace (c : Char) : Bool :=
  c = ' ' || c = '\t' || c = '\n' || c = '\x0b' || c = '\x0c' || c = '\r'

/-- The C library `isprint`: the characters `0x20 .. 0x7e`. -/
def isprint (c : Char) : Bool :=
  decide (0x20 ≤ c.toNat) && decide (c.toNat ≤ 0x7e)

/-! ## `markdown_io.c` -/

/-- Modelled from the spec: the Character Buffer `cstring_t` of
`include/cstring.h`, a growable sequence of characters backing one line
(`text->text`), whose `size` is its length. -/
abbrev cstring_t := List Char

/-- Modelled from the spec: `cstring_init` creates an empty buffer. -/
def cstring_init : cstring_t := []

/-- Modelled from the spec: `(text->expand)(text, c)` appends one character. -/
def cstring_t.expand (text : cstring_t) (c : Char) : cstring_t := text ++ [c]

/-- Modelled from the spec: `(text->reset)(text)` discards the content. -/
def cstring_t.reset (_text : cstring_t) : cstring_t := []

/-- Modelled from the spec: the macro `SET_BIT(var, pos)` of
`include/markdown.h`, which sets bit `pos` of the bitmask. -/
def SET_BIT (var pos : Nat) : Nat := var ||| (1 <<< pos)

/-- Modelled from the spec: the macro `CHECK_BIT(var, pos)` of
`include/markdown.h`, which is non-zero iff bit `pos` of the bitmask is set. -/
def CHECK_BIT (var pos : Nat) : Nat := var &&& (1 <<< pos)

/-- Character `text->text[i]`, read only at indices below `text->size`. -/
def cstring_t.at (text : cstring_t) (i : Nat) : Char := text.getD i '\x00'

/-- The loop of `next_nonblank`; `fuel` is `text->size - i`, the number of
iterations left before `i < text->size` fails. -/
def next_nonblank_loop (text : cstring_t) : Nat → Nat → Nat
  | 0, i => i
  | fuel + 1, i =>
    if i < text.length && isspace (text.at i) then next_nonblank_loop text fuel (i + 1)
    else i

/-- `int next_nonblank(cstring_t *text, int i)`. -/
def next_nonblank (text : cstring_t) (i : Nat) : Nat :=
  next_nonblank_loop text (text.length - i) i

/-- The loop of `next_blank`. -/
def next_blank_loop (text : cstring_t) : Nat → Nat → Nat
  | 0, i => i
  | fuel + 1, i =>
    if i < text.length && !isspace (text.at i) then next_blank_loop text fuel (i + 1)
    else i

/-- `int next_blank(cstring_t *text, int i)`. -/
def next_blank (text : cstring_t) (i : Nat) : Nat :=
  next_blank_loop text (text.length - i) i

/-- The counters of `markdown_analyse`. -/
structure Tally where
  equals : Nat := 0
  hashes : Nat := 0
  stars : Nat := 0
  minus : Nat := 0
  plus : Nat := 0
  spaces : Nat := 0
  other : Nat := 0
deriving DecidableEq, Repr

/-- The `switch` of `markdown_analyse` on one character. -/
def Tally.count (t : Tally) (c : Char) : Tally :=
  if c = '=' then { t with equals := t.equals + 1 }
  else if c = '#' then { t with hashes := t.hashes + 1 }
  else if c = '*' then { t with stars := t.stars + 1 }
  else if c = '-' then { t with minus := t.minus + 1 }
  else if c = '+' then { t with plus := t.plus + 1 }
  else if c = ' ' then { t with spaces := t.spaces + 1 }
  else { t with other := t.other + 1 }

/-- The loop `for(eol = text->size; eol > offset && isspace(text->text[eol - 1]); eol--);`
of `markdown_analyse`, started at `eol`. -/
def strip_trailing (text : cstring_t) (offset : Nat) : Nat → Nat
  | 0 => 0
  | eol + 1 =>
    if eol + 1 > offset && isspace (text.at eol) then strip_trailing text offset eol
    else eol + 1

/-- The loop `for(i = offset; i < eol; i++) switch(text->text[i]) ...` of
`markdown_analyse`; `fuel` is `eol - i`. -/
def tally_loop (text : cstring_t) (eol : Nat) : Nat → Nat → Tally → Tally
  | 0, _, t => t
  | fuel + 1, i, t =>
    if i < eol then tally_loop text eol fuel (i + 1) (t.count (text.at i)) else t

/-- `int markdown_analyse(cstring_t *text)`. The positions `IS_CODE` and `IS_HR`
of the enumeration in `include/markdown.h` are parameters. -/
def markdown_analyse (IS_CODE IS_HR : Nat) (text : cstring_t) : Nat :=
  let offset := next_nonblank text 0
  if offset ≥ 4 then SET_BIT 0 IS_CODE
  else
    let eol := strip_trailing text offset text.length
    let t := tally_loop text eol (eol - offset) offset {}
    if (t.minus ≥ 3 && t.equals + t.hashes + t.stars + t.plus == 0) ||
       (t.stars ≥ 3 && t.equals + t.hashes + t.minus + t.plus == 0) then SET_BIT 0 IS_HR
    else 0

/-- `int is_utf8(char ch)`: the byte has its top bit set. -/
def is_utf8 (ch : Char) : Bool := (ch.toNat % 256) &&& 0x80 != 0

/-- Modelled from the spec: a Line (`line_t` of `include/markdown.h`) with its owned
buffer, classification bitmask and leading-indent offset. Its `prev`/`next` links are the
position of the line in the chain that holds it. -/
structure line_t where
  text : cstring_t
  bits : Nat
  offset : Nat
deriving DecidableEq, Repr

/-- Modelled from the spec: a Page (`page_t`), which owns the chain of its lines starting at
`page->line`; an empty chain is `page->line == NULL`. -/
structure page_t where
  line : List line_t
deriving DecidableEq, Repr

/-- Modelled from the spec: a Document (`document_t`): the chain of pages starting at
`doc->page` and the header chain starting at `doc->header` (`[]` when it is `NULL`). -/
structure document_t where
  page : List page_t
  header : List line_t
deriving DecidableEq, Repr

/-- Modelled from the spec: `new_page()` creates a page without lines. -/
def new_page : page_t := { line := [] }

/-- The variables of `markdown_load` while the stream is read: the pages of the chain
`doc->page` that precede `page`, the current `page` (the last one of the chain, to whose
last line `line` points), and the buffer `text`. -/
structure load_state where
  closed : List page_t
  page : page_t
  text : cstring_t
deriving DecidableEq, Repr

/-- The loop `for (i = 0;  i <= 4;  i++) (text->expand)(text, ' ');` started at `i`, with
`fuel` iterations allowed. -/
def tab_loop : Nat → Nat → cstring_t → cstring_t
  | 0, _, text => text
  | fuel + 1, i, text => if i ≤ 4 then tab_loop fuel (i + 1) (text.expand ' ') else text

/-- Lines 64-74 of `markdown_load`: what a character other than `\n` does to `text`. -/
def load_char (text : cstring_t) (c : Char) : cstring_t :=
  if c = '\t' then tab_loop 5 0 text
  else if isprint c || isspace c || is_utf8 c then text.expand c
  else text

/-- Lines 24-62 of `markdown_load`: the branch `c == '\n'`. A rule resets the buffer and
opens the next page (`next_page` links a new page behind `page`); any other line is linked
behind the last line of `page` (`new_line` for the first line of a page, `next_line`
otherwise) and a new buffer is started. -/
def load_newline (IS_CODE IS_HR : Nat) (st : load_state) : load_state :=
  let bits := markdown_analyse IS_CODE IS_HR st.text
  if CHECK_BIT bits IS_HR ≠ 0 then
    { closed := st.closed ++ [st.page], page := new_page, text := st.text.reset }
  else
    { closed := st.closed,
      page := { line := st.page.line ++
        [{ text := st.text, bits := bits, offset := next_nonblank st.text 0 }] },
      text := cstring_init }

/-- The body of `while ((c = fgetc(input)) != EOF)` in `markdown_load`. -/
def load_step (IS_CODE IS_HR : Nat) (st : load_state) (c : Char) : load_state :=
  if c = '\n' then load_newline IS_CODE IS_HR st
  else { st with text := load_char st.text c }

/-- Lines 16-75 of `markdown_load`: the state when the stream `input` has reached `EOF`. -/
def load_loop (IS_CODE IS_HR : Nat) (input : List Char) : load_state :=
  input.foldl (load_step IS_CODE IS_HR) { closed := [], page := new_page, text := cstring_init }

/-- The chain of pages `doc->page` built by the reading loop of `markdown_load`. -/
def load_pages (IS_CODE IS_HR : Nat) (input : List Char) : List page_t :=
  (load_loop IS_CODE IS_HR input).closed ++ [(load_loop IS_CODE IS_HR input).page]

/-- The test `line->text->size > 0 && line->text->text[0] == '%'`. -/
def is_header_line (line : line_t) : Bool :=
  decide (line.text.length > 0) && line.text.at 0 = '%'

/-- Lines 85-91 of `markdown_load`: `while(...) line = line->next;` over the chain that
starts at `line`, then the split in front of the line the loop stops at; the result is the
chain before that line and the chain from it on. When the chain ends, `line` is `NULL` and
the loop test dereferences it: there is no result. -/
def header_walk : List line_t → Option (List line_t × List line_t)
  | [] => none
  | line :: rest =>
    if is_header_line line then
      match header_walk rest with
      | none => none
      | some (hd, tl) => some (line :: hd, tl)
    else some ([], line :: rest)

/-- Lines 77-97 of `markdown_load`: header detection on the chain of pages `doc->page`. -/
def detect_header : List page_t → Option document_t
  | [] => none
  | first :: others =>
    match first.line with
    | [] => some { page := first :: others, header := [] }
    | line :: rest =>
      if is_header_line line then
        match header_walk (line :: rest) with
        | none => none
        | some (hd, tl) => some { page := { line := tl } :: others, header := hd }
      else some { page := first :: others, header := [] }

/-- `document_t *markdown_load(FILE *input)`; `input` is the sequence of characters that
`fgetc` delivers before `EOF`. The result is `none` when the function dereferences `NULL`. -/
def markdown_load (IS_CODE IS_HR : Nat) (input : List Char) : Option document_t :=
  detect_header (load_pages IS_CODE IS_HR input)

/-! ### Vocabulary of the statements about `markdown_load` -/

/-- The newline-terminated lines of a stream (without their `\n`), and the characters
that follow the last `\n`. -/
def input_lines : List Char → List (List Char) × List Char
  | [] => ([], [])
  | c :: cs =>
    if c = '\n' then ([] :: (input_lines cs).1, (input_lines cs).2)
    else
      match (input_lines cs).1 with
      | [] => ([], c :: (input_lines cs).2)
      | l :: ls => ((c :: l) :: ls, (input_lines cs).2)

/-- The buffer that `markdown_load` holds after reading the characters of one line. -/
def load_text (seg : List Char) : cstring_t := seg.foldl load_char cstring_init

/-- The buffers of the newline-terminated lines of a stream, in input order. -/
def stored_lines (input : List Char) : List cstring_t :=
  (input_lines input).1.map load_text

/-- A buffer is a horizontal rule for `markdown_load`. -/
def is_hr (IS_CODE IS_HR : Nat) (text : cstring_t) : Bool :=
  CHECK_BIT (markdown_analyse IS_CODE IS_HR text) IS_HR != 0

/-- The texts of the lines of all pages, in page order and line order. -/
def page_texts (pages : List page_t) : List cstring_t :=
  (pages.flatMap (fun p => p.line)).map (fun l => l.text)

/-- A buffer begins with `%`. -/
def begins_percent (text : cstring_t) : Bool := text.head? = some '%'

/-- The state of `markdown_load` after the characters of one line and its `\n`. -/
def feed_line (IS_CODE IS_HR : Nat) (st : load_state) (seg : List Char) : load_state :=
  load_newline IS_CODE IS_HR { st with text := seg.foldl load_char st.text }

/-- The state of `markdown_load` after a `\n` that completes the buffer `text`. -/
def add_text (IS_CODE IS_HR : Nat) (st : load_state) (text : cstring_t) : load_state :=
  load_newline IS_CODE IS_HR { st with text := text }

/-- The line that lines 41-58 of `markdown_load` create for a buffer. -/
def mk_line (IS_CODE IS_HR : Nat) (text : cstring_t) : line_t :=
  { text := text, bits := markdown_analyse IS_CODE IS_HR text, offset := next_nonblank text 0 }

/-! ## `src/viewer.c`: the inline interpreter -/

/-- The C library `iswalnum` (C locale): ASCII digits and letters. -/
def iswalnum (c : Char) : Bool :=
  (decide ('0' ≤ c) && decide (c ≤ '9')) || (decide ('A' ≤ c) && decide (c ≤ 'Z')) ||
    (decide ('a' ≤ c) && decide (c ≤ 'z'))

/-- The C library `iswspace` (C locale): the same characters as `isspace`. -/
def iswspace (c : Char) : Bool := isspace c

/-- `#define CP_FG 1` of `include/viewer.h`. -/
def CP_FG : Nat := 1

/-- `#define CP_HEADER 2` of `include/viewer.h`. -/
def CP_HEADER : Nat := 2

/-- `#define CP_BOLD 3` of `include/viewer.h`. -/
def CP_BOLD : Nat := 3

/-- `#define CP_CODE 5` of `include/viewer.h`. -/
def CP_CODE : Nat := 5

/-- One call on the output device, in the order the calls are made. -/
inductive Out where
  /-- One character written by `waddnwstr(window, i, 1)` or by `wprintw`. -/
  | ch (c : Char)
  /-- The call `wattron(window, COLOR_PAIR(n))`. -/
  | color (n : Nat)
  /-- The call `wattron(window, A_UNDERLINE)`. -/
  | underline_on
  /-- The call `wattroff(window, A_UNDERLINE)`. -/
  | underline_off
deriving DecidableEq, Repr

/-- Modelled from the spec: the output device (a curses `WINDOW`): its current attributes,
that is the colour pair and the underline flag, and the calls made on it so far. -/
structure WINDOW where
  pair : Nat
  underline : Bool
  out : List Out
deriving DecidableEq, Repr

/-- The call `wattron(window, COLOR_PAIR(n))`: the colour pair of the window becomes `n`. -/
def WINDOW.wattron_pair (w : WINDOW) (n : Nat) : WINDOW :=
  { w with pair := n, out := w.out ++ [Out.color n] }

/-- The call `wattron(window, A_UNDERLINE)`. -/
def WINDOW.wattron_underline (w : WINDOW) : WINDOW :=
  { w with underline := true, out := w.out ++ [Out.underline_on] }

/-- The call `wattroff(window, A_UNDERLINE)`. -/
def WINDOW.wattroff_underline (w : WINDOW) : WINDOW :=
  { w with underline := false, out := w.out ++ [Out.underline_off] }

/-- The call `waddnwstr(window, i, 1)` where `*i` is `c`: one character is written, none
when `c` is the terminator. -/
def WINDOW.waddnwstr (w : WINDOW) (c : Char) : WINDOW :=
  if c = '\x00' then w else { w with out := w.out ++ [Out.ch c] }

/-- The call `wprintw(window, ...)` that writes the characters `cs`. -/
def WINDOW.wprintw (w : WINDOW) (cs : List Char) : WINDOW :=
  { w with out := w.out ++ cs.map Out.ch }

/-- The characters written on the window, in order. -/
def WINDOW.printed (w : WINDOW) : List Char :=
  w.out.filterMap (fun o => match o with
    | Out.ch c => some c
    | _ => none)

/-- Modelled from the spec: the Markup Stack `cstack_t` of `include/cstack.h`, the symbols
that are open, the last one pushed first. -/
abbrev cstack_t := List Char

/-- Modelled from the spec: `(stack->push)(stack, c)`. -/
def cstack_t.push (stack : cstack_t) (c : Char) : cstack_t := c :: stack

/-- Modelled from the spec: `(stack->pop)(stack)` removes the top symbol. -/
def cstack_t.pop (stack : cstack_t) : cstack_t := stack.tail

/-- Modelled from the spec: `(stack->top)(stack, c)`, the top-check: the stack is not empty
and its top symbol is `c`. -/
def cstack_t.top (stack : cstack_t) (c : Char) : Bool := stack.head? = some c

/-- Modelled from the spec: a Link Reference Entry of `url.c`: label, label length, target
and target length as `url_add` receives them; its ordinal is its position in the table. -/
structure url_t where
  link_name : List Char
  link_name_length : Nat
  target : List Char
  target_length : Nat
deriving DecidableEq, Repr

/-- Modelled from the spec: `url_add(link_name, link_name_length, target, target_length, x, y)`
on the line `s`, where the two pointers are the indices `link_name` and `target`: the entry
is appended to the table and its ordinal, the next integer from 0, is returned. -/
def url_add (urls : List url_t) (s : List Char) (link_name link_name_length target
    target_length : Nat) : Nat × List url_t :=
  (urls.length,
   urls ++ [{ link_name := (s.drop link_name).take link_name_length,
              link_name_length := link_name_length,
              target := (s.drop target).take target_length,
              target_length := target_length }])

/-- The character at index `i` of a NUL-terminated line `s`, for `i ≤ s.length`; the
terminator stands at index `s.length`. -/
def peek (s : List Char) (i : Nat) : Char := s.getD i '\x00'

/-- The search of `wcschr` over the characters `rest` that start at index `k`. -/
def wcschr_from : List Char → Nat → Char → Option Nat
  | [], _, _ => none
  | x :: rest, k, ch =>
    if x = ch then some k else if x = '\x00' then none else wcschr_from rest (k + 1) ch

/-- The C library `wcschr(i, ch)` on the line `s` for a pointer at index `i` and `ch` not
NUL: the index of the first `ch` from `i` on, `none` for `NULL`. -/
def wcschr (s : List Char) (i : Nat) (ch : Char) : Option Nat := wcschr_from (s.drop i) i ch

/-- `const static wchar_t *special` of `inline_display`, the list of interpreted chars. -/
def special : List Char := ['\\', '*', '_', '`', '!', '[']

/-- The state of `inline_display` between two characters: the window, the markup stack and
the link table of `url.c`. -/
structure inline_state where
  window : WINDOW
  stack : cstack_t
  urls : List url_t
deriving DecidableEq, Repr

/-- Lines 667-670, `do { waddnwstr(window, i, 1); i++; } while (*i != L']');`, on the
characters `rest` that start at index `i`. The result is `none` when the loop reads a
character beyond the terminator of the line. -/
def label_loop : List Char → Nat → WINDOW → Option (Nat × WINDOW)
  | [], _, _ => none
  | x :: rest, i, w =>
    match rest with
    | [] => none
    | y :: _ =>
      if y = ']' then some (i + 1, w.waddnwstr x) else label_loop rest (i + 1) (w.waddnwstr x)

/-- Line 679, `while (*i != L')') i++;`, on the characters `rest` that start at index `i`.
The result is `none` when the loop reads a character beyond the terminator of the line. -/
def target_loop : List Char → Nat → Option Nat
  | [], _ => none
  | x :: rest, i => if x = ')' then some i else target_loop rest (i + 1)

/-- The `switch` of lines 606-625: the action of a closing symbol `c`. -/
def close_action (colors : Bool) (c : Char) (w : WINDOW) : WINDOW :=
  if c = '\\' then w.waddnwstr c
  else if c = '*' then (if colors then w.wattron_pair CP_FG else w)
  else if c = '_' then w.wattroff_underline
  else if c = '`' then (if colors then w.wattron_pair CP_FG else w)
  else w

/-- The `switch` of lines 693-708: the action of an opening symbol `c`. -/
def open_action (colors : Bool) (c : Char) (w : WINDOW) : WINDOW :=
  if c = '*' then (if colors then w.wattron_pair CP_BOLD else w)
  else if c = '_' then w.wattron_underline
  else if c = '`' then w.wattron_pair CP_CODE
  else w

/-- Lines 643-647: the condition under which a symbol at index `i` may open markup. -/
def may_open (s : List Char) (i : Nat) : Bool :=
  i = 0 || iswspace (peek s (i - 1)) ||
    ((iswspace (peek s (i - 1)) || peek s (i - 1) = '*' || peek s (i - 1) = '_') &&
      (i - 1 = 0 || iswspace (peek s (i - 2)))) ||
    peek s i = '\\'

/-- Lines 656-687: a reference `[label](target)` whose `[` stands at index `i`. The result is
the index of `i` after the reference and the new window and table, `none` when one of the
two loops reads beyond the terminator of the line. -/
def inline_link (s : List Char) (colors : Bool) (i : Nat) (w : WINDOW) (urls : List url_t) :
    Option (Nat × WINDOW × List url_t) :=
  let i := i + 1
  let w := if colors then w.wattron_pair CP_HEADER else w
  let w := w.wattron_underline
  let start_link_name := i
  match label_loop (s.drop i) i w with
  | none => none
  | some (i, w) =>
    let length_link_name := i - 1 - start_link_name
    let i := i + 1
    let i := i + 1
    let start_url := i
    match target_loop (s.drop i) i with
    | none => none
    | some i =>
      let r := url_add urls s start_link_name length_link_name start_url (i - start_url)
      let w := w.wprintw ([' ', '['] ++ (Nat.repr r.1).toList ++ [']'])
      let w := w.wattroff_underline
      let w := w.wattron_pair CP_FG
      some (i, w, r.2)

/-- Lines 649-711: a symbol at index `i` that stands where markup may open: a reference is
resolved, or the symbol takes its opening action; then `*i` is pushed on the stack. -/
def inline_open (s : List Char) (colors : Bool) (i : Nat) (st : inline_state) :
    Option (Nat × inline_state) :=
  let c := peek s i
  if (c = '[' && (wcschr s i ']').isSome) ||
      (c = '!' && peek s (i + 1) = '[' && (wcschr s i ']').isSome) then
    let i := if c = '!' then i + 1 else i
    match wcschr s i ']' with
    | none => none
    | some j =>
      if peek s (j + 1) = '(' && (wcschr s i ')').isSome then
        match inline_link s colors i st.window st.urls with
        | none => none
        | some (i, w, urls) =>
          some (i, { window := w, stack := st.stack.push (peek s i), urls := urls })
      else
        some (i, { st with window := st.window.wprintw ['['],
                           stack := st.stack.push (peek s i) })
  else
    some (i, { st with window := open_action colors c st.window, stack := st.stack.push c })

/-- Lines 598-725: the body of the loop `for(; *i; i++)` of `inline_display` for the
character at index `i`, which is not the terminator. The result is the index of `i` at the
end of the body and the new state, `none` when the body reads beyond the terminator. -/
def inline_body (s : List Char) (colors : Bool) (i : Nat) (st : inline_state) :
    Option (Nat × inline_state) :=
  let c := peek s i
  if special.contains c then
    if st.stack.top c && (!iswalnum (peek s (i + 1)) || peek s (i + 1) = '\x00' || c = '\\') then
      some (i, { st with window := close_action colors c st.window, stack := st.stack.pop })
    else if st.stack.top '\\' then
      some (i, { st with window := st.window.waddnwstr c, stack := st.stack.pop })
    else if may_open s i then inline_open s colors i st
    else some (i, { st with window := st.window.waddnwstr c })
  else
    some (i, { st with window := st.window.waddnwstr c,
                       stack := if st.stack.top '\\' then st.stack.pop else st.stack })

/-- The outcome of a run of the interpreter. -/
inductive Run (α : Type) where
  /-- The run returns. -/
  | ok (a : α)
  /-- The run reads a character beyond the terminator of the line. -/
  | fault
  /-- The fuel given to the run is used up. -/
  | stuck
deriving DecidableEq, Repr

/-- Lines 596-726: the loop `for(; *i; i++)` of `inline_display` from index `i` on, with
`fuel` iterations allowed. -/
def inline_loop (s : List Char) (colors : Bool) : Nat → Nat → inline_state → Run inline_state
  | 0, _, _ => Run.stuck
  | fuel + 1, i, st =>
    if peek s i = '\x00' then Run.ok st
    else
      match inline_body s colors i st with
      | none => Run.fault
      | some (i, st) => inline_loop s colors fuel (i + 1) st

/-- Lines 729-747: the stack is popped until it is empty, each symbol with its action. -/
def drain (colors : Bool) : cstack_t → WINDOW → WINDOW
  | [], w => w
  | c :: stack, w =>
    drain colors stack
      (if c = '*' then (if colors then w.wattron_pair CP_FG else w)
       else if c = '_' then w.wattroff_underline
       else if c = '`' then (if colors then w.wattron_pair CP_FG else w)
       else w)

/-- Lines 592-726 of `inline_display`: the scan of the line `s` with a new, empty stack. -/
def inline_scan (s : List Char) (colors : Bool) (w : WINDOW) (urls : List url_t) :
    Run inline_state :=
  inline_loop s colors (s.length + 1) 0 { window := w, stack := [], urls := urls }

/-- `void inline_display(WINDOW *window, const wchar_t *c, const int colors)` on the line
`s` that `c` points to; the result is the window and the link table afterwards. -/
def inline_display (s : List Char) (colors : Bool) (w : WINDOW) (urls : List url_t) :
    Run (WINDOW × List url_t) :=
  match inline_scan s colors w urls with
  | Run.ok st => Run.ok (drain colors st.stack st.window, st.urls)
  | Run.fault => Run.fault
  | Run.stuck => Run.stuck

/-- The attributes that `add_line` leaves on the window at the end of every line, and that
a window has at first: the colour pair `CP_FG` when colours are enabled (otherwise the
initial pair 0) and no underline. -/
def default_window (colors : Bool) : WINDOW :=
  { pair := if colors then CP_FG else 0, underline := false, out := [] }

/-- The window attributes that differ from the default ones are accounted for by a symbol on
the stack: a colour pair other than `CP_FG` by a `*` or a backtick, underline by a `_`. -/
def attrs_tracked (w : WINDOW) (stack : cstack_t) : Prop :=
  (w.pair ≠ CP_FG → '*' ∈ stack ∨ '`' ∈ stack) ∧ (w.underline = true → '_' ∈ stack)

/-! ## `src/viewer.c`: layout pass and navigation of `ncurses_display` -/

namespace Viewer

/-- Modelled from the spec: a Line as `viewer.c` reads it (`line_t` of the absent
`parser.h`): the characters of `line->text->value` (`[]` when it is `NULL`), the display
length `line->length` in columns and the classification bitmask. -/
structure line_t where
  text : List Char
  length : Int
  bits : Nat
deriving DecidableEq, Repr

/-- Modelled from the spec: a Slide (`slide_t`): the chain of its lines, the rows it
occupies after wrapping and its stop-count. Its `prev`/`next` links are its position in
the chain of slides. -/
structure slide_t where
  line : List line_t
  lines_consumed : Int
  stop : Int
deriving DecidableEq, Repr

/-- Modelled from the spec: a Deck (`deck_t`): the chain of slides starting at
`deck->slide` and the number of header lines `deck->headers`. -/
structure deck_t where
  slide : List slide_t
  headers : Int
deriving DecidableEq, Repr

/-- Modelled from the spec: the slide count `deck->slides` that the deck owns, the number of
slides of its chain. -/
def deck_t.slides (deck : deck_t) : Int := deck.slide.length

/-- What the layout pass takes from outside `viewer.c`: the terminal geometry `COLS` and
`LINES` of curses, and the two scans of the absent `url.c` for references in a line, the
number of references and the number of columns that their targets take. -/
structure screen_t where
  COLS : Nat
  LINES : Nat
  url_count_inline : List Char → Nat
  url_len_inline : List Char → Nat

/-- Modelled from the spec: `prev_blank(text, i)` searches backward from index `i` for the
nearest blank and returns its index, or 0 when it meets none. -/
def prev_blank (text : List Char) : Nat → Nat
  | 0 => 0
  | i + 1 => if iswspace (peek text (i + 1)) then i + 1 else prev_blank text i

/-- The two fatal layout conditions, with the numbers that the diagnostic prints. -/
inductive fatal_t where
  /-- Terminal width (`cols` columns) too small, `need` columns needed. -/
  | too_narrow (cols : Int) (need : Int)
  /-- Terminal height (`lines` lines) too small, `need` lines needed for slide `slide`. -/
  | too_short (lines : Int) (need : Int) (slide : Int)
deriving DecidableEq, Repr

/-- The outcome of a part of the layout pass. -/
inductive layout_result (α : Type) where
  /-- The part is done. -/
  | ok (a : α)
  /-- A diagnostic is printed and `ncurses_display` returns 0. -/
  | fatal (e : fatal_t)
  /-- The fuel given to a loop is used up. -/
  | stuck
deriving DecidableEq, Repr

/-- The variables `i`, `offset`, `lc` and `max_cols` of the layout pass. -/
structure wrap_t where
  i : Int
  offset : Nat
  lc : Int
  max_cols : Int
deriving DecidableEq, Repr

/-- Lines 72-99: the loop `while(i > COLS)` over one line, with `fuel` iterations allowed. -/
def wrap_loop (COLS : Nat) (text : List Char) (length : Int) :
    Nat → wrap_t → layout_result wrap_t
  | 0, _ => layout_result.stuck
  | fuel + 1, s =>
    if s.i > COLS then
      if (prev_blank text (s.offset + COLS) : Int) - s.offset = 0 then
        layout_result.fatal
          (fatal_t.too_narrow COLS ((next_blank text (s.offset + COLS) : Int) - s.offset))
      else
        wrap_loop COLS text length fuel
          { i := length - (prev_blank text (s.offset + COLS) : Int),
            offset := prev_blank text (s.offset + COLS),
            lc := s.lc + 1,
            max_cols := max ((prev_blank text (s.offset + COLS) : Int) - s.offset) s.max_cols }
    else layout_result.ok s

/-- Lines 64-107: the layout of one line; the result is the line with its new length and
the new values of `lc` and `max_cols`. -/
def layout_line (scr : screen_t) (line : line_t) (lc max_cols : Int) :
    layout_result (line_t × Int × Int) :=
  let lc := if line.text ≠ [] then lc + scr.url_count_inline line.text else lc
  let length := if line.text ≠ [] then line.length - scr.url_len_inline line.text
    else line.length
  if length > scr.COLS then
    match wrap_loop scr.COLS line.text length (line.text.length + 1)
        { i := length, offset := 0, lc := lc, max_cols := max_cols } with
    | layout_result.ok s =>
      layout_result.ok ({ line with length := length }, s.lc + 1, max s.i s.max_cols)
    | layout_result.fatal e => layout_result.fatal e
    | layout_result.stuck => layout_result.stuck
  else layout_result.ok ({ line with length := length }, lc + 1, max length max_cols)

/-- Lines 62-108: the loop over the lines of one slide. -/
def layout_lines (scr : screen_t) :
    List line_t → Int → Int → layout_result (List line_t × Int × Int)
  | [], lc, max_cols => layout_result.ok ([], lc, max_cols)
  | line :: rest, lc, max_cols =>
    match layout_line scr line lc max_cols with
    | layout_result.ok (line, lc, max_cols) =>
      match layout_lines scr rest lc max_cols with
      | layout_result.ok (lines, lc, max_cols) => layout_result.ok (line :: lines, lc, max_cols)
      | layout_result.fatal e => layout_result.fatal e
      | layout_result.stuck => layout_result.stuck
    | layout_result.fatal e => layout_result.fatal e
    | layout_result.stuck => layout_result.stuck

/-- The variables `max_lines`, `max_lines_slide`, `max_cols` and `sc` of the layout pass. -/
structure layout_t where
  max_lines : Int
  max_lines_slide : Int
  max_cols : Int
  sc : Int
deriving DecidableEq, Repr

/-- Lines 58-118: the loop over the slides of the deck. -/
def layout_slides (scr : screen_t) :
    List slide_t → layout_t → layout_result (List slide_t × layout_t)
  | [], s => layout_result.ok ([], s)
  | slide :: rest, s =>
    match layout_lines scr slide.line 0 s.max_cols with
    | layout_result.ok (lines, lc, max_cols) =>
      match layout_slides scr rest
          { max_lines := max lc s.max_lines,
            max_lines_slide := if lc = max lc s.max_lines then s.sc else s.max_lines_slide,
            max_cols := max_cols,
            sc := s.sc + 1 } with
      | layout_result.ok (slides, s) =>
        layout_result.ok ({ slide with line := lines, lines_consumed := lc } :: slides, s)
      | layout_result.fatal e => layout_result.fatal e
      | layout_result.stuck => layout_result.stuck
    | layout_result.fatal e => layout_result.fatal e
    | layout_result.stuck => layout_result.stuck

/-- The key bindings of the absent `config.h`, each array up to its terminating 0. -/
structure config_h where
  prev_slide_binding : List Int
  next_slide_binding : List Int
  first_slide_binding : List Int
  last_slide_binding : List Int
  reload_binding : List Int
  quit_binding : List Int
deriving DecidableEq, Repr

/-- The conversion of an `int` to the `char` parameter of `evaluate_binding` and
`get_slide_number` (a signed 8-bit `char`). -/
def char_of_int (c : Int) : Int := (c + 128) % 256 - 128

/-- `bool evaluate_binding(const int bindings[], char c)`; `bindings` is the array up to its
terminating 0, and an earlier 0 ends the search as well. -/
def evaluate_binding : List Int → Int → Bool
  | [], _ => false
  | binding :: rest, c =>
    if binding = 0 then false else if c = binding then true else evaluate_binding rest c

/-- The value `ERR` that `getch` returns when no key arrives within the half-delay. -/
def ERR : Int := -1

/-- The value of an `int` expression: it wraps modulo `2^32`, as on the usual
two's-complement targets (the C standard leaves the overflow undefined). -/
def int32 (x : Int) : Int := (x + 2147483648) % 4294967296 - 2147483648

/-- The loop of `get_slide_number` over the values `getch` returns next; when the sequence
is over, no key arrives and `getch` returns `ERR`. The result is `retval` and the values
not read. -/
def get_slide_loop : List Int → Int → Int × List Int
  | [], retval => (retval, [])
  | c :: keys, retval =>
    if c = ERR then (retval, keys)
    else if c < 48 ∨ c > 57 then (-1, keys)
    else get_slide_loop keys (int32 (retval * 10 + (c - 48)))

/-- `int get_slide_number(char init)`. -/
def get_slide_number (init : Int) (keys : List Int) : Int × List Int :=
  get_slide_loop keys (int32 (init - 48))

/-- The chain of slides with the pointer `slide` into it, and the slide counter `sc`: the
slides in front of `slide`, the nearest first (following `prev`), `slide` itself and the
slides behind it (following `next`). -/
structure nav_t where
  before : List slide_t
  slide : slide_t
  after : List slide_t
  sc : Int
deriving DecidableEq, Repr

/-- The slide count `deck->slides` of the deck that a navigation state stands in. -/
def nav_t.slides (st : nav_t) : Int := st.before.length + 1 + st.after.length

/-- The chain of slides of a navigation state from `deck->slide` on. -/
def nav_t.chain (st : nav_t) : List slide_t := st.before.reverse ++ st.slide :: st.after

/-- Lines 245-263: the loop that prints the lines of the current slide, from the line
`line` on with `stop` stop bits passed; `S` is `slide->stop`. The result is `stop` and the
chain that `line` points to when the loop ends (`[]` for `NULL`). -/
def print_loop (IS_STOP : Nat) (S : Int) : List line_t → Int → Int × List line_t
  | [], stop => (stop, [])
  | line :: rest, stop =>
    if (if CHECK_BIT line.bits IS_STOP ≠ 0 then stop + 1 else stop) > S then
      (if CHECK_BIT line.bits IS_STOP ≠ 0 then stop + 1 else stop, rest)
    else print_loop IS_STOP S rest (if CHECK_BIT line.bits IS_STOP ≠ 0 then stop + 1 else stop)

/-- The values of `stop` and `line` after the frame of the current slide is printed. -/
def frame (IS_STOP : Nat) (st : nav_t) : Int × List line_t :=
  print_loop IS_STOP st.slide.stop st.slide.line 0

/-- Lines 291-305: the branch of the keys of `prev_slide_binding`. -/
def key_prev (IS_STOP : Nat) (st : nav_t) : nav_t :=
  if (frame IS_STOP st).1 > 1 ∨ ((frame IS_STOP st).1 = 1 ∧ (frame IS_STOP st).2 = []) then
    { st with slide := { st.slide with stop := st.slide.stop - 1 } }
  else
    match st.before with
    | [] => st
    | prev :: before =>
      { before := before,
        slide := { prev with stop := if prev.stop > 0 then 0 else prev.stop },
        after := st.slide :: st.after,
        sc := st.sc - 1 }

/-- The statements `slide = slide->next; sc++;` guarded by `if(slide->next)`. -/
def step_next (st : nav_t) : nav_t :=
  match st.after with
  | [] => st
  | next :: after =>
    { before := st.slide :: st.before, slide := next, after := after, sc := st.sc + 1 }

/-- The statements `slide = slide->prev; sc--;` guarded by `if(slide->prev)`. -/
def step_prev (st : nav_t) : nav_t :=
  match st.before with
  | [] => st
  | prev :: before =>
    { before := before, slide := prev, after := st.slide :: st.after, sc := st.sc - 1 }

/-- Lines 307-318: the branch of the keys of `next_slide_binding`. -/
def key_next (IS_STOP : Nat) (st : nav_t) : nav_t :=
  if (frame IS_STOP st).1 ≠ 0 ∧ (frame IS_STOP st).2 ≠ [] then
    { st with slide := { st.slide with stop := st.slide.stop + 1 } }
  else step_next st

/-- Lines 323-337: the loop `while(sc != i)`, with `fuel` iterations allowed; `none` when
the fuel is used up. -/
def goto_walk (i : Int) : Nat → nav_t → Option nav_t
  | 0, _ => none
  | fuel + 1, st =>
    if st.sc ≠ i then
      if st.sc < i then goto_walk i fuel (step_next st) else goto_walk i fuel (step_prev st)
    else some st

/-- Lines 340-342: `slide = deck->slide; sc = 1;`. -/
def key_first (st : nav_t) : nav_t :=
  match st.chain with
  | [] => st
  | first :: rest => { before := [], slide := first, after := rest, sc := 1 }

/-- Lines 345-350: the loop `for(i = sc; i <= deck->slides; i++)` with `k` iterations. -/
def last_loop : Nat → nav_t → nav_t
  | 0, st => st
  | k + 1, st => last_loop k (step_next st)

/-- The branch of the chain of `if`/`else if` of lines 290-363 that a key takes. -/
inductive branch_t where
  | prev
  | next
  | digit
  | first
  | last
  | reload
  | quit
  | other
deriving DecidableEq, Repr

/-- The tests of lines 290-358 on the key `c` that `getch` returned, in their order. -/
def key_branch (cfg : config_h) (c : Int) : branch_t :=
  if evaluate_binding cfg.prev_slide_binding (char_of_int c) then branch_t.prev
  else if evaluate_binding cfg.next_slide_binding (char_of_int c) then branch_t.next
  else if (decide (48 ≤ c) && decide (c ≤ 57)) && decide (c ≠ 48) then branch_t.digit
  else if evaluate_binding cfg.first_slide_binding (char_of_int c) then branch_t.first
  else if evaluate_binding cfg.last_slide_binding (char_of_int c) then branch_t.last
  else if evaluate_binding cfg.reload_binding (char_of_int c) then branch_t.reload
  else if evaluate_binding cfg.quit_binding (char_of_int c) then branch_t.quit
  else branch_t.other

/-- What one pass of the loop `while(slide)` leads to. -/
inductive nav_result where
  /-- The loop goes on in the state `st`; `keys` are the values `getch` returns next. -/
  | next (st : nav_t) (keys : List Int)
  /-- The loop ends and `ncurses_display` returns `reload`. -/
  | ret (reload : Int) (keys : List Int)
  /-- The fuel given to the loop `while(sc != i)` is used up. -/
  | stuck
deriving DecidableEq, Repr

/-- Lines 184-366: one pass of the loop `while(slide)` in the state `st`, in which `getch`
returns the key `c`; `keys` are the values it returns afterwards. -/
def on_key (cfg : config_h) (IS_STOP : Nat) (noreload : Int) (st : nav_t) (c : Int)
    (keys : List Int) : nav_result :=
  match key_branch cfg c with
  | branch_t.prev => nav_result.next (key_prev IS_STOP st) keys
  | branch_t.next => nav_result.next (key_next IS_STOP st) keys
  | branch_t.digit =>
    if (get_slide_number (char_of_int c) keys).1 > 0 ∧
        (get_slide_number (char_of_int c) keys).1 ≤ st.slides then
      match goto_walk (get_slide_number (char_of_int c) keys).1 (st.slides.toNat + 1) st with
      | some st => nav_result.next st (get_slide_number (char_of_int c) keys).2
      | none => nav_result.stuck
    else nav_result.next st (get_slide_number (char_of_int c) keys).2
  | branch_t.first => nav_result.next (key_first st) keys
  | branch_t.last => nav_result.next (last_loop (st.slides - st.sc + 1).toNat st) keys
  | branch_t.reload =>
    if noreload = 0 then nav_result.ret st.sc keys else nav_result.next st keys
  | branch_t.quit => nav_result.ret 0 keys
  | branch_t.other => nav_result.next st keys

/-- How a call of `ncurses_display` ends. -/
inductive outcome where
  /-- It returns `reload`, after the diagnostic `error` if any; `keys` were not read. -/
  | returned (reload : Int) (error : Option fatal_t) (keys : List Int)
  /-- It waits in `getch` for a key that does not arrive, in the state `st`. -/
  | waiting (st : nav_t)
  /-- The fuel given to a loop is used up. -/
  | stuck
deriving DecidableEq, Repr

/-- Lines 184-366: the loop `while(slide)` over the values `keys` that `getch` returns, with
`fuel` passes allowed. -/
def display_loop (cfg : config_h) (IS_STOP : Nat) (noreload : Int) :
    Nat → nav_t → List Int → outcome
  | 0, _, _ => outcome.stuck
  | _ + 1, st, [] => outcome.waiting st
  | fuel + 1, st, c :: keys =>
    match on_key cfg IS_STOP noreload st c keys with
    | nav_result.next st keys => display_loop cfg IS_STOP noreload fuel st keys
    | nav_result.ret reload keys => outcome.returned reload none keys
    | nav_result.stuck => outcome.stuck

/-- Lines 173-179: the loop `while(reload > 1 && reload <= deck->slides)` for the value
`reload`; `none` when `slide` becomes `NULL`. -/
def seek_loop (slides : Int) : Nat → nav_t → Option nav_t
  | 0, st => some st
  | reload + 1, st =>
    if (reload + 1 : Nat) > 1 ∧ ((reload + 1 : Nat) : Int) ≤ slides then
      match st.after with
      | [] => none
      | next :: after =>
        seek_loop slides reload
          { before := st.slide :: st.before, slide := next, after := after, sc := st.sc + 1 }
    else some st

/-- Lines 171-182: the state in which the loop `while(slide)` is entered for the chain of
slides `first :: rest` and the argument `reload`. -/
def seek (first : slide_t) (rest : List slide_t) (reload : Int) : Option nav_t :=
  seek_loop (rest.length + 1) reload.toNat { before := [], slide := first, after := rest, sc := 1 }

/-- `int ncurses_display(deck_t *deck, int reload, int noreload, int slidenum)`, for the
sequence `keys` of values that `getch` returns. -/
def ncurses_display (cfg : config_h) (scr : screen_t) (IS_STOP : Nat) (deck : deck_t)
    (reload noreload slidenum : Int) (keys : List Int) : outcome :=
  let bar_top : Int := if deck.headers > 0 then 1 else 0
  let bar_bottom : Int := if slidenum ≠ 0 ∨ deck.headers > 1 then 1 else 0
  match layout_slides scr deck.slide
      { max_lines := 0, max_lines_slide := -1, max_cols := 0, sc := 1 } with
  | layout_result.fatal e => outcome.returned 0 (some e) keys
  | layout_result.stuck => outcome.stuck
  | layout_result.ok (slides, s) =>
    if s.max_lines + bar_top + bar_bottom > scr.LINES then
      outcome.returned 0
        (some (fatal_t.too_short scr.LINES (s.max_lines + bar_top + bar_bottom)
          s.max_lines_slide)) keys
    else
      match slides with
      | [] => outcome.returned 0 none keys
      | first :: rest =>
        match seek first rest reload with
        | none => outcome.returned 0 none keys
        | some st => display_loop cfg IS_STOP noreload (keys.length + 1) st keys

/-- The layout pass of `ncurses_display` reaches the line `line` of the deck `slides` with
the values `lc` and `max_cols`: the lines in front of it, in slide order and line order,
wrap without error. -/
def layout_reaches (scr : screen_t) (slides : List slide_t) (line : line_t)
    (lc max_cols : Int) : Prop :=
  ∃ (sb sa : List slide_t) (slide : slide_t) (lb la : List line_t) (sb' : List slide_t)
    (s : layout_t) (lb' : List line_t),
    slides = sb ++ slide :: sa ∧ slide.line = lb ++ line :: la ∧
    layout_slides scr sb { max_lines := 0, max_lines_slide := -1, max_cols := 0, sc := 1 } =
      layout_result.ok (sb', s) ∧
    layout_lines scr lb 0 s.max_cols = layout_result.ok (lb', lc, max_cols)

/-- The states in which a call of `ncurses_display` on the chain of slides `first :: rest`
with the argument `reload` can wait for a key: the state in which the loop `while(slide)`
is entered, and every state that one pass of the loop leads to from such a state, whatever
`getch` returns. -/
inductive reachable (cfg : config_h) (IS_STOP : Nat) (noreload : Int) (first : slide_t)
    (rest : List slide_t) (reload : Int) : nav_t → Prop where
  /-- The state in which the loop is entered. -/
  | start (st : nav_t) : seek first rest reload = some st →
      reachable cfg IS_STOP noreload first rest reload st
  /-- The state after one more pass of the loop. -/
  | step (st st' : nav_t) (c : Int) (keys keys' : List Int) :
      reachable cfg IS_STOP noreload first rest reload st →
      on_key cfg IS_STOP noreload st c keys = nav_result.next st' keys' →
      reachable cfg IS_STOP noreload first rest reload st'

/-- The decimal value of the digit key `init` followed by the digit keys `digits`, as an
integer without bound. -/
def decimal_value (init : Int) (digits : List Int) : Int :=
  digits.foldl (fun v d => v * 10 + (d - 48)) (init - 48)

/-- The line has its stop bit set: `CHECK_BIT(line->bits, IS_STOP)` is non-zero. -/
def stop_flagged (IS_STOP : Nat) (line : line_t) : Bool :=
  decide (CHECK_BIT line.bits IS_STOP ≠ 0)

/-- The key bindings `k`, `j`, `g`, `G`, `r` and `q` for the previous, next, first and last
slide, reload and quit, used in the evaluations. -/
def bindings_kjgGrq : config_h :=
  { prev_slide_binding := [107], next_slide_binding := [106], first_slide_binding := [103],
    last_slide_binding := [71], reload_binding := [114], quit_binding := [113] }

/-- A slide of one line without stop bit, with the text `text`, as the layout pass leaves
it. -/
def plain_slide (text : String) : slide_t :=
  { line := [{ text := text.toList, length := text.length, bits := 0 }],
    lines_consumed := 1, stop := 0 }

/-- The deck without header whose slides are the `plain_slide`s of `texts`. -/
def plain_deck (texts : List String) : deck_t :=
  { slide := texts.map plain_slide, headers := 0 }

/-- A terminal of 80 columns and 24 lines, for lines without references. -/
def screen_80x24 : screen_t :=
  { COLS := 80, LINES := 24, url_count_inline := fun _ => 0, url_len_inline := fun _ => 0 }

/-- The state `st` with the stop-count of its current slide set to `n`. -/
def with_stop (st : nav_t) (n : Int) : nav_t :=
  { st with slide := { st.slide with stop := n } }

/-- A line with the text `text` whose only bit is the stop bit, at position `IS_STOP`. -/
def stop_line (IS_STOP : Nat) (text : String) : line_t :=
  { text := text.toList, length := text.length, bits := SET_BIT 0 IS_STOP }

/-- A line with the text `text` and no bit set. -/
def plain_line (text : String) : line_t :=
  { text := text.toList, length := text.length, bits := 0 }

/-- The state on the second of three slides, between `plain_slide "p"` and
`plain_slide "n"`, for a current slide with the lines `lines` and the stop-count `stop`. -/
def middle_state (lines : List line_t) (stop : Int) : nav_t :=
  { before := [plain_slide "p"],
    slide := { line := lines, lines_consumed := lines.length, stop := stop },
    after := [plain_slide "n"], sc := 2 }

/-- The first stop-flagged line of the slide is its last line: the lines from the first
stop-flagged line on are that line alone. -/
def stops_at_last_line (IS_STOP : Nat) (slide : slide_t) : Bool :=
  (slide.line.dropWhile (fun l => !stop_flagged IS_STOP l)).length == 1

/-- The number of stop-flagged lines of the slide. -/
def stop_lines (IS_STOP : Nat) (slide : slide_t) : Nat :=
  slide.line.countP (stop_flagged IS_STOP)

/-- The bounds on the stop-count of a slide that every pass of the key loop keeps: it is at
most the number of stop-flagged lines, and it is not negative unless the first stop-flagged
line of the slide is its last line. -/
def stop_bounded (IS_STOP : Nat) (slide : slide_t) : Prop :=
  slide.stop ≤ (stop_lines IS_STOP slide : Int) ∧
    (stops_at_last_line IS_STOP slide = false → 0 ≤ slide.stop)

/-- A property holds for every slide of the chain of a navigation state. -/
def nav_t.all (st : nav_t) (P : slide_t → Prop) : Prop :=
  (∀ sl ∈ st.before, P sl) ∧ P st.slide ∧ ∀ sl ∈ st.after, P sl

end Viewer

/-! ## The line classifier -/

theorem cstring_at_lt (text : cstring_t) (i : Nat) (h : i < text.length) :
    text.at i = text[i] := by
  simp [cstring_t.at, List.getD, List.getElem?_eq_getElem h]

theorem next_nonblank_loop_eq (text : cstring_t) :
    ∀ fuel i, fuel = text.length - i →
      next_nonblank_loop text fuel i = i + ((text.drop i).takeWhile isspace).length := by
  intro fuel
  induction fuel with
  | zero =>
    intro i h
    have : text.length ≤ i := by omega
    simp [next_nonblank_loop, List.drop_eq_nil_of_le this]
  | succ n ih =>
    intro i h
    have hi : i < text.length := by omega
    rw [next_nonblank_loop, List.drop_eq_getElem_cons hi, cstring_at_lt text i hi]
    by_cases hs : isspace text[i] = true
    · simp only [hi, hs, decide_True, Bool.and_self, if_true, List.takeWhile_cons, List.length_cons]
      rw [ih (i + 1) (by omega)]
      omega
    · simp [hs, List.takeWhile_cons]

/-- The value of `next_nonblank(text, 0)` is the length of the leading run of white space. -/
theorem next_nonblank_zero (text : cstring_t) :
    next_nonblank text 0 = (text.takeWhile isspace).length := by
  have h := next_nonblank_loop_eq text (text.length - 0) 0 rfl
  simpa [next_nonblank] using h

theorem next_nonblank_zero_le (text : cstring_t) : next_nonblank text 0 ≤ text.length := by
  rw [next_nonblank_zero]
  have h := congrArg List.length (List.takeWhile_append_dropWhile isspace text)
  rw [List.length_append] at h
  omega

theorem check_set_bit (p q : Nat) : CHECK_BIT (SET_BIT 0 p) q ≠ 0 ↔ q = p := by
  simp only [CHECK_BIT, SET_BIT, Nat.zero_or, Nat.one_shiftLeft, Nat.and_two_pow,
    Nat.testBit_two_pow]
  by_cases h : p = q
  · subst h; simp
  · simp [h, Ne.symm h]

theorem strip_trailing_le (text : cstring_t) (offset : Nat) :
    ∀ n, strip_trailing text offset n ≤ n := by
  intro n
  induction n with
  | zero => simp [strip_trailing]
  | succ n ih =>
    rw [strip_trailing]
    split
    · omega
    · omega

theorem strip_trailing_ge (text : cstring_t) (offset : Nat) :
    ∀ n, offset ≤ n → offset ≤ strip_trailing text offset n := by
  intro n
  induction n with
  | zero => intro h; simpa [strip_trailing] using h
  | succ n ih =>
    intro h
    rw [strip_trailing]
    split
    · rename_i hc
      simp only [Bool.and_eq_true, decide_eq_true_eq] at hc
      exact ih (by omega)
    · exact h

theorem strip_trailing_space (text : cstring_t) (offset : Nat) :
    ∀ n k, strip_trailing text offset n ≤ k → k < n → isspace (text.at k) = true := by
  intro n
  induction n with
  | zero => intro k _ h; omega
  | succ n ih =>
    intro k hk hlt
    rw [strip_trailing] at hk
    split at hk
    · rename_i hc
      simp only [Bool.and_eq_true, decide_eq_true_eq] at hc
      by_cases hkn : k = n
      · subst hkn; exact hc.2
      · exact ih k hk (by omega)
    · omega

theorem tally_loop_eq (text : cstring_t) (eol : Nat) (he : eol ≤ text.length) :
    ∀ fuel i t, fuel = eol - i →
      tally_loop text eol fuel i t = ((text.drop i).take (eol - i)).foldl Tally.count t := by
  intro fuel
  induction fuel with
  | zero =>
    intro i t h
    simp [tally_loop, ← h]
  | succ n ih =>
    intro i t h
    have hi : i < eol := by omega
    have hl : i < text.length := by omega
    rw [tally_loop, if_pos hi, ih (i + 1) _ (by omega), List.drop_eq_getElem_cons hl,
      cstring_at_lt text i hl]
    have : eol - i = (eol - (i + 1)) + 1 := by omega
    rw [this, List.take_succ_cons, List.foldl_cons]

theorem tally_count_fields (t : Tally) (c : Char) :
    (t.count c).equals = t.equals + (if c = '=' then 1 else 0) ∧
    (t.count c).hashes = t.hashes + (if c = '#' then 1 else 0) ∧
    (t.count c).stars = t.stars + (if c = '*' then 1 else 0) ∧
    (t.count c).minus = t.minus + (if c = '-' then 1 else 0) ∧
    (t.count c).plus = t.plus + (if c = '+' then 1 else 0) := by
  unfold Tally.count
  by_cases e1 : c = '='
  · subst e1; simp +decide
  by_cases e2 : c = '#'
  · subst e2; simp +decide
  by_cases e3 : c = '*'
  · subst e3; simp +decide
  by_cases e4 : c = '-'
  · subst e4; simp +decide
  by_cases e5 : c = '+'
  · subst e5; simp +decide
  by_cases e6 : c = ' ' <;> simp [e1, e2, e3, e4, e5, e6]

theorem tally_foldl (l : List Char) : ∀ t : Tally,
    (l.foldl Tally.count t).equals = t.equals + l.count '=' ∧
    (l.foldl Tally.count t).hashes = t.hashes + l.count '#' ∧
    (l.foldl Tally.count t).stars = t.stars + l.count '*' ∧
    (l.foldl Tally.count t).minus = t.minus + l.count '-' ∧
    (l.foldl Tally.count t).plus = t.plus + l.count '+' := by
  induction l with
  | nil => intro t; simp
  | cons c cs ih =>
    intro t
    rw [List.foldl_cons]
    obtain ⟨h1, h2, h3, h4, h5⟩ := ih (t.count c)
    obtain ⟨g1, g2, g3, g4, g5⟩ := tally_count_fields t c
    rw [h1, h2, h3, h4, h5, g1, g2, g3, g4, g5]
    simp only [List.count_cons, beq_iff_eq]
    refine ⟨?_, ?_, ?_, ?_, ?_⟩ <;> omega

/-- A character that is not white space occurs as often between the leading and the trailing
blank run as in the whole line. -/
theorem count_trimmed (text : cstring_t) (c : Char) (hc : isspace c = false) :
    ((text.drop (next_nonblank text 0)).take
      (strip_trailing text (next_nonblank text 0) text.length - next_nonblank text 0)).count c =
      text.count c := by
  generalize ho : next_nonblank text 0 = offset
  generalize hE : strip_trailing text offset text.length = eol
  have hol : offset ≤ text.length := ho ▸ next_nonblank_zero_le text
  have hoe : offset ≤ eol := hE ▸ strip_trailing_ge text offset _ hol
  have hel : eol ≤ text.length := hE ▸ strip_trailing_le text offset _
  have h1 : text = text.take offset ++ ((text.drop offset).take (eol - offset) ++ text.drop eol) := by
    have e : text.drop eol = (text.drop offset).drop (eol - offset) := by
      rw [List.drop_drop]; congr 1; omega
    rw [e, List.take_append_drop, List.take_append_drop]
  have h2 : (text.take offset).count c = 0 := by
    rw [List.count_eq_zero]
    intro hm
    have : text.take offset = text.takeWhile isspace := by
      have h := List.takeWhile_append_dropWhile isspace text
      conv_lhs => rw [← h]
      rw [← ho, next_nonblank_zero, List.take_left]
    rw [this] at hm
    have := List.mem_takeWhile_imp hm
    rw [hc] at this
    exact Bool.false_ne_true this
  have h3 : (text.drop eol).count c = 0 := by
    rw [List.count_eq_zero]
    intro hm
    obtain ⟨k, hk, rfl⟩ := List.getElem_of_mem hm
    rw [List.getElem_drop] at hc
    rw [List.length_drop] at hk
    have := strip_trailing_space text offset text.length (eol + k) (by rw [hE]; omega)
      (by omega)
    rw [cstring_at_lt text (eol + k) (by omega), hc] at this
    exact Bool.false_ne_true this
  conv_rhs => rw [h1]
  rw [List.count_append, List.count_append, h2, h3]
  omega

/-- C1: a line whose leading run of white space has at least 4 characters is classified
with the bit `IS_CODE` and with no other bit, whatever follows the white space. -/
theorem markdown_analyse_indent_is_code (IS_CODE IS_HR : Nat) (text : cstring_t)
    (h : 4 ≤ (text.takeWhile isspace).length) :
    markdown_analyse IS_CODE IS_HR text = SET_BIT 0 IS_CODE ∧
      ∀ pos, CHECK_BIT (markdown_analyse IS_CODE IS_HR text) pos ≠ 0 ↔ pos = IS_CODE := by
  have hoff : next_nonblank text 0 ≥ 4 := by rw [next_nonblank_zero]; exact h
  have e : markdown_analyse IS_CODE IS_HR text = SET_BIT 0 IS_CODE := by
    unfold markdown_analyse
    simp only [hoff, if_true]
  refine ⟨e, fun pos => ?_⟩
  rw [e]
  exact check_set_bit IS_CODE pos

/-- Witness of C1: the line of four blanks followed by `---` has the bit `IS_CODE` (here
position 3) and not the bit `IS_HR` (here position 4). -/
theorem markdown_analyse_indent_is_code_witness :
    4 ≤ ("    ---".toList.takeWhile isspace).length ∧
      markdown_analyse 3 4 "    ---".toList = SET_BIT 0 3 ∧
      CHECK_BIT (markdown_analyse 3 4 "    ---".toList) 3 ≠ 0 ∧
      ¬ CHECK_BIT (markdown_analyse 3 4 "    ---".toList) 4 ≠ 0 :=
  ⟨by decide,
   (markdown_analyse_indent_is_code 3 4 "    ---".toList (by decide)).1,
   ((markdown_analyse_indent_is_code 3 4 "    ---".toList (by decide)).2 3).2 rfl,
   fun h => absurd (((markdown_analyse_indent_is_code 3 4 "    ---".toList (by decide)).2 4).1 h)
     (by decide)⟩

/-- C2: for a line whose leading run of white space is shorter than 4, `markdown_analyse`
sets `IS_HR` if and only if the line has at least 3 `-` and none of `= # * +`, or at least
3 `*` and none of `= # - +`. -/
theorem markdown_analyse_hr_iff (IS_CODE IS_HR : Nat) (text : cstring_t)
    (h : (text.takeWhile isspace).length < 4) :
    CHECK_BIT (markdown_analyse IS_CODE IS_HR text) IS_HR ≠ 0 ↔
      (3 ≤ text.count '-' ∧ text.count '=' = 0 ∧ text.count '#' = 0 ∧
        text.count '*' = 0 ∧ text.count '+' = 0) ∨
      (3 ≤ text.count '*' ∧ text.count '=' = 0 ∧ text.count '#' = 0 ∧
        text.count '-' = 0 ∧ text.count '+' = 0) := by
  have hoff : ¬ next_nonblank text 0 ≥ 4 := by rw [next_nonblank_zero]; omega
  have hel := strip_trailing_le text (next_nonblank text 0) text.length
  obtain ⟨t1, t2, t3, t4, t5⟩ := tally_foldl
    ((text.drop (next_nonblank text 0)).take
      (strip_trailing text (next_nonblank text 0) text.length - next_nonblank text 0)) {}
  have c1 := count_trimmed text '=' (by decide)
  have c2 := count_trimmed text '#' (by decide)
  have c3 := count_trimmed text '*' (by decide)
  have c4 := count_trimmed text '-' (by decide)
  have c5 := count_trimmed text '+' (by decide)
  rw [c1] at t1; rw [c2] at t2; rw [c3] at t3; rw [c4] at t4; rw [c5] at t5
  simp only [Nat.zero_add] at t1 t2 t3 t4 t5
  unfold markdown_analyse
  simp only [hoff, if_false]
  rw [tally_loop_eq text _ hel _ _ _ rfl, t1, t2, t3, t4, t5]
  split
  · rename_i hc
    simp only [check_set_bit, true_iff]
    simp only [Bool.or_eq_true, Bool.and_eq_true, decide_eq_true_eq, beq_iff_eq] at hc
    omega
  · rename_i hc
    simp only [CHECK_BIT, Nat.zero_and, ne_eq, not_true_eq_false, false_iff]
    simp only [Bool.or_eq_true, Bool.and_eq_true, decide_eq_true_eq, beq_iff_eq] at hc
    omega

/-- Witness of C2: `---` is a horizontal rule and `-- *` is not. -/
theorem markdown_analyse_hr_iff_witness :
    (("---".toList.takeWhile isspace).length < 4 ∧
      CHECK_BIT (markdown_analyse 3 4 "---".toList) 4 ≠ 0) ∧
    (("-- *".toList.takeWhile isspace).length < 4 ∧
      ¬ CHECK_BIT (markdown_analyse 3 4 "-- *".toList) 4 ≠ 0) :=
  ⟨⟨by decide, (markdown_analyse_hr_iff 3 4 "---".toList (by decide)).2 (by decide)⟩,
   ⟨by decide, fun h => absurd ((markdown_analyse_hr_iff 3 4 "-- *".toList (by decide)).1 h)
     (by decide)⟩⟩

/-! ## The loader -/

theorem input_lines_flatten (input : List Char) :
    ((input_lines input).1.map (fun l => l ++ ['\n'])).flatten ++ (input_lines input).2 = input := by
  induction input with
  | nil => rfl
  | cons c cs ih =>
    rw [input_lines]
    by_cases hc : c = '\n'
    · simp only [hc, if_true, List.map_cons, List.flatten_cons, List.nil_append,
        List.singleton_append, List.cons_append]
      rw [ih]
    · simp only [hc, if_false]
      cases h : (input_lines cs).1 with
      | nil =>
        rw [h] at ih
        simp only [List.map_nil, List.flatten_nil, List.nil_append] at ih ⊢
        rw [ih]
      | cons l ls =>
        rw [h] at ih
        simp only [List.map_cons, List.flatten_cons, List.cons_append, List.append_assoc] at ih ⊢
        rw [ih]

theorem load_step_foldl (IS_CODE IS_HR : Nat) (cs : List Char) : ∀ st : load_state,
    cs.foldl (load_step IS_CODE IS_HR) st =
      { (input_lines cs).1.foldl (feed_line IS_CODE IS_HR) st with
        text := (input_lines cs).2.foldl load_char
          ((input_lines cs).1.foldl (feed_line IS_CODE IS_HR) st).text } := by
  induction cs with
  | nil => intro st; rfl
  | cons c cs ih =>
    intro st
    rw [List.foldl_cons, ih, input_lines]
    by_cases hc : c = '\n'
    · simp only [hc, if_true, List.foldl_cons, load_step, feed_line, List.foldl_nil]
    · simp only [hc, if_false, load_step]
      cases h : (input_lines cs).1 with
      | nil => simp only [List.foldl_nil, List.foldl_cons]
      | cons l ls => simp only [List.foldl_cons, feed_line]

theorem load_newline_text (IS_CODE IS_HR : Nat) (st : load_state) :
    (load_newline IS_CODE IS_HR st).text = [] := by
  unfold load_newline
  dsimp only
  split <;> rfl

theorem feed_line_foldl (IS_CODE IS_HR : Nat) (ls : List (List Char)) : ∀ st : load_state,
    st.text = [] →
      ls.foldl (feed_line IS_CODE IS_HR) st = (ls.map load_text).foldl (add_text IS_CODE IS_HR) st ∧
      (ls.foldl (feed_line IS_CODE IS_HR) st).text = [] := by
  induction ls with
  | nil => intro st h; exact ⟨rfl, h⟩
  | cons l ls ih =>
    intro st h
    have e : feed_line IS_CODE IS_HR st l = add_text IS_CODE IS_HR st (load_text l) := by
      simp only [feed_line, add_text, load_text, h, cstring_init]
    have h2 : (feed_line IS_CODE IS_HR st l).text = [] := load_newline_text _ _ _
    obtain ⟨i1, i2⟩ := ih (feed_line IS_CODE IS_HR st l) h2
    refine ⟨?_, ?_⟩
    · rw [List.foldl_cons, List.map_cons, List.foldl_cons, i1, e]
    · rw [List.foldl_cons]; exact i2

/-- The reading loop of `markdown_load` in terms of the lines of the stream. -/
theorem load_loop_eq (IS_CODE IS_HR : Nat) (input : List Char) :
    load_loop IS_CODE IS_HR input =
      { (stored_lines input).foldl (add_text IS_CODE IS_HR)
          { closed := [], page := new_page, text := cstring_init } with
        text := load_text (input_lines input).2 } := by
  unfold load_loop
  rw [load_step_foldl]
  obtain ⟨h1, h2⟩ := feed_line_foldl IS_CODE IS_HR (input_lines input).1
    { closed := [], page := new_page, text := cstring_init } rfl
  rw [h2, h1]
  rfl

theorem modifyHead_id_of_eq {α : Type} (f : α → α) (hf : ∀ x, f x = x) (l : List α) :
    l.modifyHead f = l := by
  cases l with
  | nil => rfl
  | cons x xs => simp [List.modifyHead, hf]

theorem modifyHead_comp {α : Type} (f g : α → α) (l : List α) :
    (l.modifyHead g).modifyHead f = l.modifyHead (fun x => f (g x)) := by
  cases l with
  | nil => rfl
  | cons x xs => simp [List.modifyHead]

theorem add_text_foldl_pages (IS_CODE IS_HR : Nat) (ts : List cstring_t) : ∀ st : load_state,
    ((ts.foldl (add_text IS_CODE IS_HR) st).closed ++
        [(ts.foldl (add_text IS_CODE IS_HR) st).page]).map (fun p => p.line) =
      st.closed.map (fun p => p.line) ++
        ((ts.map (mk_line IS_CODE IS_HR)).splitOnP (fun l => is_hr IS_CODE IS_HR l.text)).modifyHead
          (fun x => st.page.line ++ x) := by
  induction ts with
  | nil => intro st; simp [List.modifyHead]
  | cons t ts ih =>
    intro st
    rw [List.foldl_cons, ih, List.map_cons, List.splitOnP_cons]
    by_cases hr : CHECK_BIT (markdown_analyse IS_CODE IS_HR t) IS_HR ≠ 0
    · have hr2 : is_hr IS_CODE IS_HR (mk_line IS_CODE IS_HR t).text = true := by
        simpa [is_hr, mk_line] using hr
      have e : add_text IS_CODE IS_HR st t =
          { closed := st.closed ++ [st.page], page := new_page, text := [] } := by
        unfold add_text load_newline
        dsimp only
        rw [if_pos hr]
        rfl
      rw [e, hr2]
      have hid := modifyHead_id_of_eq (fun x : List line_t => [] ++ x) (fun x => List.nil_append x)
        (List.splitOnP (fun l => is_hr IS_CODE IS_HR l.text) (List.map (mk_line IS_CODE IS_HR) ts))
      show List.map (fun p => p.line) (st.closed ++ [st.page]) ++ List.modifyHead (fun x => [] ++ x) _ = _
      rw [hid]
      simp [List.modifyHead]
    · have hr2 : is_hr IS_CODE IS_HR (mk_line IS_CODE IS_HR t).text = false := by
        simpa [is_hr, mk_line] using hr
      have e : add_text IS_CODE IS_HR st t =
          { closed := st.closed, page := { line := st.page.line ++ [mk_line IS_CODE IS_HR t] },
            text := [] } := by
        unfold add_text load_newline
        dsimp only
        rw [if_neg hr]
        rfl
      rw [e, hr2]
      simp only [Bool.false_eq_true, if_false]
      rw [modifyHead_comp]
      congr 2
      funext x
      simp

/-- The chains of lines of the pages built by the reading loop: the lines made from the
newline-terminated lines of the stream, split at the horizontal rules. -/
theorem load_pages_eq (IS_CODE IS_HR : Nat) (input : List Char) :
    (load_pages IS_CODE IS_HR input).map (fun p => p.line) =
      ((stored_lines input).map (mk_line IS_CODE IS_HR)).splitOnP
        (fun l => is_hr IS_CODE IS_HR l.text) := by
  unfold load_pages
  rw [load_loop_eq]
  have h := add_text_foldl_pages IS_CODE IS_HR (stored_lines input)
    { closed := [], page := new_page, text := cstring_init }
  simp only [List.map_nil, List.nil_append] at h
  dsimp only
  rw [h]
  exact modifyHead_id_of_eq _ (fun x => List.nil_append x) _

theorem splitOnP_map {α β : Type} (f : α → β) (p : β → Bool) (l : List α) :
    (l.map f).splitOnP p = (l.splitOnP (fun x => p (f x))).map (List.map f) := by
  induction l with
  | nil => rfl
  | cons a l ih =>
    rw [List.map_cons, List.splitOnP_cons, List.splitOnP_cons, ih]
    by_cases h : p (f a) = true
    · simp [h]
    · simp only [h, Bool.false_eq_true, if_false]
      cases l.splitOnP (fun x => p (f x)) with
      | nil => rfl
      | cons x xs => simp [List.modifyHead]

theorem splitOnP_length {α : Type} (p : α → Bool) (l : List α) :
    (l.splitOnP p).length = 1 + (l.filter p).length := by
  induction l with
  | nil => rfl
  | cons a l ih =>
    rw [List.splitOnP_cons]
    by_cases h : p a = true
    · simp [h, ih]; omega
    · simp [h, ih]

theorem splitOnP_flatten {α : Type} (p : α → Bool) (l : List α) :
    (l.splitOnP p).flatten = l.filter (fun x => !p x) := by
  induction l with
  | nil => rfl
  | cons a l ih =>
    rw [List.splitOnP_cons]
    by_cases h : p a = true
    · simp [h, ih]
    · simp only [h, Bool.false_eq_true, if_false]
      have hne := List.splitOnP_ne_nil p l
      cases hs : l.splitOnP p with
      | nil => exact absurd hs hne
      | cons x xs =>
        rw [hs] at ih
        simp only [List.modifyHead, List.flatten_cons, List.cons_append] at ih ⊢
        simp [h, ih]

theorem splitOnP_head {α : Type} (p : α → Bool) (l : List α) :
    ∃ rest, l.splitOnP p = l.takeWhile (fun x => !p x) :: rest := by
  induction l with
  | nil => exact ⟨[], rfl⟩
  | cons a l ih =>
    obtain ⟨rest, hr⟩ := ih
    rw [List.splitOnP_cons, hr]
    by_cases h : p a = true
    · exact ⟨List.takeWhile (fun x => !p x) l :: rest, by simp [h, List.takeWhile_cons]⟩
    · exact ⟨rest, by simp [h, List.takeWhile_cons, List.modifyHead]⟩

theorem mk_line_text (IS_CODE IS_HR : Nat) (ts : List cstring_t) :
    (ts.map (mk_line IS_CODE IS_HR)).map (fun l => l.text) = ts := by
  induction ts with
  | nil => rfl
  | cons t ts ih => simp only [List.map_cons, ih, mk_line]

/-- The texts of the pages built by the reading loop: the buffers of the newline-terminated
lines, split at the horizontal rules. -/
theorem load_pages_texts (IS_CODE IS_HR : Nat) (input : List Char) :
    (load_pages IS_CODE IS_HR input).map (fun p => p.line.map (fun l => l.text)) =
      (stored_lines input).splitOnP (is_hr IS_CODE IS_HR) := by
  have h := congrArg (List.map (List.map (fun l : line_t => l.text)))
    (load_pages_eq IS_CODE IS_HR input)
  rw [List.map_map] at h
  rw [splitOnP_map, List.map_map] at h
  have e : (fun x => is_hr IS_CODE IS_HR (mk_line IS_CODE IS_HR x).text) = is_hr IS_CODE IS_HR :=
    rfl
  rw [e] at h
  have e2 : (List.map (fun l : line_t => l.text) ∘ List.map (mk_line IS_CODE IS_HR)) = id := by
    funext ts
    simpa using mk_line_text IS_CODE IS_HR ts
  rw [e2, List.map_id] at h
  exact h

theorem page_texts_eq (pages : List page_t) :
    page_texts pages = (pages.map (fun p => p.line.map (fun l => l.text))).flatten := by
  unfold page_texts
  induction pages with
  | nil => rfl
  | cons p ps ih => simp [List.flatMap_cons, ih]

theorem load_pages_page_texts (IS_CODE IS_HR : Nat) (input : List Char) :
    page_texts (load_pages IS_CODE IS_HR input) =
      (stored_lines input).filter (fun t => !is_hr IS_CODE IS_HR t) := by
  rw [page_texts_eq, load_pages_texts, splitOnP_flatten]

theorem is_header_line_eq (line : line_t) : is_header_line line = begins_percent line.text := by
  unfold is_header_line begins_percent cstring_t.at
  cases h : line.text with
  | nil => simp
  | cons c cs => simp

theorem header_walk_eq (ls : List line_t) :
    header_walk ls =
      if ls.all is_header_line then none
      else some (ls.takeWhile is_header_line, ls.dropWhile is_header_line) := by
  induction ls with
  | nil => rfl
  | cons l ls ih =>
    rw [header_walk, ih]
    by_cases h : is_header_line l = true
    · by_cases ha : ls.all is_header_line = true
      · simp [h, ha]
      · simp [h, ha, List.takeWhile_cons, List.dropWhile_cons]
    · simp [h, List.takeWhile_cons, List.dropWhile_cons]

/-- Header detection in closed form: it fails exactly when the first page has lines and all
of them begin with `%`; otherwise the header is the leading run of `%` lines of the first
page, and the first page keeps the lines from the first other line on. -/
theorem detect_header_eq (first : page_t) (others : List page_t) :
    detect_header (first :: others) =
      if first.line ≠ [] ∧ first.line.all is_header_line = true then none
      else some { page := { line := first.line.dropWhile is_header_line } :: others,
                  header := first.line.takeWhile is_header_line } := by
  obtain ⟨lines⟩ := first
  cases lines with
  | nil => simp [detect_header]
  | cons l rest =>
    simp only [detect_header]
    by_cases h : is_header_line l = true
    · rw [if_pos h, header_walk_eq]
      by_cases ha : (l :: rest).all is_header_line = true
      · simp [ha]
      · simp [ha]
    · rw [if_neg h]
      have ha : ¬ (l :: rest).all is_header_line = true := by simp [h]
      simp [ha, List.takeWhile_cons, List.dropWhile_cons, h]

theorem load_pages_ne_nil (IS_CODE IS_HR : Nat) (input : List Char) :
    load_pages IS_CODE IS_HR input ≠ [] := by
  unfold load_pages
  simp

theorem load_text_plain (seg : List Char)
    (h : ∀ c ∈ seg, c ≠ '\t' ∧ (isprint c || isspace c || is_utf8 c) = true) :
    load_text seg = seg := by
  have : ∀ (seg : List Char) (t : cstring_t),
      (∀ c ∈ seg, c ≠ '\t' ∧ (isprint c || isspace c || is_utf8 c) = true) →
      seg.foldl load_char t = t ++ seg := by
    intro seg
    induction seg with
    | nil => intro t _; simp
    | cons c cs ih =>
      intro t h
      obtain ⟨h1, h2⟩ := h c (List.mem_cons_self _ _)
      rw [List.foldl_cons, ih _ (fun c hc => h c (List.mem_cons_of_mem _ hc))]
      simp [load_char, h1, h2, cstring_t.expand]
  simpa [load_text, cstring_init] using this seg [] h

/-- The document returned by `markdown_load`, in closed form. The load fails exactly when the
lines in front of the first horizontal rule are not empty and all begin with `%`. -/
theorem markdown_load_eq (IS_CODE IS_HR : Nat) (input : List Char) :
    ∃ first others, load_pages IS_CODE IS_HR input = first :: others ∧
      first.line.map (fun l => l.text) =
        (stored_lines input).takeWhile (fun t => !is_hr IS_CODE IS_HR t) ∧
      markdown_load IS_CODE IS_HR input =
        if first.line ≠ [] ∧ first.line.all is_header_line = true then none
        else some { page := { line := first.line.dropWhile is_header_line } :: others,
                    header := first.line.takeWhile is_header_line } := by
  cases hp : load_pages IS_CODE IS_HR input with
  | nil => exact absurd hp (load_pages_ne_nil IS_CODE IS_HR input)
  | cons first others =>
    refine ⟨first, others, rfl, ?_, ?_⟩
    · have h := load_pages_texts IS_CODE IS_HR input
      obtain ⟨rest, hr⟩ := splitOnP_head (is_hr IS_CODE IS_HR) (stored_lines input)
      rw [hp, hr, List.map_cons] at h
      exact (List.cons.inj h).1
    · unfold markdown_load
      rw [hp, detect_header_eq]

theorem all_header_iff (ls : List line_t) :
    ls.all is_header_line = true ↔ ∀ t ∈ ls.map (fun l => l.text), begins_percent t = true := by
  simp [List.all_eq_true, is_header_line_eq]

/-- The function `markdown_load` returns no document exactly when the lines in front of the
first horizontal rule are at least one and all of them begin with `%`. -/
theorem markdown_load_none_iff (IS_CODE IS_HR : Nat) (input : List Char) :
    markdown_load IS_CODE IS_HR input = none ↔
      ((stored_lines input).takeWhile (fun t => !is_hr IS_CODE IS_HR t) ≠ [] ∧
        ∀ t ∈ (stored_lines input).takeWhile (fun t => !is_hr IS_CODE IS_HR t),
          begins_percent t = true) := by
  obtain ⟨first, others, _, hf, hl⟩ := markdown_load_eq IS_CODE IS_HR input
  have hc : (first.line ≠ [] ∧ first.line.all is_header_line = true) ↔
      ((stored_lines input).takeWhile (fun t => !is_hr IS_CODE IS_HR t) ≠ [] ∧
        ∀ t ∈ (stored_lines input).takeWhile (fun t => !is_hr IS_CODE IS_HR t),
          begins_percent t = true) := by
    rw [all_header_iff, hf, ← hf]
    simp only [ne_eq, List.map_eq_nil_iff]
  rw [hl, ← hc]
  constructor
  · intro h
    by_contra hn
    rw [if_neg hn] at h
    cases h
  · intro h
    rw [if_pos h]

/-- The pages of a document that `markdown_load` returns: with the header chain put back in
front of the first page, they are the pages that the reading loop has built. -/
theorem markdown_load_some_pages (IS_CODE IS_HR : Nat) (input : List Char) (doc : document_t)
    (h : markdown_load IS_CODE IS_HR input = some doc) :
    ∃ first others, doc.page = first :: others ∧
      load_pages IS_CODE IS_HR input = { line := doc.header ++ first.line } :: others := by
  obtain ⟨first0, others, hp, _, hl⟩ := markdown_load_eq IS_CODE IS_HR input
  rw [hl] at h
  split at h
  · cases h
  · cases h
    refine ⟨_, others, rfl, ?_⟩
    rw [hp]
    dsimp only
    rw [List.takeWhile_append_dropWhile]

/-- C4: for the stream `% Title\n% Author\n`, which has no horizontal rule (`k = 0`), the
reading loop builds the one page with the two lines, and `markdown_load` then fails in the
header step and produces no document, hence no page; for a stream with the three rules
`---`, `***` and `- - -` it returns a document of four pages. For every stream, the reading loop
builds exactly `1 + k` pages, the buffers of the newline-terminated lines split at the
lines classified `IS_HR`, each line in the page that is current when it is read and no rule
in any page; the function returns a document unless the lines in front of the first rule
are at least one and all begin with `%`; and every document it returns has exactly `1 + k`
pages, which are those of the reading loop once the header chain is put back in front of
the first page, so that header and pages together hold the lines that are no rules, in
input order. -/
theorem markdown_load_fails_after_pages :
    markdown_load 3 4 "% Title\n% Author\n".toList = none ∧
      (stored_lines "% Title\n% Author\n".toList).filter (is_hr 3 4) = [] ∧
      (load_pages 3 4 "% Title\n% Author\n".toList).map (fun p => p.line.map (fun l => l.text)) =
        [["% Title".toList, "% Author".toList]] ∧
      (∃ doc, markdown_load 3 4 "a\n---\nb\nc\n***\n- - -\nd\ne".toList = some doc ∧
        doc.page.map (fun p => p.line.map (fun l => l.text)) =
          [["a".toList], ["b".toList, "c".toList], [], ["d".toList]]) ∧
      (∀ (IS_CODE IS_HR : Nat) (input : List Char),
        (load_pages IS_CODE IS_HR input).length =
            1 + ((stored_lines input).filter (is_hr IS_CODE IS_HR)).length ∧
          (load_pages IS_CODE IS_HR input).map (fun p => p.line.map (fun l => l.text)) =
            (stored_lines input).splitOnP (is_hr IS_CODE IS_HR) ∧
          page_texts (load_pages IS_CODE IS_HR input) =
            (stored_lines input).filter (fun t => !is_hr IS_CODE IS_HR t) ∧
          ∀ t ∈ page_texts (load_pages IS_CODE IS_HR input), is_hr IS_CODE IS_HR t = false) ∧
      (∀ (IS_CODE IS_HR : Nat) (input : List Char),
        (∃ doc, markdown_load IS_CODE IS_HR input = some doc) ↔
          ¬ ((stored_lines input).takeWhile (fun t => !is_hr IS_CODE IS_HR t) ≠ [] ∧
            ∀ t ∈ (stored_lines input).takeWhile (fun t => !is_hr IS_CODE IS_HR t),
              begins_percent t = true)) ∧
      (∀ (IS_CODE IS_HR : Nat) (input : List Char) (doc : document_t),
        markdown_load IS_CODE IS_HR input = some doc →
        doc.page.length = 1 + ((stored_lines input).filter (is_hr IS_CODE IS_HR)).length ∧
          (∃ first others, doc.page = first :: others ∧
            ((doc.header ++ first.line) :: others.map (fun p => p.line)).map
                (List.map (fun l => l.text)) =
              (stored_lines input).splitOnP (is_hr IS_CODE IS_HR)) ∧
          doc.header.map (fun l => l.text) ++ page_texts doc.page =
            (stored_lines input).filter (fun t => !is_hr IS_CODE IS_HR t) ∧
          ∀ t ∈ doc.header.map (fun l => l.text) ++ page_texts doc.page,
            is_hr IS_CODE IS_HR t = false) := by
  have hloop : ∀ (IS_CODE IS_HR : Nat) (input : List Char),
      (load_pages IS_CODE IS_HR input).length =
        1 + ((stored_lines input).filter (is_hr IS_CODE IS_HR)).length := by
    intro IS_CODE IS_HR input
    have h := congrArg List.length (load_pages_texts IS_CODE IS_HR input)
    rw [List.length_map, splitOnP_length] at h
    exact h
  refine ⟨by decide, by decide, by decide, ⟨_, rfl, by decide⟩, ?_, ?_, ?_⟩
  · intro IS_CODE IS_HR input
    refine ⟨hloop IS_CODE IS_HR input, load_pages_texts IS_CODE IS_HR input,
      load_pages_page_texts IS_CODE IS_HR input, ?_⟩
    intro t ht
    rw [load_pages_page_texts, List.mem_filter] at ht
    simpa using ht.2
  · intro IS_CODE IS_HR input
    rw [← markdown_load_none_iff]
    cases hm : markdown_load IS_CODE IS_HR input with
    | none => simp
    | some doc => simp
  · intro IS_CODE IS_HR input doc h
    obtain ⟨first, others, hd, hp⟩ := markdown_load_some_pages IS_CODE IS_HR input doc h
    have hlen := hloop IS_CODE IS_HR input
    have htx := load_pages_texts IS_CODE IS_HR input
    have hall : doc.header.map (fun l => l.text) ++ page_texts doc.page =
        (stored_lines input).filter (fun t => !is_hr IS_CODE IS_HR t) := by
      have hb := load_pages_page_texts IS_CODE IS_HR input
      rw [hp, page_texts_eq] at hb
      rw [hd, page_texts_eq]
      simp only [List.map_cons, List.flatten_cons, List.map_append] at hb ⊢
      rw [← hb, List.append_assoc]
    refine ⟨?_, ⟨first, others, hd, ?_⟩, hall, ?_⟩
    · rw [← hlen, hp, hd]
      rfl
    · rw [← htx, hp]
      simp only [List.map_cons, List.map_map]
      rfl
    · intro t ht
      rw [hall, List.mem_filter] at ht
      simpa using ht.2

/-- Counterexample to C3 as stated: the stream `a\nb` has the lines `a` and `b`, neither a
rule nor a header line, and the document holds `a` only: the text after the last newline is
in no page. -/
theorem markdown_load_drops_last_line :
    input_lines "a\nb".toList = (["a".toList], "b".toList) ∧
      ∃ doc, markdown_load 3 4 "a\nb".toList = some doc ∧ doc.header = [] ∧
        page_texts doc.page = ["a".toList] ∧ "b".toList ∉ page_texts doc.page := by
  refine ⟨by decide, _, rfl, by decide, by decide, by decide⟩

/-- C3, amended: when the lines in front of the first horizontal rule are none, or one of
them does not begin with `%`, `markdown_load` returns a document whose header chain followed
by the lines of all pages, in page order and line order, holds exactly the buffers of the
newline-terminated lines of the stream that are not horizontal rules, in input order; the
header chain is the leading run of `%` lines. A line without tabs and filtered characters is
stored unchanged. The characters after the last newline are not stored. -/
theorem markdown_load_body (IS_CODE IS_HR : Nat) (input : List Char)
    (h : (stored_lines input).takeWhile (fun t => !is_hr IS_CODE IS_HR t) = [] ∨
      ∃ t ∈ (stored_lines input).takeWhile (fun t => !is_hr IS_CODE IS_HR t),
        begins_percent t = false) :
    (∃ doc, markdown_load IS_CODE IS_HR input = some doc ∧
      doc.header.map (fun l => l.text) ++ page_texts doc.page =
        (stored_lines input).filter (fun t => !is_hr IS_CODE IS_HR t) ∧
      doc.header.map (fun l => l.text) =
        ((stored_lines input).takeWhile (fun t => !is_hr IS_CODE IS_HR t)).takeWhile
          begins_percent) ∧
    (∀ seg : List Char,
      (∀ c ∈ seg, c ≠ '\t' ∧ (isprint c || isspace c || is_utf8 c) = true) →
        load_text seg = seg) := by
  refine ⟨?_, load_text_plain⟩
  obtain ⟨first, others, hp, hf, hl⟩ := markdown_load_eq IS_CODE IS_HR input
  have hc : ¬ (first.line ≠ [] ∧ first.line.all is_header_line = true) := by
    rintro ⟨h1, h2⟩
    rw [all_header_iff, hf] at h2
    rcases h with h | ⟨t, ht, hb⟩
    · rw [← hf] at h
      exact h1 (List.map_eq_nil_iff.mp h)
    · rw [h2 t ht] at hb
      exact Bool.noConfusion hb
  rw [if_neg hc] at hl
  refine ⟨_, hl, ?_, ?_⟩
  · have hb := load_pages_page_texts IS_CODE IS_HR input
    rw [hp, page_texts_eq] at hb
    rw [page_texts_eq]
    simp only [List.map_cons, List.flatten_cons] at hb ⊢
    rw [← hb, ← List.append_assoc, ← List.map_append, List.takeWhile_append_dropWhile]
  · rw [← hf, List.takeWhile_map]
    have e : (begins_percent ∘ fun l : line_t => l.text) = is_header_line := by
      funext l
      exact (is_header_line_eq l).symm
    rw [e]

/-- Witness of C3: a stream with a header line, a rule and a last line without newline. -/
theorem markdown_load_body_witness :
    ∃ doc, markdown_load 3 4 "% T\nx\n---\ny\nz".toList = some doc ∧
      doc.header.map (fun l => l.text) ++ page_texts doc.page =
        ["% T".toList, "x".toList, "y".toList] ∧
      doc.header.map (fun l => l.text) = ["% T".toList] := by
  obtain ⟨doc, h1, h2, h3⟩ := (markdown_load_body 3 4 "% T\nx\n---\ny\nz".toList
    (Or.inr ⟨"x".toList, by decide, by decide⟩)).1
  exact ⟨doc, h1, h2.trans (by decide), h3.trans (by decide)⟩

theorem takeWhile_append_of_stop {α : Type} (p : α → Bool) (hs : List α) (t : α) (rest : List α)
    (h1 : ∀ x ∈ hs, p x = true) (h2 : p t = false) :
    (hs ++ t :: rest).takeWhile p = hs ∧ (hs ++ t :: rest).dropWhile p = t :: rest := by
  induction hs with
  | nil => simp [List.takeWhile_cons, List.dropWhile_cons, h2]
  | cons x xs ih =>
    have hx := h1 x (List.mem_cons_self _ _)
    obtain ⟨i1, i2⟩ := ih (fun y hy => h1 y (List.mem_cons_of_mem _ hy))
    simp [List.takeWhile_cons, List.dropWhile_cons, hx, i1, i2]

/-- C5: when the lines in front of the first horizontal rule are a run `hs` of
lines beginning with `%` followed by a line `t` that does not (and further lines `rest`),
`markdown_load` returns a document whose header chain is exactly `hs`, in order, and whose
first page is the chain `t :: rest`; the other pages are those built by the reading loop.
The header chain ends at the last `%` line (it has no next line) and the page chain starts at
`t` (it has no previous line). -/
theorem markdown_load_header (IS_CODE IS_HR : Nat) (input : List Char)
    (hs : List cstring_t) (t : cstring_t) (rest : List cstring_t)
    (hfirst : (stored_lines input).takeWhile (fun t => !is_hr IS_CODE IS_HR t) = hs ++ t :: rest)
    (hpct : ∀ x ∈ hs, begins_percent x = true)
    (hstop : begins_percent t = false) :
    ∃ doc first, markdown_load IS_CODE IS_HR input = some doc ∧
      doc.header.map (fun l => l.text) = hs ∧
      doc.page = first :: (load_pages IS_CODE IS_HR input).tail ∧
      first.line.map (fun l => l.text) = t :: rest ∧
      (load_pages IS_CODE IS_HR input).head?.map (fun p => p.line) =
        some (doc.header ++ first.line) := by
  obtain ⟨first, others, hp, hf, hl⟩ := markdown_load_eq IS_CODE IS_HR input
  rw [hfirst] at hf
  have hc : ¬ (first.line ≠ [] ∧ first.line.all is_header_line = true) := by
    rintro ⟨_, h2⟩
    rw [all_header_iff, hf] at h2
    have := h2 t (by simp)
    rw [hstop] at this
    exact Bool.noConfusion this
  rw [if_neg hc] at hl
  have e : (begins_percent ∘ fun l : line_t => l.text) = is_header_line := by
    funext l
    exact (is_header_line_eq l).symm
  obtain ⟨k1, k2⟩ := takeWhile_append_of_stop begins_percent hs t rest hpct hstop
  refine ⟨_, { line := first.line.dropWhile is_header_line }, hl, ?_, ?_, ?_, ?_⟩
  · show (first.line.takeWhile is_header_line).map (fun l => l.text) = hs
    rw [← e, ← List.takeWhile_map, hf, k1]
  · rw [hp]; rfl
  · show (first.line.dropWhile is_header_line).map (fun l => l.text) = t :: rest
    rw [← e, ← List.dropWhile_map, hf, k2]
  · rw [hp]
    exact congrArg some (List.takeWhile_append_dropWhile _ _).symm

/-- Witness of C5: for `% Title\n% Author\nbody\n` the header has the 2 lines `% Title` and
`% Author`, and the first page is left with `body`. -/
theorem markdown_load_header_witness :
    ∃ doc first, markdown_load 3 4 "% Title\n% Author\nbody\n".toList = some doc ∧
      doc.header.map (fun l => l.text) = ["% Title".toList, "% Author".toList] ∧
      doc.page = first :: (load_pages 3 4 "% Title\n% Author\nbody\n".toList).tail ∧
      first.line.map (fun l => l.text) = ["body".toList] ∧
      (load_pages 3 4 "% Title\n% Author\nbody\n".toList).head?.map (fun p => p.line) =
        some (doc.header ++ first.line) :=
  markdown_load_header 3 4 "% Title\n% Author\nbody\n".toList
    ["% Title".toList, "% Author".toList] "body".toList [] (by decide) (by decide) (by decide)

/-! ## The inline interpreter -/

theorem peek_append_cons (pre : List Char) (x : Char) (post : List Char) :
    peek (pre ++ x :: post) pre.length = x := by
  unfold peek
  rw [List.getD_eq_getElem?_getD, List.getElem?_append_right (Nat.le_refl _)]
  simp

theorem peek_length (s : List Char) : peek s s.length = '\x00' := by
  simp [peek, List.getD]

theorem peek_of_le (s : List Char) (i : Nat) (h : s.length ≤ i) : peek s i = '\x00' := by
  simp [peek, List.getD, List.getElem?_eq_none h]

theorem lt_of_peek_ne (s : List Char) (i : Nat) (h : peek s i ≠ '\x00') : i < s.length := by
  by_contra hc
  exact h (peek_of_le s i (by omega))

theorem label_loop_lt : ∀ (rest : List Char) (i : Nat) (w : WINDOW) (j : Nat) (w' : WINDOW),
    label_loop rest i w = some (j, w') → i < j := by
  intro rest
  induction rest with
  | nil => intro i w j w' h; simp [label_loop] at h
  | cons x rest ih =>
    intro i w j w' h
    cases rest with
    | nil => simp [label_loop] at h
    | cons y ys =>
      rw [label_loop] at h
      by_cases hy : y = ']'
      · simp only [hy, if_true, Option.some.injEq, Prod.mk.injEq] at h
        omega
      · simp only [hy, if_false] at h
        have := ih _ _ _ _ h
        omega

theorem target_loop_bounds : ∀ (rest : List Char) (i j : Nat),
    target_loop rest i = some j → i ≤ j ∧ j < i + rest.length := by
  intro rest
  induction rest with
  | nil => intro i j h; simp [target_loop] at h
  | cons x rest ih =>
    intro i j h
    rw [target_loop] at h
    by_cases hx : x = ')'
    · simp only [hx, if_true, Option.some.injEq] at h
      simp only [List.length_cons]
      omega
    · simp only [hx, if_false] at h
      have := ih _ _ h
      simp only [List.length_cons]
      omega

theorem inline_link_bounds (s : List Char) (colors : Bool) (i : Nat) (w : WINDOW)
    (urls : List url_t) (j : Nat) (w' : WINDOW) (urls' : List url_t)
    (h : inline_link s colors i w urls = some (j, w', urls')) : i < j ∧ j < s.length := by
  unfold inline_link at h
  dsimp only at h
  cases hk : label_loop (s.drop (i + 1)) (i + 1)
      (if colors = true then w.wattron_pair CP_HEADER else w).wattron_underline with
  | none => rw [hk] at h; exact absurd h (by simp)
  | some r =>
    obtain ⟨k, wk⟩ := r
    rw [hk] at h
    dsimp only at h
    have h1 := label_loop_lt _ _ _ _ _ hk
    cases hm : target_loop (s.drop (k + 1 + 1)) (k + 1 + 1) with
    | none => rw [hm] at h; exact absurd h (by simp)
    | some m =>
      rw [hm] at h
      have h2 := target_loop_bounds _ _ _ hm
      simp only [Option.some.injEq, Prod.mk.injEq] at h
      rw [List.length_drop] at h2
      omega

theorem inline_open_bounds (s : List Char) (colors : Bool) (i : Nat) (st : inline_state)
    (j : Nat) (st' : inline_state) (hi : i < s.length)
    (h : inline_open s colors i st = some (j, st')) : i ≤ j ∧ j < s.length := by
  unfold inline_open at h
  dsimp only at h
  by_cases hc : ((decide (peek s i = '[') && (wcschr s i ']').isSome) ||
      (decide (peek s i = '!') && decide (peek s (i + 1) = '[') && (wcschr s i ']').isSome)) = true
  · rw [if_pos hc] at h
    have hi' : (if peek s i = '!' then i + 1 else i) < s.length := by
      split
      · rename_i hb
        simp only [hb, Bool.or_eq_true, Bool.and_eq_true, decide_eq_true_eq] at hc
        rcases hc with hc | hc
        · exact absurd hc.1 (by decide)
        · exact lt_of_peek_ne s (i + 1) (by rw [hc.1.2]; decide)
      · exact hi
    have hi'' : i ≤ (if peek s i = '!' then i + 1 else i) := by split <;> omega
    generalize (if peek s i = '!' then i + 1 else i) = i' at h hi' hi''
    cases hw : wcschr s i' ']' with
    | none => rw [hw] at h; exact absurd h (by simp)
    | some k =>
      rw [hw] at h
      dsimp only at h
      by_cases hc2 : (decide (peek s (k + 1) = '(') && (wcschr s i' ')').isSome) = true
      · rw [if_pos hc2] at h
        cases hl : inline_link s colors i' st.window st.urls with
        | none => rw [hl] at h; exact absurd h (by simp)
        | some r =>
          obtain ⟨m, w', urls'⟩ := r
          rw [hl] at h
          have := inline_link_bounds _ _ _ _ _ _ _ _ hl
          simp only [Option.some.injEq, Prod.mk.injEq] at h
          omega
      · rw [if_neg hc2] at h
        simp only [Option.some.injEq, Prod.mk.injEq] at h
        omega
  · rw [if_neg hc] at h
    simp only [Option.some.injEq, Prod.mk.injEq] at h
    omega

/-- The body of the loop leaves `i` on a character of the line, not before where it was. -/
theorem inline_body_bounds (s : List Char) (colors : Bool) (i : Nat) (st : inline_state)
    (j : Nat) (st' : inline_state) (hi : i < s.length)
    (h : inline_body s colors i st = some (j, st')) : i ≤ j ∧ j < s.length := by
  unfold inline_body at h
  dsimp only at h
  split at h
  · split at h
    · simp only [Option.some.injEq, Prod.mk.injEq] at h; omega
    · split at h
      · simp only [Option.some.injEq, Prod.mk.injEq] at h; omega
      · split at h
        · exact inline_open_bounds s colors i st j st' hi h
        · simp only [Option.some.injEq, Prod.mk.injEq] at h; omega
  · simp only [Option.some.injEq, Prod.mk.injEq] at h; omega

/-- The loop of `inline_display` ends: from an index `i` of the line, with `s.length + 1 - i`
iterations allowed, the fuel is never used up. -/
theorem inline_loop_not_stuck (s : List Char) (colors : Bool) :
    ∀ (fuel i : Nat) (st : inline_state), i ≤ s.length → s.length + 1 ≤ fuel + i →
      inline_loop s colors fuel i st ≠ Run.stuck := by
  intro fuel
  induction fuel with
  | zero => intro i st h1 h2; omega
  | succ n ih =>
    intro i st h1 h2
    rw [inline_loop]
    by_cases hp : peek s i = '\x00'
    · simp [hp]
    · simp only [hp, if_false]
      have hi : i < s.length := lt_of_peek_ne s i hp
      split
      · simp
      · rename_i j st' hb
        have := inline_body_bounds _ _ _ _ _ _ hi hb
        exact ih _ _ (by omega) (by omega)

/-- The function `inline_display` returns or reads beyond the terminator: the model never
runs out of fuel. -/
theorem inline_display_not_stuck (s : List Char) (colors : Bool) (w : WINDOW)
    (urls : List url_t) : inline_display s colors w urls ≠ Run.stuck := by
  unfold inline_display
  have h := inline_loop_not_stuck s colors (s.length + 1) 0
    { window := w, stack := [], urls := urls } (by omega) (by omega)
  unfold inline_scan
  split
  · simp
  · simp
  · rename_i hs
    exact absurd hs h

theorem waddnwstr_ne (w : WINDOW) (c : Char) (h : c ≠ '\x00') :
    w.waddnwstr c = { w with out := w.out ++ [Out.ch c] } := by
  simp [WINDOW.waddnwstr, h]

theorem wprintw_cons (w : WINDOW) (c : Char) (cs : List Char) (h : c ≠ '\x00') :
    (w.waddnwstr c).wprintw cs = w.wprintw (c :: cs) := by
  simp [waddnwstr_ne w c h, WINDOW.wprintw]

theorem wprintw_nil (w : WINDOW) : w.wprintw [] = w := by
  simp [WINDOW.wprintw]

theorem special_contains_iff (c : Char) :
    special.contains c = true ↔
      c = '\\' ∨ c = '*' ∨ c = '_' ∨ c = '`' ∨ c = '!' ∨ c = '[' := by
  simp [special]

theorem iswalnum_not_special (c : Char) (h : iswalnum c = true) :
    special.contains c = false ∧ c ≠ '\x00' := by
  constructor
  · cases hs : special.contains c with
    | false => rfl
    | true =>
      rw [special_contains_iff] at hs
      rcases hs with e | e | e | e | e | e <;> subst e <;> exact absurd h (by decide)
  · intro e
    subst e
    exact absurd h (by decide)

/-- The body of the loop on a character that is not interpreted: it is written, and a
pending backslash is popped. -/
theorem inline_body_plain (s : List Char) (colors : Bool) (i : Nat) (st : inline_state)
    (hsp : special.contains (peek s i) = false) :
    inline_body s colors i st =
      some (i, { st with window := st.window.waddnwstr (peek s i),
                         stack := if st.stack.top '\\' then st.stack.pop else st.stack }) := by
  unfold inline_body
  simp only [hsp, Bool.false_eq_true, if_false]

/-- The body of the loop on a symbol that closes the top of the stack. -/
theorem inline_body_close (s : List Char) (colors : Bool) (i : Nat) (st : inline_state)
    (htop : st.stack.top (peek s i) = true) (hsp : special.contains (peek s i) = true)
    (hnext : iswalnum (peek s (i + 1)) = false ∨ peek s i = '\\') :
    inline_body s colors i st =
      some (i, { st with window := close_action colors (peek s i) st.window,
                         stack := st.stack.pop }) := by
  unfold inline_body
  have hc : (st.stack.top (peek s i) && (!iswalnum (peek s (i + 1)) ||
      decide (peek s (i + 1) = '\x00') || decide (peek s i = '\\'))) = true := by
    rcases hnext with h | h
    · simp [htop, h]
    · rw [htop]; simp [h]
  simp only [hsp, hc, if_true]

/-- The body of the loop on one of the symbols `*`, `_` and a backtick that does not close
the top of the stack, with no backslash pending, at a place where markup may open. -/
theorem inline_body_open (s : List Char) (colors : Bool) (i : Nat) (st : inline_state)
    (hsym : peek s i = '*' ∨ peek s i = '_' ∨ peek s i = '`')
    (htop : st.stack.top (peek s i) = false ∨
      (iswalnum (peek s (i + 1)) = true ∧ peek s (i + 1) ≠ '\x00'))
    (hbs : st.stack.top '\\' = false) (hopen : may_open s i = true) :
    inline_body s colors i st =
      some (i, { st with window := open_action colors (peek s i) st.window,
                         stack := st.stack.push (peek s i) }) := by
  unfold inline_body
  have hsp : special.contains (peek s i) = true := by
    rw [special_contains_iff]
    rcases hsym with h | h | h <;> simp [h]
  have hne : peek s i ≠ '\\' := by
    rcases hsym with h | h | h <;> rw [h] <;> decide
  have hc : (st.stack.top (peek s i) && (!iswalnum (peek s (i + 1)) ||
      decide (peek s (i + 1) = '\x00') || decide (peek s i = '\\'))) = false := by
    rcases htop with h | ⟨h1, h2⟩
    · simp [h]
    · simp [h1, h2, hne]
  have hurl : ((decide (peek s i = '[') && (wcschr s i ']').isSome) ||
      (decide (peek s i = '!') && decide (peek s (i + 1) = '[') &&
        (wcschr s i ']').isSome)) = false := by
    have h1 : peek s i ≠ '[' := by rcases hsym with h | h | h <;> rw [h] <;> decide
    have h2 : peek s i ≠ '!' := by rcases hsym with h | h | h <;> rw [h] <;> decide
    simp [h1, h2]
  simp only [hsp, hc, hbs, hopen, if_true, Bool.false_eq_true, if_false]
  unfold inline_open
  simp only [hurl, Bool.false_eq_true, if_false]

/-- A run of characters that are not interpreted is written as it is, when no backslash is
pending. -/
theorem inline_loop_plain (colors : Bool) (w : List Char) :
    ∀ (pre post : List Char) (fuel : Nat) (st : inline_state),
      (∀ c ∈ w, special.contains c = false ∧ c ≠ '\x00') → st.stack.top '\\' = false →
      inline_loop (pre ++ w ++ post) colors (fuel + w.length) pre.length st =
        inline_loop (pre ++ w ++ post) colors fuel (pre.length + w.length)
          { st with window := st.window.wprintw w } := by
  induction w with
  | nil =>
    intro pre post fuel st _ _
    simp [wprintw_nil]
  | cons x xs ih =>
    intro pre post fuel st hw htop
    obtain ⟨hx1, hx2⟩ := hw x (List.mem_cons_self _ _)
    have hs : pre ++ x :: xs ++ post = (pre ++ [x]) ++ xs ++ post := by simp
    have hp : peek (pre ++ x :: xs ++ post) pre.length = x := by
      rw [List.append_assoc, List.cons_append]
      exact peek_append_cons pre x (xs ++ post)
    have hf : fuel + (x :: xs).length = (fuel + xs.length) + 1 := by
      simp only [List.length_cons]; omega
    rw [hf, inline_loop, hp, if_neg hx2,
      inline_body_plain _ _ _ _ (by rw [hp]; exact hx1), hp]
    simp only [htop, Bool.false_eq_true, if_false]
    have hl : pre.length + 1 = (pre ++ [x]).length := by simp
    have hi := ih (pre ++ [x]) post fuel
      { window := st.window.waddnwstr x, stack := st.stack, urls := st.urls }
      (fun c hc => hw c (List.mem_cons_of_mem _ hc)) htop
    rw [hl, hs, hi]
    dsimp only
    rw [wprintw_cons _ _ _ hx2]
    congr 1
    simp only [List.length_append, List.length_cons, List.length_nil]
    omega

/-- C6: for a word `w` of alphanumeric characters, `inline_display` on the line `*w*` with
colours enabled makes, in order, the calls: colour pair `CP_BOLD` on, the characters of `w`,
colour pair `CP_FG` on (the default colour); no `*` is written, and the markup stack is
empty when the scan of the line ends. -/
theorem inline_display_bold (w : List Char) (halnum : ∀ c ∈ w, iswalnum c = true)
    (win : WINDOW) (urls : List url_t) :
    inline_scan (['*'] ++ w ++ ['*']) true win urls =
        Run.ok { window := ((win.wattron_pair CP_BOLD).wprintw w).wattron_pair CP_FG,
                 stack := [], urls := urls } ∧
      inline_display (['*'] ++ w ++ ['*']) true win urls =
        Run.ok (((win.wattron_pair CP_BOLD).wprintw w).wattron_pair CP_FG, urls) ∧
      (((win.wattron_pair CP_BOLD).wprintw w).wattron_pair CP_FG).out =
        win.out ++ [Out.color CP_BOLD] ++ w.map Out.ch ++ [Out.color CP_FG] ∧
      (((win.wattron_pair CP_BOLD).wprintw w).wattron_pair CP_FG).pair = CP_FG ∧
      '*' ∉ w := by
  have hscan : inline_scan (['*'] ++ w ++ ['*']) true win urls =
      Run.ok { window := ((win.wattron_pair CP_BOLD).wprintw w).wattron_pair CP_FG,
               stack := [], urls := urls } := by
    unfold inline_scan
    have hlen : (['*'] ++ w ++ ['*']).length + 1 = (2 + w.length) + 1 := by
      simp only [List.length_cons, List.length_append, List.length_nil]; omega
    have hp0 : peek (['*'] ++ w ++ ['*']) 0 = '*' := rfl
    have hq : (['*'] : List Char).length + w.length = (['*'] ++ w).length := by
      simp only [List.length_append]
    have hp1 : peek (['*'] ++ w ++ ['*']) (['*'] ++ w).length = '*' :=
      peek_append_cons _ _ _
    have hp2 : peek (['*'] ++ w ++ ['*']) ((['*'] ++ w).length + 1) = '\x00' :=
      peek_of_le _ _ (by simp)
    rw [hlen, inline_loop, hp0, if_neg (by decide),
      inline_body_open _ true 0 { window := win, stack := [], urls := urls } (Or.inl hp0)
        (Or.inl (by rw [hp0]; rfl)) rfl (by simp [may_open]), hp0]
    have h1 : (0 : Nat) + 1 = (['*'] : List Char).length := rfl
    have hi := inline_loop_plain true w ['*'] ['*'] 2
      { window := open_action true '*' win, stack := cstack_t.push [] '*', urls := urls }
      (fun c hc => iswalnum_not_special c (halnum c hc)) rfl
    dsimp only
    rw [h1, hi]
    dsimp only
    rw [hq, inline_loop, hp1, if_neg (by decide),
      inline_body_close _ _ _ _ (by rw [hp1]; rfl) (by rw [hp1]; rfl)
        (Or.inl (by rw [hp2]; rfl)), hp1]
    dsimp only
    rw [inline_loop, hp2, if_pos rfl]
    rfl
  refine ⟨hscan, ?_, ?_, rfl, ?_⟩
  · unfold inline_display
    rw [hscan]
    rfl
  · simp [WINDOW.wattron_pair, WINDOW.wprintw]
  · intro hm
    exact absurd (halnum '*' hm) (by decide)

/-- Witness of C6: the line `*bold*`. -/
theorem inline_display_bold_witness :
    inline_display "*bold*".toList true (default_window true) [] =
      Run.ok ({ pair := CP_FG, underline := false,
                out := [Out.color CP_BOLD, Out.ch 'b', Out.ch 'o', Out.ch 'l', Out.ch 'd',
                        Out.color CP_FG] }, []) :=
  (inline_display_bold "bold".toList (by decide) (default_window true) []).2.1

theorem open_action_backslash (colors : Bool) (w : WINDOW) : open_action colors '\\' w = w := by
  simp +decide [open_action]

/-- Counterexample to C7 as stated: in the line `[a\b](c)` the backslash at index 2 is
followed by `b`, and it is written, because the label of a reference is written as it is;
in the line `\\x` the backslash at index 1 is followed by `x`, and it is written, because it
is itself escaped by the backslash in front of it. -/
theorem inline_display_backslash_written :
    (peek "[a\\b](c)".toList 2 = '\\' ∧ peek "[a\\b](c)".toList 3 = 'b' ∧
      inline_display "[a\\b](c)".toList true (default_window true) [] =
        Run.ok ({ pair := CP_FG, underline := false,
                  out := [Out.color CP_HEADER, Out.underline_on, Out.ch 'a', Out.ch '\\',
                          Out.ch 'b', Out.ch ' ', Out.ch '[', Out.ch '0', Out.ch ']',
                          Out.underline_off, Out.color CP_FG] },
                [{ link_name := ['a', '\\'], link_name_length := 2, target := ['c'],
                   target_length := 1 }])) ∧
    (peek "\\\\x".toList 1 = '\\' ∧ peek "\\\\x".toList 2 = 'x' ∧
      inline_display "\\\\x".toList true (default_window true) [] =
        Run.ok ({ pair := CP_FG, underline := false, out := [Out.ch '\\', Out.ch 'x'] },
                [])) := by
  decide

/-- C7, amended: when the scan of `inline_display` reaches a backslash at index `i` while no
backslash is pending on top of the stack, and a character `c` of the line follows, the body
of the loop at `i` pushes the backslash and writes nothing, and the body at `i + 1` writes
`c`, changes no attribute and leaves the stack and the link table as they were before the
backslash, whatever the stack holds; the scan goes on from `i + 2`. (A backslash inside the
label of a resolved reference is not reached by the scan: the label is written as it is.) -/
theorem inline_body_backslash (s : List Char) (colors : Bool) (i : Nat) (st : inline_state)
    (hbs : peek s i = '\\') (hc : peek s (i + 1) ≠ '\x00') (htop : st.stack.top '\\' = false) :
    inline_body s colors i st = some (i, { st with stack := st.stack.push '\\' }) ∧
      inline_body s colors (i + 1) { st with stack := st.stack.push '\\' } =
        some (i + 1, { st with window :=
          { st.window with out := st.window.out ++ [Out.ch (peek s (i + 1))] } }) ∧
      ∀ fuel, inline_loop s colors (fuel + 2) i st =
        inline_loop s colors fuel (i + 2) { st with window :=
          { st.window with out := st.window.out ++ [Out.ch (peek s (i + 1))] } } := by
  have h1 : inline_body s colors i st = some (i, { st with stack := st.stack.push '\\' }) := by
    unfold inline_body
    have hsp : special.contains (peek s i) = true := by rw [hbs]; rfl
    have hopen : may_open s i = true := by simp [may_open, hbs]
    simp only [hsp, hbs, htop, hopen, if_true, Bool.false_and, Bool.false_eq_true, if_false]
    unfold inline_open
    simp +decide [hbs, open_action_backslash]
  have h2 : inline_body s colors (i + 1) { st with stack := st.stack.push '\\' } =
      some (i + 1, { st with window :=
        { st.window with out := st.window.out ++ [Out.ch (peek s (i + 1))] } }) := by
    have hw := waddnwstr_ne st.window (peek s (i + 1)) hc
    by_cases hsp : special.contains (peek s (i + 1)) = true
    · by_cases hb : peek s (i + 1) = '\\'
      · rw [inline_body_close s colors (i + 1) _ (by rw [hb]; rfl) hsp (Or.inr hb)]
        simp only [close_action, hb, if_true, cstack_t.pop, cstack_t.push, List.tail_cons]
        rw [← hb, hw]
      · unfold inline_body
        have ht : cstack_t.top (cstack_t.push st.stack '\\') (peek s (i + 1)) = false := by
          simp only [cstack_t.top, cstack_t.push, List.head?_cons, Option.some.injEq,
            decide_eq_false_iff_not]
          exact fun h => hb h.symm
        have ht2 : cstack_t.top (cstack_t.push st.stack '\\') '\\' = true := by
          simp [cstack_t.top, cstack_t.push]
        simp only [hsp, ht, ht2, if_true, Bool.false_and, Bool.false_eq_true, if_false, hw]
        simp only [cstack_t.pop, cstack_t.push, List.tail_cons]
    · rw [inline_body_plain s colors (i + 1) _ (by simpa using hsp)]
      have ht2 : cstack_t.top (cstack_t.push st.stack '\\') '\\' = true := by
        simp [cstack_t.top, cstack_t.push]
      simp only [ht2, if_true, hw]
      simp only [cstack_t.pop, cstack_t.push, List.tail_cons]
  refine ⟨h1, h2, fun fuel => ?_⟩
  have hi : peek s i ≠ '\x00' := by rw [hbs]; decide
  rw [inline_loop, if_neg hi, h1]
  dsimp only
  rw [inline_loop, if_neg hc, h2]

/-- Witness of C7: the line `\*literal\*` is written as `*literal*` with no attribute
change; its first backslash is followed by `*`. -/
theorem inline_body_backslash_witness :
    (peek "\\*literal\\*".toList 0 = '\\' ∧ peek "\\*literal\\*".toList (0 + 1) ≠ '\x00' ∧
      inline_body "\\*literal\\*".toList true (0 + 1)
          { window := default_window true, stack := cstack_t.push [] '\\', urls := [] } =
        some (0 + 1, { window := { pair := CP_FG, underline := false, out := [Out.ch '*'] },
                       stack := [], urls := [] })) ∧
      inline_display "\\*literal\\*".toList true (default_window true) [] =
        Run.ok ({ pair := CP_FG, underline := false, out := "*literal*".toList.map Out.ch },
                []) :=
  ⟨⟨by decide, by decide,
    (inline_body_backslash "\\*literal\\*".toList true 0
      { window := default_window true, stack := [], urls := [] }
      (by decide) (by decide) (by decide)).2.1⟩, by decide⟩

theorem wcschr_from_append (ch : Char) (post : List Char) :
    ∀ (pre : List Char) (k : Nat), ch ∉ pre → '\x00' ∉ pre →
      wcschr_from (pre ++ ch :: post) k ch = some (k + pre.length) := by
  intro pre
  induction pre with
  | nil => intro k _ _; simp [wcschr_from]
  | cons x xs ih =>
    intro k h1 h2
    have hx1 : x ≠ ch := fun e => h1 (by simp [e])
    have hx2 : x ≠ '\x00' := fun e => h2 (by simp [e])
    rw [List.cons_append, wcschr_from, if_neg hx1, if_neg hx2,
      ih (k + 1) (fun h => h1 (List.mem_cons_of_mem _ h)) (fun h => h2 (List.mem_cons_of_mem _ h))]
    simp only [List.length_cons]
    congr 1
    omega

theorem wcschr_from_isSome (ch : Char) :
    ∀ (l : List Char) (k : Nat), ch ∈ l → '\x00' ∉ l → (wcschr_from l k ch).isSome = true := by
  intro l
  induction l with
  | nil => intro k h; simp at h
  | cons x xs ih =>
    intro k h1 h2
    rw [wcschr_from]
    by_cases hx : x = ch
    · simp [hx]
    · have hx2 : x ≠ '\x00' := fun e => h2 (by simp [e])
      rw [if_neg hx, if_neg hx2]
      rcases List.mem_cons.mp h1 with e | e
      · exact absurd e.symm hx
      · exact ih (k + 1) e (fun h => h2 (List.mem_cons_of_mem _ h))

/-- The label loop on a label that is not empty and has no `]`: the label is written, and
the loop stops at the `]` behind it. -/
theorem label_loop_append (rest : List Char) :
    ∀ (L : List Char) (i : Nat) (w : WINDOW), L ≠ [] → ']' ∉ L → '\x00' ∉ L →
      label_loop (L ++ ']' :: rest) i w = some (i + L.length, w.wprintw L) := by
  intro L
  induction L with
  | nil => intro i w h; exact absurd rfl h
  | cons x xs ih =>
    intro i w _ h1 h2
    have hx2 : x ≠ '\x00' := fun e => h2 (by simp [e])
    cases xs with
    | nil =>
      simp only [List.cons_append, List.nil_append, label_loop, if_true, List.length_cons,
        List.length_nil]
      rw [waddnwstr_ne w x hx2]
      rfl
    | cons y ys =>
      have hy : y ≠ ']' := fun e => h1 (by simp [e])
      rw [List.cons_append, List.cons_append, label_loop, if_neg hy, ← List.cons_append,
        ih (i + 1) _ (by simp) (fun h => h1 (List.mem_cons_of_mem _ h))
          (fun h => h2 (List.mem_cons_of_mem _ h)), wprintw_cons _ _ _ hx2]
      simp only [List.length_cons]
      congr 2
      omega

/-- The target loop on a target without `)`: the loop stops at the `)` behind it. -/
theorem target_loop_append (rest : List Char) :
    ∀ (T : List Char) (i : Nat), ')' ∉ T →
      target_loop (T ++ ')' :: rest) i = some (i + T.length) := by
  intro T
  induction T with
  | nil => intro i _; simp [target_loop]
  | cons x xs ih =>
    intro i h
    have hx : x ≠ ')' := fun e => h (by simp [e])
    rw [List.cons_append, target_loop, if_neg hx, ih (i + 1) (fun h' => h (List.mem_cons_of_mem _ h'))]
    simp only [List.length_cons]
    congr 1
    omega

theorem printed_append (w : WINDOW) (cs : List Char) :
    (w.wprintw cs).printed = w.printed ++ cs := by
  simp only [WINDOW.printed, WINDOW.wprintw, List.filterMap_append]
  congr 1
  induction cs with
  | nil => rfl
  | cons c cs ih => simp [List.filterMap_cons, ih]

/-- The window after a reference with label `L` is resolved and gets the ordinal `n`. -/
theorem inline_link_eq (s : List Char) (colors : Bool) (i : Nat) (w : WINDOW)
    (urls : List url_t) (L T rest : List Char) (c2 : Char)
    (hs : s.drop (i + 1) = L ++ ']' :: c2 :: (T ++ ')' :: rest))
    (hL : L ≠ []) (hL1 : ']' ∉ L) (hL0 : '\x00' ∉ L) (hT1 : ')' ∉ T) :
    inline_link s colors i w urls =
      some (i + L.length + 3 + T.length,
        (((((if colors then w.wattron_pair CP_HEADER else w).wattron_underline).wprintw L).wprintw
          ([' ', '['] ++ (Nat.repr urls.length).toList ++ [']'])).wattroff_underline).wattron_pair
            CP_FG,
        urls ++ [{ link_name := L.dropLast, link_name_length := L.length - 1,
                   target := T, target_length := T.length }]) := by
  have hd : s.drop (i + 1 + L.length + 1 + 1) = T ++ ')' :: rest := by
    have e : s.drop (i + 1 + L.length + 1 + 1) = (s.drop (i + 1)).drop (L.length + 2) := by
      rw [List.drop_drop]; congr 1
    rw [e, hs]
    have e2 : L ++ ']' :: c2 :: (T ++ ')' :: rest) = (L ++ [']', c2]) ++ (T ++ ')' :: rest) := by
      simp
    rw [e2, List.drop_left' (by simp)]
  unfold inline_link
  dsimp only
  rw [hs, label_loop_append _ L (i + 1) _ hL hL1 hL0]
  dsimp only
  rw [hd, target_loop_append _ T _ hT1]
  dsimp only
  have e1 : i + 1 + L.length + 1 + 1 + T.length = i + L.length + 3 + T.length := by omega
  have e2 : i + 1 + L.length + 1 + 1 + T.length - (i + 1 + L.length + 1 + 1) = T.length := by
    omega
  have e3 : i + 1 + L.length - 1 - (i + 1) = L.length - 1 := by omega
  rw [e2, e3, e1]
  have t1 : (s.drop (i + 1 + L.length + 1 + 1)).take T.length = T := by
    rw [hd, List.take_left' rfl]
  have t2 : (s.drop (i + 1)).take (L.length - 1) = L.dropLast := by
    rw [hs, List.take_append_of_le_length (by omega), List.dropLast_eq_take]
  simp only [url_add, t1, t2]

/-- C8: for the line `[L](T)`, where the label `L` is not empty and has no `]` and the target
`T` has no `)`, `inline_display` writes the characters of `L` followed by ` [n]`, where `n`
is the ordinal that registering the link returns (the number of entries the table had), and
the target it registers is exactly `T`, with length `|T|`, starting at the character after
the `(`. -/
theorem inline_display_link (L T : List Char) (colors : Bool) (win : WINDOW)
    (urls : List url_t) (hL : L ≠ []) (hL1 : ']' ∉ L) (hL0 : '\x00' ∉ L) (hT1 : ')' ∉ T)
    (hT0 : '\x00' ∉ T) :
    ∃ w' : WINDOW,
      inline_display (['['] ++ L ++ [']', '('] ++ T ++ [')']) colors win urls =
        Run.ok (w', urls ++ [{ link_name := L.dropLast, link_name_length := L.length - 1,
                               target := T, target_length := T.length }]) ∧
      w'.printed = win.printed ++ L ++ [' ', '['] ++ (Nat.repr urls.length).toList ++ [']'] ∧
      (url_add urls (['['] ++ L ++ [']', '('] ++ T ++ [')']) 1 (L.length - 1) (L.length + 3)
        T.length) =
        (urls.length, urls ++ [{ link_name := L.dropLast, link_name_length := L.length - 1,
                                 target := T, target_length := T.length }]) ∧
      peek (['['] ++ L ++ [']', '('] ++ T ++ [')']) (L.length + 2) = '(' ∧
      w'.pair = CP_FG ∧ w'.underline = false := by
  have hs : ['['] ++ L ++ [']', '('] ++ T ++ [')'] = '[' :: (L ++ ']' :: '(' :: (T ++ [')'])) := by
    simp
  rw [hs]
  generalize hsd : '[' :: (L ++ ']' :: '(' :: (T ++ [')'])) = s
  have f1 : peek s 0 = '[' := by rw [← hsd]; rfl
  have f2 : wcschr s 0 ']' = some (L.length + 1) := by
    unfold wcschr
    rw [List.drop_zero, ← hsd]
    have := wcschr_from_append ']' ('(' :: (T ++ [')'])) ('[' :: L) 0
      (by simp only [List.mem_cons, not_or]; exact ⟨by decide, hL1⟩)
      (by simp only [List.mem_cons, not_or]; exact ⟨by decide, hL0⟩)
    simpa using this
  have f3 : peek s (L.length + 1 + 1) = '(' := by
    rw [← hsd]
    have e : '[' :: (L ++ ']' :: '(' :: (T ++ [')'])) = ('[' :: L ++ [']']) ++ '(' :: (T ++ [')']) := by
      simp
    have e2 : L.length + 1 + 1 = ('[' :: L ++ [']']).length := by simp
    rw [e, e2]
    exact peek_append_cons _ _ _
  have f4 : (wcschr s 0 ')').isSome = true := by
    unfold wcschr
    rw [List.drop_zero, ← hsd]
    apply wcschr_from_isSome
    · simp
    · simp only [List.mem_cons, List.mem_append, List.mem_singleton, not_or]
      exact ⟨by decide, hL0, by decide, by decide, hT0, by decide⟩
  have f5 : s.drop (0 + 1) = L ++ ']' :: '(' :: (T ++ ')' :: []) := by rw [← hsd]; rfl
  have f7 : peek s (0 + L.length + 3 + T.length) = ')' := by
    rw [← hsd]
    have e : '[' :: (L ++ ']' :: '(' :: (T ++ [')'])) = ('[' :: L ++ [']', '('] ++ T) ++ ')' :: [] := by
      simp
    have e2 : 0 + L.length + 3 + T.length = ('[' :: L ++ [']', '('] ++ T).length := by
      simp; omega
    rw [e, e2]
    exact peek_append_cons _ _ _
  have f8 : s.length = L.length + T.length + 4 := by
    rw [← hsd]; simp; omega
  have hlink := inline_link_eq s colors 0 win urls L T [] '(' f5 hL hL1 hL0 hT1
  have hopen : inline_open s colors 0 { window := win, stack := [], urls := urls } =
      some (0 + L.length + 3 + T.length,
        { window := (((((if colors then win.wattron_pair CP_HEADER else win).wattron_underline).wprintw
            L).wprintw ([' ', '['] ++ (Nat.repr urls.length).toList ++ [']'])).wattroff_underline).wattron_pair
              CP_FG,
          stack := [')'],
          urls := urls ++ [{ link_name := L.dropLast, link_name_length := L.length - 1,
                             target := T, target_length := T.length }] }) := by
    unfold inline_open
    simp +decide only [f1, f2, f3, f4, if_true, if_false, Bool.and_self, Bool.true_or,
      Option.isSome_some, decide_True, hlink, f7, cstack_t.push]
  have hbody : inline_body s colors 0 { window := win, stack := [], urls := urls } =
      inline_open s colors 0 { window := win, stack := [], urls := urls } := by
    unfold inline_body
    simp +decide [f1, may_open, cstack_t.top]
  have hscan : inline_scan s colors win urls = Run.ok
      { window := (((((if colors then win.wattron_pair CP_HEADER else win).wattron_underline).wprintw
            L).wprintw ([' ', '['] ++ (Nat.repr urls.length).toList ++ [']'])).wattroff_underline).wattron_pair
              CP_FG,
        stack := [')'],
        urls := urls ++ [{ link_name := L.dropLast, link_name_length := L.length - 1,
                           target := T, target_length := T.length }] } := by
    unfold inline_scan
    rw [inline_loop, f1, if_neg (by decide), hbody, hopen]
    dsimp only
    have e : 0 + L.length + 3 + T.length + 1 = s.length := by omega
    rw [e, f8, inline_loop, ← f8, peek_length, if_pos rfl]
  refine ⟨(((((if colors then win.wattron_pair CP_HEADER else win).wattron_underline).wprintw
            L).wprintw ([' ', '['] ++ (Nat.repr urls.length).toList ++ [']'])).wattroff_underline).wattron_pair
              CP_FG, ?_, ?_, ?_, ?_, rfl, rfl⟩
  · unfold inline_display
    rw [hscan]
    simp +decide [drain]
  · have hp : ∀ w : WINDOW, ((w.wattroff_underline).wattron_pair CP_FG).printed = w.printed := by
      intro w
      simp [WINDOW.printed, WINDOW.wattron_pair, WINDOW.wattroff_underline,
        List.filterMap_append]
    have hq : ((if colors then win.wattron_pair CP_HEADER else win).wattron_underline).printed =
        win.printed := by
      cases colors <;>
        simp [WINDOW.printed, WINDOW.wattron_pair, WINDOW.wattron_underline,
          List.filterMap_append]
    rw [hp, printed_append, printed_append, hq]
    simp
  · have hd : s.drop (L.length + 3) = T ++ ')' :: [] := by
      rw [← hsd]
      have e : '[' :: (L ++ ']' :: '(' :: (T ++ [')'])) = ('[' :: L ++ [']', '(']) ++ (T ++ [')']) := by
        simp
      rw [e, List.drop_left' (by simp)]
    have t1 : (s.drop (L.length + 3)).take T.length = T := by
      rw [hd, List.take_left' rfl]
    have t2 : (s.drop 1).take (L.length - 1) = L.dropLast := by
      rw [show (1 : Nat) = 0 + 1 from rfl, f5, List.take_append_of_le_length (by omega),
        List.dropLast_eq_take]
    simp only [url_add, t1, t2]
  · rw [show L.length + 2 = L.length + 1 + 1 from rfl]
    exact f3

/-! ### Attributes at the end of a line, colours enabled -/

theorem waddnwstr_attrs (w : WINDOW) (c : Char) :
    (w.waddnwstr c).pair = w.pair ∧ (w.waddnwstr c).underline = w.underline := by
  unfold WINDOW.waddnwstr
  split <;> exact ⟨rfl, rfl⟩

theorem attrs_tracked_waddnwstr (w : WINDOW) (c : Char) (stack : cstack_t)
    (h : attrs_tracked w stack) : attrs_tracked (w.waddnwstr c) stack := by
  obtain ⟨h1, h2⟩ := waddnwstr_attrs w c
  unfold attrs_tracked
  rw [h1, h2]
  exact h

theorem attrs_tracked_pop (w : WINDOW) (c : Char) (stack : cstack_t)
    (hc : c ≠ '*' ∧ c ≠ '`' ∧ c ≠ '_') (h : attrs_tracked w (c :: stack)) :
    attrs_tracked w stack := by
  obtain ⟨h1, h2⟩ := h
  refine ⟨fun hp => ?_, fun hu => ?_⟩
  · rcases h1 hp with e | e
    · rcases List.mem_cons.mp e with e | e
      · exact absurd e.symm hc.1
      · exact Or.inl e
    · rcases List.mem_cons.mp e with e | e
      · exact absurd e.symm hc.2.1
      · exact Or.inr e
  · rcases List.mem_cons.mp (h2 hu) with e | e
    · exact absurd e.symm hc.2.2
    · exact e

theorem attrs_tracked_push (w : WINDOW) (c : Char) (stack : cstack_t)
    (h : attrs_tracked w stack) : attrs_tracked w (c :: stack) := by
  obtain ⟨h1, h2⟩ := h
  refine ⟨fun hp => ?_, fun hu => List.mem_cons_of_mem _ (h2 hu)⟩
  rcases h1 hp with e | e
  · exact Or.inl (List.mem_cons_of_mem _ e)
  · exact Or.inr (List.mem_cons_of_mem _ e)

theorem attrs_tracked_default (w : WINDOW) (stack : cstack_t) (h1 : w.pair = CP_FG)
    (h2 : w.underline = false) : attrs_tracked w stack :=
  ⟨fun h => absurd h1 h, fun h => absurd (h2 ▸ h) (by simp)⟩

/-- The closing action of the symbol on top of the stack, colours enabled, keeps the
attributes accounted for by the rest of the stack. -/
theorem attrs_tracked_close (w : WINDOW) (c : Char) (stack : cstack_t)
    (h : attrs_tracked w (c :: stack)) : attrs_tracked (close_action true c w) stack := by
  unfold close_action
  by_cases e1 : c = '\\'
  · rw [if_pos e1]
    exact attrs_tracked_waddnwstr _ _ _
      (attrs_tracked_pop w c stack (by subst e1; decide) h)
  rw [if_neg e1]
  by_cases e2 : c = '*'
  · rw [if_pos e2]
    subst e2
    refine ⟨fun hp => absurd rfl hp, fun hu => ?_⟩
    rcases List.mem_cons.mp (h.2 hu) with e | e
    · exact absurd e (by decide)
    · exact e
  rw [if_neg e2]
  by_cases e3 : c = '_'
  · rw [if_pos e3]
    subst e3
    refine ⟨fun hp => ?_, fun hu => absurd hu (by simp [WINDOW.wattroff_underline])⟩
    rcases h.1 hp with e | e
    · rcases List.mem_cons.mp e with e | e
      · exact absurd e (by decide)
      · exact Or.inl e
    · rcases List.mem_cons.mp e with e | e
      · exact absurd e (by decide)
      · exact Or.inr e
  rw [if_neg e3]
  by_cases e4 : c = '`'
  · rw [if_pos e4]
    subst e4
    refine ⟨fun hp => absurd rfl hp, fun hu => ?_⟩
    rcases List.mem_cons.mp (h.2 hu) with e | e
    · exact absurd e (by decide)
    · exact e
  rw [if_neg e4]
  exact attrs_tracked_pop w c stack ⟨e2, e4, e3⟩ h

/-- The opening action of a symbol keeps the attributes accounted for once the symbol is
pushed. -/
theorem attrs_tracked_open (colors : Bool) (w : WINDOW) (c : Char) (stack : cstack_t)
    (h : attrs_tracked w stack) : attrs_tracked (open_action colors c w) (c :: stack) := by
  unfold open_action
  by_cases e2 : c = '*'
  · rw [if_pos e2]
    subst e2
    cases colors
    · exact attrs_tracked_push _ _ _ h
    · exact ⟨fun _ => Or.inl (List.mem_cons_self _ _),
        fun hu => List.mem_cons_of_mem _ (h.2 hu)⟩
  rw [if_neg e2]
  by_cases e3 : c = '_'
  · rw [if_pos e3]
    subst e3
    refine ⟨fun hp => ?_, fun _ => List.mem_cons_self _ _⟩
    rcases h.1 hp with e | e
    · exact Or.inl (List.mem_cons_of_mem _ e)
    · exact Or.inr (List.mem_cons_of_mem _ e)
  rw [if_neg e3]
  by_cases e4 : c = '`'
  · rw [if_pos e4]
    subst e4
    exact ⟨fun _ => Or.inr (List.mem_cons_self _ _),
      fun hu => List.mem_cons_of_mem _ (h.2 hu)⟩
  rw [if_neg e4]
  exact attrs_tracked_push _ _ _ h

theorem inline_link_attrs (s : List Char) (colors : Bool) (i : Nat) (w : WINDOW)
    (urls : List url_t) (j : Nat) (w' : WINDOW) (urls' : List url_t)
    (h : inline_link s colors i w urls = some (j, w', urls')) :
    w'.pair = CP_FG ∧ w'.underline = false := by
  unfold inline_link at h
  dsimp only at h
  cases hk : label_loop (s.drop (i + 1)) (i + 1)
      (if colors = true then w.wattron_pair CP_HEADER else w).wattron_underline with
  | none => rw [hk] at h; exact absurd h (by simp)
  | some r =>
    obtain ⟨k, wk⟩ := r
    rw [hk] at h
    dsimp only at h
    cases hm : target_loop (s.drop (k + 1 + 1)) (k + 1 + 1) with
    | none => rw [hm] at h; exact absurd h (by simp)
    | some m =>
      rw [hm] at h
      simp only [Option.some.injEq, Prod.mk.injEq] at h
      obtain ⟨_, hw, _⟩ := h
      rw [← hw]
      exact ⟨rfl, rfl⟩

theorem top_eq_true (stack : cstack_t) (c : Char) (h : stack.top c = true) :
    ∃ rest, stack = c :: rest := by
  cases stack with
  | nil => simp [cstack_t.top] at h
  | cons x rest =>
    simp only [cstack_t.top, List.head?_cons, Option.some.injEq, decide_eq_true_eq] at h
    exact ⟨rest, by rw [h]⟩

theorem inline_open_tracked (s : List Char) (colors : Bool) (i : Nat) (st : inline_state)
    (j : Nat) (st' : inline_state) (h : inline_open s colors i st = some (j, st'))
    (ht : attrs_tracked st.window st.stack) : attrs_tracked st'.window st'.stack := by
  unfold inline_open at h
  dsimp only at h
  by_cases hc : ((decide (peek s i = '[') && (wcschr s i ']').isSome) ||
      (decide (peek s i = '!') && decide (peek s (i + 1) = '[') && (wcschr s i ']').isSome)) = true
  · rw [if_pos hc] at h
    generalize (if peek s i = '!' then i + 1 else i) = i' at h
    cases hw : wcschr s i' ']' with
    | none => rw [hw] at h; exact absurd h (by simp)
    | some k =>
      rw [hw] at h
      dsimp only at h
      by_cases hc2 : (decide (peek s (k + 1) = '(') && (wcschr s i' ')').isSome) = true
      · rw [if_pos hc2] at h
        cases hl : inline_link s colors i' st.window st.urls with
        | none => rw [hl] at h; exact absurd h (by simp)
        | some r =>
          obtain ⟨m, w', urls'⟩ := r
          rw [hl] at h
          obtain ⟨a1, a2⟩ := inline_link_attrs _ _ _ _ _ _ _ _ hl
          simp only [Option.some.injEq, Prod.mk.injEq] at h
          rw [← h.2]
          exact attrs_tracked_default _ _ a1 a2
      · rw [if_neg hc2] at h
        simp only [Option.some.injEq, Prod.mk.injEq] at h
        rw [← h.2]
        exact attrs_tracked_push _ _ _ ht
  · rw [if_neg hc] at h
    simp only [Option.some.injEq, Prod.mk.injEq] at h
    rw [← h.2]
    exact attrs_tracked_open _ _ _ _ ht

/-- With colours enabled the body of the loop keeps every attribute that differs from the
default accounted for by a symbol on the stack. -/
theorem inline_body_tracked (s : List Char) (i : Nat) (st : inline_state)
    (j : Nat) (st' : inline_state) (h : inline_body s true i st = some (j, st'))
    (ht : attrs_tracked st.window st.stack) : attrs_tracked st'.window st'.stack := by
  have hpop : st.stack.top '\\' = true → attrs_tracked st.window st.stack.pop := by
    intro htop
    obtain ⟨rest, hr⟩ := top_eq_true _ _ htop
    rw [hr] at ht ⊢
    exact attrs_tracked_pop _ _ _ (by decide) ht
  unfold inline_body at h
  dsimp only at h
  split at h
  · split at h
    · rename_i hc
      simp only [Option.some.injEq, Prod.mk.injEq] at h
      rw [← h.2]
      simp only [Bool.and_eq_true] at hc
      obtain ⟨rest, hr⟩ := top_eq_true _ _ hc.1
      rw [hr] at ht
      show attrs_tracked (close_action true (peek s i) st.window) st.stack.pop
      rw [hr]
      exact attrs_tracked_close _ _ _ ht
    · split at h
      · rename_i htop
        simp only [Option.some.injEq, Prod.mk.injEq] at h
        rw [← h.2]
        exact attrs_tracked_waddnwstr _ _ _ (hpop htop)
      · split at h
        · exact inline_open_tracked s true i st j st' h ht
        · simp only [Option.some.injEq, Prod.mk.injEq] at h
          rw [← h.2]
          exact attrs_tracked_waddnwstr _ _ _ ht
  · simp only [Option.some.injEq, Prod.mk.injEq] at h
    rw [← h.2]
    apply attrs_tracked_waddnwstr
    show attrs_tracked st.window (if st.stack.top '\\' = true then st.stack.pop else st.stack)
    split
    · rename_i htop
      exact hpop htop
    · exact ht

theorem inline_loop_tracked (s : List Char) :
    ∀ (fuel i : Nat) (st st' : inline_state), inline_loop s true fuel i st = Run.ok st' →
      attrs_tracked st.window st.stack → attrs_tracked st'.window st'.stack := by
  intro fuel
  induction fuel with
  | zero => intro i st st' h; simp [inline_loop] at h
  | succ n ih =>
    intro i st st' h ht
    rw [inline_loop] at h
    split at h
    · simp only [Run.ok.injEq] at h
      rw [← h]
      exact ht
    · split at h
      · exact absurd h (by simp)
      · rename_i j st1 hb
        exact ih _ _ _ h (inline_body_tracked s i st j st1 hb ht)

theorem drain_tracked : ∀ (stack : cstack_t) (w : WINDOW), attrs_tracked w stack →
    (drain true stack w).pair = CP_FG ∧ (drain true stack w).underline = false := by
  intro stack
  induction stack with
  | nil =>
    intro w h
    simp only [drain]
    constructor
    · by_contra hp
      rcases h.1 hp with e | e <;> simp at e
    · cases hu : w.underline with
      | false => rfl
      | true => exact absurd (h.2 hu) (by simp)
  | cons c rest ih =>
    intro w h
    rw [drain]
    apply ih
    have hc := attrs_tracked_close w c rest h
    unfold close_action at hc
    by_cases e1 : c = '\\'
    · subst e1
      simp +decide only [if_false]
      exact attrs_tracked_pop w _ rest (by decide) h
    · rw [if_neg e1] at hc
      exact hc

/-- With colours enabled, a call of `inline_display` that returns and was entered with the
default attributes (colour pair `CP_FG`, no underline) leaves the default attributes. -/
theorem inline_display_restores (s : List Char) (w w' : WINDOW) (urls urls' : List url_t)
    (h : inline_display s true w urls = Run.ok (w', urls')) (hp : w.pair = CP_FG)
    (hu : w.underline = false) : w'.pair = CP_FG ∧ w'.underline = false := by
  unfold inline_display at h
  split at h
  · rename_i st hs
    simp only [Run.ok.injEq, Prod.mk.injEq] at h
    rw [← h.1]
    apply drain_tracked
    unfold inline_scan at hs
    exact inline_loop_tracked s _ _ _ _ hs (attrs_tracked_default _ _ hp hu)
  · exact absurd h (by simp)
  · exact absurd h (by simp)

/-- Witness of C8: the line `[label](http://x)` on an empty table is written as `label [0]`,
and the target registered under ordinal 0 is `http://x`. -/
theorem inline_display_link_witness :
    ∃ w' : WINDOW,
      inline_display "[label](http://x)".toList true (default_window true) [] =
        Run.ok (w', [{ link_name := "labe".toList, link_name_length := 4,
                       target := "http://x".toList, target_length := 8 }]) ∧
      w'.printed = "label [0]".toList := by
  obtain ⟨w', h1, h2, _⟩ := inline_display_link "label".toList "http://x".toList true
    (default_window true) [] (by decide) (by decide) (by decide) (by decide) (by decide)
  exact ⟨w', h1, h2⟩

/-- C9: with colours disabled, `inline_display` on the line made of a backtick, `x` and a
backtick starts with the default attributes (colour pair 0, no underline) and returns with
the colour pair `CP_CODE` on the window: the opening backtick turns the pair on whatever the
colours flag is, and the closing one restores the default only when colours are enabled.
With colours enabled every call that returns and starts with the default attributes
(colour pair `CP_FG`, no underline) ends with them. -/
theorem inline_display_backtick_bleeds :
    default_window false = { pair := 0, underline := false, out := [] } ∧
      inline_display "`x`".toList false (default_window false) [] =
        Run.ok ({ pair := CP_CODE, underline := false,
                  out := [Out.color CP_CODE, Out.ch 'x'] }, []) ∧
      (∀ (s : List Char) (w w' : WINDOW) (urls urls' : List url_t),
        inline_display s true w urls = Run.ok (w', urls') → w.pair = CP_FG →
          w.underline = false → w'.pair = CP_FG ∧ w'.underline = false) :=
  ⟨by decide, by decide, inline_display_restores⟩

/-- C10: on the NUL-terminated lines `[](x)` and `[a)](b`, `inline_display` reads a character
beyond the terminator. In `[](x)` the label loop writes the `]` at index 1 before it tests
for one and runs past the end of the line; in `[a)](b` the `)` that the guard finds stands
before the `]`, and the target loop finds none behind the `(`. -/
theorem inline_display_reads_past_terminator :
    inline_display "[](x)".toList true (default_window true) [] = Run.fault ∧
      inline_display "[](x)".toList false (default_window false) [] = Run.fault ∧
      inline_display "[a)](b".toList true (default_window true) [] = Run.fault ∧
      inline_display "[a)](b".toList false (default_window false) [] = Run.fault := by
  decide

/-- C11: on the line `[abc`, whose `[` stands at the start of the line and is followed by no
`]`, `inline_display` writes `abc` only: the `[` is pushed on the stack and never written.
On the line `[abc] d`, where a `]` follows without `(`, every character is written. -/
theorem inline_display_open_bracket_swallowed :
    inline_display "[abc".toList true (default_window true) [] =
        Run.ok ({ pair := CP_FG, underline := false,
                  out := [Out.ch 'a', Out.ch 'b', Out.ch 'c'] }, []) ∧
      inline_display "[abc".toList false (default_window false) [] =
        Run.ok ({ pair := 0, underline := false,
                  out := [Out.ch 'a', Out.ch 'b', Out.ch 'c'] }, []) ∧
      inline_display "[abc] d".toList true (default_window true) [] =
        Run.ok ({ pair := CP_FG, underline := false,
                  out := "[abc] d".toList.map Out.ch }, []) := by
  decide

/-! ## The layout pass -/

namespace Viewer

theorem peek_append_right (a c : List Char) (k : Nat) :
    peek (a ++ c) (a.length + k) = peek c k := by
  unfold peek
  rw [List.getD_eq_getElem?_getD, List.getD_eq_getElem?_getD,
    List.getElem?_append_right (Nat.le_add_right _ _)]
  simp

theorem peek_append_left (a c : List Char) (k : Nat) (h : k < a.length) :
    peek (a ++ c) k = peek a k := by
  unfold peek
  rw [List.getD_eq_getElem?_getD, List.getD_eq_getElem?_getD, List.getElem?_append_left h]

theorem peek_not_blank (cs : List Char) (h : ∀ x ∈ cs, iswspace x = false) (k : Nat) :
    iswspace (peek cs k) = false := by
  unfold peek
  rw [List.getD_eq_getElem?_getD]
  cases hk : cs[k]? with
  | none => rfl
  | some x => exact h x (List.getElem?_mem hk)

/-- Searching backward from an index inside a stretch without blanks that follows the blank
`b`, `prev_blank` returns the index of `b`. -/
theorem prev_blank_token (a c post : List Char) (b : Char) (hb : iswspace b = true)
    (hc : ∀ x ∈ c, iswspace x = false) :
    ∀ k, k ≤ c.length → prev_blank (a ++ b :: (c ++ post)) (a.length + k) = a.length := by
  intro k
  induction k with
  | zero =>
    intro _
    cases ha : a.length with
    | zero => rfl
    | succ m =>
      have hp : peek (a ++ b :: (c ++ post)) (m + 1) = b := by
        rw [← ha]; exact peek_append_cons a b _
      simp only [Nat.add_zero, prev_blank, hp, hb, if_true]
  | succ k ih =>
    intro hk
    have e : a.length + (k + 1) = (a.length + k) + 1 := by omega
    have hp : iswspace (peek (a ++ b :: (c ++ post)) (a.length + k + 1)) = false := by
      have e2 : a ++ b :: (c ++ post) = (a ++ [b]) ++ (c ++ post) := by simp
      have e3 : a.length + k + 1 = (a ++ [b]).length + k := by simp; omega
      rw [e2, e3, peek_append_right, peek_append_left _ _ _ (by omega)]
      exact peek_not_blank c hc k
    rw [e, prev_blank, hp]
    simp only [Bool.false_eq_true, if_false]
    exact ih (by omega)

/-- C12: for a terminal of `W` columns and a line of `W + 1` characters without references
whose characters behind the blank at index `p`, `0 < p`, hold no blank, the layout pass wraps
the line exactly once, at `p`: the row cut first has width `p`, the loop ends with `offset`
at `p` and the remainder `W + 1 - p`, two rows are counted for the line, and no error is
raised. -/
theorem layout_line_wraps_once (scr : screen_t) (line : line_t) (a c : List Char) (b : Char)
    (lc max_cols : Int) (htext : line.text = a ++ b :: c) (hb : iswspace b = true)
    (hc : ∀ x ∈ c, iswspace x = false) (hp : 0 < a.length)
    (hW : a.length + 1 + c.length = scr.COLS + 1) (hl : line.length = (scr.COLS : Int) + 1)
    (hu1 : scr.url_count_inline line.text = 0) (hu2 : scr.url_len_inline line.text = 0) :
    layout_line scr line lc max_cols =
        layout_result.ok (line, lc + 2,
          max ((scr.COLS : Int) + 1 - a.length) (max (a.length : Int) max_cols)) ∧
      wrap_loop scr.COLS line.text ((scr.COLS : Int) + 1) (line.text.length + 1)
          { i := (scr.COLS : Int) + 1, offset := 0, lc := lc, max_cols := max_cols } =
        layout_result.ok { i := (scr.COLS : Int) + 1 - a.length, offset := a.length,
                           lc := lc + 1, max_cols := max (a.length : Int) max_cols } ∧
      ((prev_blank line.text (0 + scr.COLS) : Nat) : Int) - (0 : Nat) = a.length := by
  have hpb : prev_blank line.text (0 + scr.COLS) = a.length := by
    have h := prev_blank_token a c [] b hb hc c.length (Nat.le_refl _)
    rw [List.append_nil] at h
    rw [htext, ← h]
    congr 1
    omega
  have hfuel : line.text.length + 1 = (scr.COLS + 1) + 1 := by
    rw [htext]; simp only [List.length_append, List.length_cons]; omega
  have hwrap : wrap_loop scr.COLS line.text ((scr.COLS : Int) + 1) (line.text.length + 1)
      { i := (scr.COLS : Int) + 1, offset := 0, lc := lc, max_cols := max_cols } =
      layout_result.ok { i := (scr.COLS : Int) + 1 - a.length, offset := a.length,
                         lc := lc + 1, max_cols := max (a.length : Int) max_cols } := by
    rw [hfuel, wrap_loop]
    dsimp only
    rw [if_pos (by omega), hpb, if_neg (by omega)]
    cases hC : scr.COLS with
    | zero => omega
    | succ m =>
      rw [wrap_loop]
      dsimp only
      rw [if_neg (by omega)]
      simp
  refine ⟨?_, hwrap, by rw [hpb]; simp⟩
  unfold layout_line
  have hne : line.text ≠ [] := by rw [htext]; simp
  simp only [hne, ne_eq, not_false_eq_true, if_true, hu1, hu2, hl, Nat.cast_zero,
    Int.add_zero, Int.sub_zero]
  rw [if_pos (by omega), hwrap]
  dsimp only
  congr 2
  · cases line
    simp only at hl
    simp [hl]
  · congr 1
    omega

/-- Witness of C12: on 6 columns the line `ab cdef` of 7 characters is cut once, at index 2:
two rows, the first of width 2 and the remainder of width 5. -/
theorem layout_line_wraps_once_witness :
    layout_line { COLS := 6, LINES := 24, url_count_inline := fun _ => 0,
                  url_len_inline := fun _ => 0 }
        { text := "ab cdef".toList, length := 7, bits := 0 } 0 0 =
      layout_result.ok ({ text := "ab cdef".toList, length := 7, bits := 0 }, 2, 5) :=
  (layout_line_wraps_once
    { COLS := 6, LINES := 24, url_count_inline := fun _ => 0, url_len_inline := fun _ => 0 }
    { text := "ab cdef".toList, length := 7, bits := 0 } "ab".toList "cdef".toList ' ' 0 0
    rfl (by decide) (by decide) (by decide) (by decide) (by decide) rfl rfl).1

theorem next_blank_loop_eq (text : cstring_t) :
    ∀ fuel i, fuel = text.length - i →
      next_blank_loop text fuel i =
        i + ((text.drop i).takeWhile (fun x => !isspace x)).length := by
  intro fuel
  induction fuel with
  | zero =>
    intro i h
    have : text.length ≤ i := by omega
    simp [next_blank_loop, List.drop_eq_nil_of_le this]
  | succ n ih =>
    intro i h
    have hi : i < text.length := by omega
    rw [next_blank_loop, List.drop_eq_getElem_cons hi, cstring_at_lt text i hi]
    by_cases hs : isspace text[i] = true
    · simp [hs, List.takeWhile_cons]
    · have hs' : isspace text[i] = false := by simpa using hs
      simp only [hi, hs', decide_True, Bool.not_false, Bool.and_self, if_true,
        List.takeWhile_cons, List.length_cons]
      rw [ih (i + 1) (by omega)]
      omega

/-- Searching forward from an index inside a stretch `tok` without blanks that is followed
by a blank or by the end of the line, `next_blank` returns the index behind `tok`. -/
theorem next_blank_token (front tok post : List Char) (k : Nat) (hk : k ≤ tok.length)
    (htok : ∀ x ∈ tok, iswspace x = false) (hpost : ∀ y ∈ post.head?, iswspace y = true) :
    next_blank (front ++ (tok ++ post)) (front.length + k) = front.length + tok.length := by
  unfold next_blank
  rw [next_blank_loop_eq _ _ _ rfl]
  have hd : (front ++ (tok ++ post)).drop (front.length + k) = tok.drop k ++ post := by
    rw [← List.drop_drop, List.drop_left, List.drop_append_of_le_length hk]
  rw [hd]
  have ht : (tok.drop k ++ post).takeWhile (fun x => !isspace x) = tok.drop k := by
    have h1 : ∀ x ∈ tok.drop k, (fun x => !isspace x) x = true := by
      intro x hx
      have := htok x (List.mem_of_mem_drop hx)
      simp only [iswspace] at this
      simp [this]
    rw [List.takeWhile_append_of_pos h1]
    cases post with
    | nil => simp
    | cons y ys =>
      have := hpost y (by simp)
      simp only [iswspace] at this
      simp [List.takeWhile_cons, this]
  rw [ht, List.length_drop]
  omega

theorem prev_blank_le (text : List Char) : ∀ j, prev_blank text j ≤ j := by
  intro j
  induction j with
  | zero => simp [prev_blank]
  | succ j ih =>
    rw [prev_blank]
    split
    · omega
    · omega

theorem prev_blank_ge (text : List Char) (k : Nat) (hk : iswspace (peek text k) = true) :
    ∀ j, k ≤ j → k ≤ prev_blank text j := by
  intro j
  induction j with
  | zero => intro h; omega
  | succ j ih =>
    intro h
    rw [prev_blank]
    split
    · exact h
    · rename_i hn
      by_cases e : k = j + 1
      · rw [e] at hk; exact absurd hk hn
      · exact ih (by omega)

theorem prev_blank_blank (text : List Char) :
    ∀ j, prev_blank text j = 0 ∨ iswspace (peek text (prev_blank text j)) = true := by
  intro j
  induction j with
  | zero => left; rfl
  | succ j ih =>
    rw [prev_blank]
    split
    · rename_i h; right; exact h
    · exact ih

theorem prev_blank_start (tok post : List Char) (htok : ∀ x ∈ tok, iswspace x = false) :
    ∀ k, k < tok.length → prev_blank (tok ++ post) k = 0 := by
  intro k
  induction k with
  | zero => intro _; rfl
  | succ k ih =>
    intro hk
    rw [prev_blank, peek_append_left _ _ _ hk, peek_not_blank tok htok]
    simp only [Bool.false_eq_true, if_false]
    exact ih (by omega)

/-- A fatal error of the layout pass makes `ncurses_display` return 0 with all keys unread. -/
theorem ncurses_display_fatal (cfg : config_h) (scr : screen_t) (IS_STOP : Nat) (deck : deck_t)
    (reload noreload slidenum : Int) (keys : List Int) (e : fatal_t)
    (h : layout_slides scr deck.slide
      { max_lines := 0, max_lines_slide := -1, max_cols := 0, sc := 1 } =
        layout_result.fatal e) :
    ncurses_display cfg scr IS_STOP deck reload noreload slidenum keys =
      outcome.returned 0 (some e) keys := by
  unfold ncurses_display
  simp only [h]

theorem layout_lines_fatal (scr : screen_t) (line : line_t) (la : List line_t) (e : fatal_t) :
    ∀ (lb : List line_t) (lc0 mc0 : Int) (lb' : List line_t) (lc mc : Int),
      layout_lines scr lb lc0 mc0 = layout_result.ok (lb', lc, mc) →
      layout_line scr line lc mc = layout_result.fatal e →
      layout_lines scr (lb ++ line :: la) lc0 mc0 = layout_result.fatal e := by
  intro lb
  induction lb with
  | nil =>
    intro lc0 mc0 lb' lc mc h1 h2
    simp only [layout_lines, layout_result.ok.injEq, Prod.mk.injEq] at h1
    obtain ⟨_, h3, h4⟩ := h1
    subst h3; subst h4
    simp only [List.nil_append, layout_lines, h2]
  | cons l ls ih =>
    intro lc0 mc0 lb' lc mc h1 h2
    rw [List.cons_append, layout_lines]
    rw [layout_lines] at h1
    cases hl : layout_line scr l lc0 mc0 with
    | ok r =>
      obtain ⟨l', lc1, mc1⟩ := r
      rw [hl] at h1
      dsimp only at h1 ⊢
      cases hr : layout_lines scr ls lc1 mc1 with
      | ok r2 =>
        obtain ⟨ls', lc2, mc2⟩ := r2
        rw [hr] at h1
        simp only [layout_result.ok.injEq, Prod.mk.injEq] at h1
        obtain ⟨_, h3, h4⟩ := h1
        subst h3; subst h4
        rw [ih lc1 mc1 ls' lc2 mc2 hr h2]
      | fatal e2 => rw [hr] at h1; exact absurd h1 (by simp)
      | stuck => rw [hr] at h1; exact absurd h1 (by simp)
    | fatal e2 => rw [hl] at h1; exact absurd h1 (by simp)
    | stuck => rw [hl] at h1; exact absurd h1 (by simp)

theorem layout_slides_fatal (scr : screen_t) (slide : slide_t) (sa : List slide_t)
    (e : fatal_t) :
    ∀ (sb : List slide_t) (s0 : layout_t) (sb' : List slide_t) (s : layout_t),
      layout_slides scr sb s0 = layout_result.ok (sb', s) →
      layout_lines scr slide.line 0 s.max_cols = layout_result.fatal e →
      layout_slides scr (sb ++ slide :: sa) s0 = layout_result.fatal e := by
  intro sb
  induction sb with
  | nil =>
    intro s0 sb' s h1 h2
    simp only [layout_slides, layout_result.ok.injEq, Prod.mk.injEq] at h1
    obtain ⟨_, h3⟩ := h1
    subst h3
    simp only [List.nil_append, layout_slides, h2]
  | cons x xs ih =>
    intro s0 sb' s h1 h2
    rw [List.cons_append, layout_slides]
    rw [layout_slides] at h1
    cases hl : layout_lines scr x.line 0 s0.max_cols with
    | ok r =>
      obtain ⟨ls, lc1, mc1⟩ := r
      rw [hl] at h1
      dsimp only at h1 ⊢
      cases hr : layout_slides scr xs
          { max_lines := max lc1 s0.max_lines,
            max_lines_slide := if lc1 = max lc1 s0.max_lines then s0.sc else s0.max_lines_slide,
            max_cols := mc1, sc := s0.sc + 1 } with
      | ok r2 =>
        obtain ⟨xs', s2⟩ := r2
        rw [hr] at h1
        simp only [layout_result.ok.injEq, Prod.mk.injEq] at h1
        obtain ⟨_, h3⟩ := h1
        subst h3
        rw [ih _ xs' s2 hr h2]
      | fatal e2 => rw [hr] at h1; exact absurd h1 (by simp)
      | stuck => rw [hr] at h1; exact absurd h1 (by simp)
    | fatal e2 => rw [hl] at h1; exact absurd h1 (by simp)
    | stuck => rw [hl] at h1; exact absurd h1 (by simp)

/-- When the layout pass reaches a line on which the wrap loop fails, `ncurses_display`
returns 0 with the diagnostic of that line and with all keys unread. -/
theorem ncurses_display_line_fatal (cfg : config_h) (scr : screen_t) (IS_STOP : Nat)
    (deck : deck_t) (reload noreload slidenum : Int) (keys : List Int) (line : line_t)
    (lc mc : Int) (e : fatal_t) (hr : layout_reaches scr deck.slide line lc mc)
    (hl : layout_line scr line lc mc = layout_result.fatal e) :
    ncurses_display cfg scr IS_STOP deck reload noreload slidenum keys =
      outcome.returned 0 (some e) keys := by
  obtain ⟨sb, sa, slide, lb, la, sb', s, lb', h1, h2, h3, h4⟩ := hr
  apply ncurses_display_fatal
  rw [h1]
  apply layout_slides_fatal scr slide sa e sb _ sb' s h3
  rw [h2]
  exact layout_lines_fatal scr line la e lb 0 s.max_cols lb' lc mc h4 hl

/-- The wrap loop cuts row after row in front of a token that is longer than the width, and
fails at the blank in front of it: the width it names is that of the blank and the token. -/
theorem wrap_loop_reaches_token (W : Nat) (pre tok post : List Char) (b : Char)
    (lines : Int) (hW0 : 0 < W) (hW : W < tok.length) (hb : iswspace b = true)
    (htok : ∀ x ∈ tok, iswspace x = false) (hpost : ∀ y ∈ post.head?, iswspace y = true)
    (hpre : ∀ o, o < pre.length →
      (o = 0 ∨ iswspace (peek (pre ++ b :: (tok ++ post)) o) = true) →
      ∃ k, o < k ∧ k ≤ o + W ∧ iswspace (peek (pre ++ b :: (tok ++ post)) k) = true)
    (hlines : lines = ((pre ++ b :: (tok ++ post)).length : Int)) :
    ∀ (fuel : Nat) (s : wrap_t), s.offset ≤ pre.length →
      (s.offset = 0 ∨ iswspace (peek (pre ++ b :: (tok ++ post)) s.offset) = true) →
      s.i = lines - s.offset → pre.length - s.offset + 1 ≤ fuel →
      wrap_loop W (pre ++ b :: (tok ++ post)) lines fuel s =
        layout_result.fatal (fatal_t.too_narrow W ((tok.length : Int) + 1)) := by
  have hlen : (pre ++ b :: (tok ++ post)).length = pre.length + 1 + tok.length + post.length := by
    simp only [List.length_append, List.length_cons]; omega
  intro fuel
  induction fuel with
  | zero => intro s _ _ _ h; omega
  | succ n ih =>
    intro s h1 h2 h3 h4
    rw [wrap_loop]
    rw [if_pos (by rw [h3, hlines, hlen]; push_cast; omega)]
    by_cases he : s.offset = pre.length
    · have hpb : prev_blank (pre ++ b :: (tok ++ post)) (s.offset + W) = pre.length := by
        rw [he]; exact prev_blank_token pre tok post b hb htok W (by omega)
      have hnb : next_blank (pre ++ b :: (tok ++ post)) (s.offset + W) =
          pre.length + 1 + tok.length := by
        have e1 : pre ++ b :: (tok ++ post) = (pre ++ [b]) ++ (tok ++ post) := by simp
        have e2 : s.offset + W = (pre ++ [b]).length + (W - 1) := by
          rw [he]; simp only [List.length_append, List.length_cons, List.length_nil]; omega
        rw [e1, e2, next_blank_token (pre ++ [b]) tok post (W - 1) (by omega) htok hpost]
        simp only [List.length_append, List.length_cons, List.length_nil]
      rw [hpb, hnb, he, if_pos (by omega)]
      congr 2
      push_cast
      omega
    · have hlt : s.offset < pre.length := by omega
      obtain ⟨k, hk1, hk2, hk3⟩ := hpre s.offset hlt h2
      have hge := prev_blank_ge (pre ++ b :: (tok ++ post)) k hk3 (s.offset + W) hk2
      have hle : prev_blank (pre ++ b :: (tok ++ post)) (s.offset + W) ≤ pre.length := by
        by_cases hc : s.offset + W ≤ pre.length
        · exact Nat.le_trans (prev_blank_le _ _) hc
        · have e : s.offset + W = pre.length + (s.offset + W - pre.length) := by omega
          rw [e, prev_blank_token pre tok post b hb htok _ (by omega)]
      have hbl : iswspace (peek (pre ++ b :: (tok ++ post))
          (prev_blank (pre ++ b :: (tok ++ post)) (s.offset + W))) = true := by
        rcases prev_blank_blank (pre ++ b :: (tok ++ post)) (s.offset + W) with h0 | h0
        · omega
        · exact h0
      rw [if_neg (by omega)]
      exact ih _ hle (Or.inr hbl) rfl (by dsimp only; omega)

/-- Counterexample to C13 as stated: on 5 columns the line `a bbbbbb` holds, after a blank,
the token `bbbbbb` of 6 characters, and the layout pass names 7 columns as needed, not 6:
`ncurses_display` returns 0 with that diagnostic and with all keys unread. -/
theorem ncurses_display_names_blank_and_token :
    "a bbbbbb".toList = "a".toList ++ ' ' :: "bbbbbb".toList ∧ "bbbbbb".toList.length = 6 ∧
      ncurses_display
        { prev_slide_binding := [107], next_slide_binding := [106], first_slide_binding := [103],
          last_slide_binding := [71], reload_binding := [114], quit_binding := [113] }
        { COLS := 5, LINES := 24, url_count_inline := fun _ => 0, url_len_inline := fun _ => 0 }
        0 { slide := [{ line := [{ text := "a bbbbbb".toList, length := 8, bits := 0 }],
                        lines_consumed := 0, stop := 0 }], headers := 0 }
        0 0 0 [106, 113] =
      outcome.returned 0 (some (fatal_t.too_narrow 5 7)) [106, 113] := by
  decide

/-- C13, amended: when the layout pass reaches a line without references (the lines in front
of it wrap without error) that holds a token `tok` without blanks longer than the terminal
width, followed by a blank or by the end of the line, `ncurses_display` returns 0 with all
keys unread, and the width that the diagnostic names is the length of the token when the
token starts the line, and the length of the token plus one, for the blank in front of it,
when the token stands behind a blank and every row in front of it can be cut (from the start
of the line and from every blank in front of the token the next blank is at most the width
away). -/
theorem ncurses_display_too_narrow (cfg : config_h) (scr : screen_t) (IS_STOP : Nat)
    (deck : deck_t) (reload noreload slidenum : Int) (keys : List Int) (line : line_t)
    (lc mc : Int) (tok post : List Char)
    (hreach : layout_reaches scr deck.slide line lc mc)
    (hW : scr.COLS < tok.length) (htok : ∀ x ∈ tok, iswspace x = false)
    (hpost : ∀ y ∈ post.head?, iswspace y = true)
    (hl : line.length = (line.text.length : Int)) (hu : scr.url_len_inline line.text = 0) :
    (line.text = tok ++ post →
      ncurses_display cfg scr IS_STOP deck reload noreload slidenum keys =
        outcome.returned 0 (some (fatal_t.too_narrow scr.COLS (tok.length : Int))) keys) ∧
    (∀ (pre : List Char) (b : Char), line.text = pre ++ b :: (tok ++ post) →
      iswspace b = true → 0 < scr.COLS →
      (∀ o, o < pre.length → (o = 0 ∨ iswspace (peek line.text o) = true) →
        ∃ k, o < k ∧ k ≤ o + scr.COLS ∧ iswspace (peek line.text k) = true) →
      ncurses_display cfg scr IS_STOP deck reload noreload slidenum keys =
        outcome.returned 0 (some (fatal_t.too_narrow scr.COLS ((tok.length : Int) + 1)))
          keys) := by
  have htl : 0 < tok.length := by omega
  constructor
  · intro htext
    apply ncurses_display_line_fatal cfg scr IS_STOP deck reload noreload slidenum keys line
      lc mc _ hreach
    unfold layout_line
    have hne : line.text ≠ [] := by
      rw [htext]; intro h
      have := congrArg List.length h
      simp only [List.length_append, List.length_nil] at this
      omega
    have hlen : line.text.length = tok.length + post.length := by
      rw [htext, List.length_append]
    simp only [hne, ne_eq, not_false_eq_true, if_true, hu, hl, Nat.cast_zero, Int.sub_zero]
    rw [if_pos (by omega), wrap_loop]
    dsimp only
    rw [if_pos (by omega)]
    have hpb : prev_blank line.text (0 + scr.COLS) = 0 := by
      rw [htext, Nat.zero_add]; exact prev_blank_start tok post htok _ hW
    have hnb : next_blank line.text (0 + scr.COLS) = tok.length := by
      have h := next_blank_token [] tok post scr.COLS (by omega) htok hpost
      simp only [List.nil_append, List.length_nil, Nat.zero_add] at h
      rw [htext, Nat.zero_add, h]
    rw [hpb, hnb]
    simp
  · intro pre b htext hb hW0 hpre
    apply ncurses_display_line_fatal cfg scr IS_STOP deck reload noreload slidenum keys line
      lc mc _ hreach
    unfold layout_line
    have hne : line.text ≠ [] := by rw [htext]; simp
    have hlen : line.text.length = pre.length + 1 + tok.length + post.length := by
      rw [htext]; simp only [List.length_append, List.length_cons]; omega
    simp only [hne, ne_eq, not_false_eq_true, if_true, hu, hl, Nat.cast_zero, Int.sub_zero]
    rw [if_pos (by omega)]
    rw [htext] at hpre
    have h := wrap_loop_reaches_token scr.COLS pre tok post b
      ((pre ++ b :: (tok ++ post)).length : Int) hW0 hW hb htok hpost hpre rfl
      ((pre ++ b :: (tok ++ post)).length + 1)
      { i := ((pre ++ b :: (tok ++ post)).length : Int), offset := 0,
        lc := lc + (scr.url_count_inline (pre ++ b :: (tok ++ post)) : Int), max_cols := mc }
      (Nat.zero_le _) (Or.inl rfl) (by simp)
      (by simp only [List.length_append, List.length_cons]; omega)
    rw [htext, h]

/-- Witness of C13: on 5 columns, the line `bbbbbb a` starts with a token of 6 characters and
6 columns are named; in the line `a bbbbbb` the token stands behind a blank and 7 columns
are named. -/
theorem ncurses_display_too_narrow_witness :
    ncurses_display
        { prev_slide_binding := [107], next_slide_binding := [106], first_slide_binding := [103],
          last_slide_binding := [71], reload_binding := [114], quit_binding := [113] }
        { COLS := 5, LINES := 24, url_count_inline := fun _ => 0, url_len_inline := fun _ => 0 }
        0 { slide := [{ line := [{ text := "bbbbbb a".toList, length := 8, bits := 0 }],
                        lines_consumed := 0, stop := 0 }], headers := 0 }
        0 0 0 [113] =
      outcome.returned 0 (some (fatal_t.too_narrow 5 6)) [113] :=
  (ncurses_display_too_narrow
    { prev_slide_binding := [107], next_slide_binding := [106], first_slide_binding := [103],
      last_slide_binding := [71], reload_binding := [114], quit_binding := [113] }
    { COLS := 5, LINES := 24, url_count_inline := fun _ => 0, url_len_inline := fun _ => 0 }
    0 { slide := [{ line := [{ text := "bbbbbb a".toList, length := 8, bits := 0 }],
                    lines_consumed := 0, stop := 0 }], headers := 0 }
    0 0 0 [113] { text := "bbbbbb a".toList, length := 8, bits := 0 } 0 0
    "bbbbbb".toList " a".toList
    ⟨[], [], { line := [{ text := "bbbbbb a".toList, length := 8, bits := 0 }],
               lines_consumed := 0, stop := 0 }, [], [], [],
      { max_lines := 0, max_lines_slide := -1, max_cols := 0, sc := 1 }, [],
      rfl, rfl, rfl, rfl⟩
    (by decide) (by decide) (by decide) rfl rfl).1 rfl

end Viewer

/-! ## The height check -/

namespace Viewer

theorem wrap_loop_lc_le (W : Nat) (text : List Char) (length : Int) :
    ∀ (fuel : Nat) (s s' : wrap_t),
      wrap_loop W text length fuel s = layout_result.ok s' → s.lc ≤ s'.lc := by
  intro fuel
  induction fuel with
  | zero => intro s s' h; simp [wrap_loop] at h
  | succ n ih =>
    intro s s' h
    rw [wrap_loop] at h
    by_cases h1 : s.i > W
    · rw [if_pos h1] at h
      by_cases h2 : (prev_blank text (s.offset + W) : Int) - s.offset = 0
      · rw [if_pos h2] at h; cases h
      · rw [if_neg h2] at h
        have := ih _ _ h
        dsimp only at this
        omega
    · rw [if_neg h1] at h
      cases h
      exact Int.le_refl _

theorem layout_line_lc_lt (scr : screen_t) (line line' : line_t) (lc mc lc' mc' : Int)
    (h : layout_line scr line lc mc = layout_result.ok (line', lc', mc')) : lc < lc' := by
  unfold layout_line at h
  dsimp only at h
  generalize hL : (if line.text ≠ [] then lc + (scr.url_count_inline line.text : Int) else lc) =
    lc0 at h
  generalize (if line.text ≠ [] then line.length - (scr.url_len_inline line.text : Int)
    else line.length) = len0 at h
  have hlc : lc ≤ lc0 := by
    rw [← hL]
    split
    · omega
    · exact Int.le_refl _
  by_cases h1 : len0 > scr.COLS
  · rw [if_pos h1] at h
    split at h
    · rename_i s hs
      have := wrap_loop_lc_le _ _ _ _ _ _ hs
      dsimp only at this
      cases h
      omega
    · cases h
    · cases h
  · rw [if_neg h1] at h
    cases h
    omega

theorem layout_lines_lc_le (scr : screen_t) :
    ∀ (ls : List line_t) (lc mc : Int) (ls' : List line_t) (lc' mc' : Int),
      layout_lines scr ls lc mc = layout_result.ok (ls', lc', mc') → lc ≤ lc' := by
  intro ls
  induction ls with
  | nil =>
    intro lc mc ls' lc' mc' h
    simp only [layout_lines, layout_result.ok.injEq, Prod.mk.injEq] at h
    omega
  | cons line rest ih =>
    intro lc mc ls' lc' mc' h
    rw [layout_lines] at h
    split at h
    · rename_i l1 lc1 mc1 h1
      have a := layout_line_lc_lt _ _ _ _ _ _ _ h1
      split at h
      · rename_i l2 lc2 mc2 h2
        have b := ih _ _ _ _ _ h2
        cases h
        omega
      · cases h
      · cases h
    · cases h
    · cases h

/-- What the loop over the slides leaves in `max_lines`, `max_lines_slide` and `sc`. -/
theorem layout_slides_spec (scr : screen_t) :
    ∀ (l : List slide_t) (s0 : layout_t) (l' : List slide_t) (s : layout_t),
      layout_slides scr l s0 = layout_result.ok (l', s) →
        l'.length = l.length ∧ s.sc = s0.sc + l.length ∧ s0.max_lines ≤ s.max_lines ∧
        (∀ x ∈ l', 0 ≤ x.lines_consumed ∧ x.lines_consumed ≤ s.max_lines) ∧
        ((s.max_lines = s0.max_lines ∧ s.max_lines_slide = s0.max_lines_slide ∧
            ∀ x ∈ l', x.lines_consumed < s.max_lines) ∨
          ∃ (k : Nat) (x : slide_t), l'[k]? = some x ∧ s.max_lines_slide = s0.sc + k ∧
            x.lines_consumed = s.max_lines ∧
            ∀ (j : Nat) (y : slide_t), k < j → l'[j]? = some y →
              y.lines_consumed < s.max_lines) := by
  intro l
  induction l with
  | nil =>
    intro s0 l' s h
    simp only [layout_slides, layout_result.ok.injEq, Prod.mk.injEq] at h
    obtain ⟨h1, h2⟩ := h
    subst h1 h2
    simp
  | cons slide rest ih =>
    intro s0 l' s h
    rw [layout_slides] at h
    split at h
    · rename_i lines lc mc h1
      have hlc := layout_lines_lc_le _ _ _ _ _ _ _ h1
      split at h
      · rename_i slides s1 h2
        obtain ⟨a1, a2, a3, a4, a5⟩ := ih _ _ _ h2
        dsimp only at a2 a3 a5
        simp only [layout_result.ok.injEq, Prod.mk.injEq] at h
        obtain ⟨e1, e2⟩ := h
        subst e1 e2
        refine ⟨by simp [a1], by rw [a2]; simp only [List.length_cons]; push_cast; omega,
          by omega, ?_, ?_⟩
        · intro x hx
          rcases List.mem_cons.1 hx with hx | hx
          · subst hx
            dsimp only
            omega
          · exact a4 x hx
        · rcases a5 with ⟨b1, b2, b3⟩ | ⟨k, x, b1, b2, b3, b4⟩
          · by_cases hm : lc = max lc s0.max_lines
            · right
              refine ⟨0, _, List.getElem?_cons_zero, ?_, ?_, ?_⟩
              · rw [b2, if_pos hm]; simp
              · dsimp only; omega
              · intro j y hj hy
                cases j with
                | zero => omega
                | succ j =>
                  rw [List.getElem?_cons_succ] at hy
                  exact b3 y (List.getElem?_mem hy)
            · left
              rw [if_neg hm] at b2
              refine ⟨by omega, b2, ?_⟩
              intro x hx
              rcases List.mem_cons.1 hx with hx | hx
              · subst hx
                dsimp only
                omega
              · exact b3 x hx
          · right
            refine ⟨k + 1, x, by rw [List.getElem?_cons_succ]; exact b1,
              by rw [b2]; push_cast; omega, b3, ?_⟩
            intro j y hj hy
            cases j with
            | zero => omega
            | succ j =>
              rw [List.getElem?_cons_succ] at hy
              exact b4 j y (by omega) hy
      · cases h
      · cases h
    · cases h
    · cases h

theorem get_slide_loop_keys :
    ∀ (keys : List Int) (retval : Int),
      (get_slide_loop keys retval).2.length ≤ keys.length := by
  intro keys
  induction keys with
  | nil => intro retval; simp [get_slide_loop]
  | cons c keys ih =>
    intro retval
    rw [get_slide_loop]
    split
    · simp
    · split
      · simp
      · exact Nat.le_succ_of_le (ih _)

theorem on_key_keys (cfg : config_h) (IS_STOP : Nat) (noreload : Int) (st : nav_t) (c : Int)
    (keys : List Int) :
    (∀ st' keys', on_key cfg IS_STOP noreload st c keys = nav_result.next st' keys' →
      keys'.length ≤ keys.length) ∧
    (∀ r keys', on_key cfg IS_STOP noreload st c keys = nav_result.ret r keys' →
      keys' = keys) := by
  have hg := get_slide_loop_keys keys (int32 (char_of_int c - 48))
  unfold on_key
  constructor
  · intro st' keys' h
    split at h
    any_goals (cases h; exact Nat.le_refl _)
    · split at h
      · split at h
        · cases h; exact hg
        · cases h
      · cases h; exact hg
    · split at h
      · cases h
      · cases h; exact Nat.le_refl _
    · cases h
  · intro r keys' h
    split at h
    any_goals (cases h)
    · split at h
      · split at h <;> cases h
      · cases h
    · split at h
      · cases h; rfl
      · cases h
    · rfl

/-- A return out of the loop `while(slide)` comes after a key is read: fewer values are left
than the loop was entered with. -/
theorem display_loop_keys (cfg : config_h) (IS_STOP : Nat) (noreload : Int) :
    ∀ (fuel : Nat) (st : nav_t) (keys : List Int) (r : Int) (e : Option fatal_t)
      (keys' : List Int),
      display_loop cfg IS_STOP noreload fuel st keys = outcome.returned r e keys' →
        keys'.length < keys.length := by
  intro fuel
  induction fuel with
  | zero => intro st keys r e keys' h; simp [display_loop] at h
  | succ n ih =>
    intro st keys r e keys' h
    cases keys with
    | nil => simp [display_loop] at h
    | cons c keys =>
      rw [display_loop] at h
      have hk := on_key_keys cfg IS_STOP noreload st c keys
      split at h
      · rename_i st1 keys1 h1
        have := hk.1 _ _ h1
        have := ih _ _ _ _ _ h
        simp only [List.length_cons]
        omega
      · rename_i r1 keys1 h1
        have := hk.2 _ _ h1
        cases h
        subst this
        simp
      · cases h

theorem seek_loop_small (slides : Int) (reload : Nat) (st : nav_t) (h : reload ≤ 1) :
    seek_loop slides reload st = some st := by
  cases reload with
  | zero => rfl
  | succ n =>
    rw [seek_loop, if_neg (by omega)]

theorem seek_loop_big (slides : Int) (reload : Nat) (st : nav_t) (h : slides < (reload : Int)) :
    seek_loop slides reload st = some st := by
  cases reload with
  | zero => rfl
  | succ n =>
    rw [seek_loop, if_neg (by omega)]

theorem seek_loop_walk (slides : Int) :
    ∀ (mid : List slide_t) (x : slide_t) (post : List slide_t) (st : nav_t),
      st.after = mid ++ x :: post → ((mid.length + 2 : Nat) : Int) ≤ slides →
      seek_loop slides (mid.length + 2) st =
        some { before := mid.reverse ++ st.slide :: st.before, slide := x, after := post,
               sc := st.sc + mid.length + 1 } := by
  intro mid
  induction mid with
  | nil =>
    intro x post st ha hs
    rw [List.length_nil, seek_loop, if_pos ⟨by omega, by simpa using hs⟩]
    simp only [ha, List.nil_append]
    rw [seek_loop_small _ _ _ (by omega)]
    simp
  | cons m mid ih =>
    intro x post st ha hs
    rw [List.length_cons, seek_loop,
      if_pos ⟨by omega, by simp only [List.length_cons] at hs; exact hs⟩]
    simp only [ha, List.cons_append]
    rw [ih x post _ rfl (by simp only [List.length_cons] at hs; push_cast at hs ⊢; omega)]
    simp only [List.reverse_cons, List.append_assoc, List.singleton_append, Option.some.injEq,
      nav_t.mk.injEq, true_and, and_true]
    push_cast
    omega

/-- Lines 171-182 in closed form: for `1 ≤ reload ≤ deck->slides` the loop `while(slide)` is
entered at the slide with the 1-based position `reload`, with `sc` equal to it; for any
other `reload` it is entered at the first slide with `sc` equal to 1. -/
theorem seek_spec (first : slide_t) (rest : List slide_t) (r : Int) :
    ∃ st, seek first rest r = some st ∧ st.chain = first :: rest ∧
      st.sc = (st.before.length : Int) + 1 ∧
      (1 ≤ r → r ≤ (rest.length : Int) + 1 → st.sc = r) ∧
      (r ≤ 0 ∨ (rest.length : Int) + 1 < r →
        st = { before := [], slide := first, after := rest, sc := 1 }) := by
  unfold seek
  by_cases h1 : r ≤ 1
  · refine ⟨_, seek_loop_small _ _ _ (by omega), rfl, rfl, ?_, fun _ => rfl⟩
    intro a b
    dsimp only
    omega
  · by_cases h2 : (rest.length : Int) + 1 < r
    · refine ⟨_, seek_loop_big _ _ _ (by omega), rfl, rfl, ?_, fun _ => rfl⟩
      intro a b
      omega
    · have hk : r.toNat - 2 < rest.length := by omega
      have hd : rest = rest.take (r.toNat - 2) ++ rest[r.toNat - 2] ::
          rest.drop (r.toNat - 2 + 1) := by
        rw [← List.drop_eq_getElem_cons hk, List.take_append_drop]
      have hlen : (rest.take (r.toNat - 2)).length = r.toNat - 2 := by
        rw [List.length_take]; omega
      have hr : r.toNat = (rest.take (r.toNat - 2)).length + 2 := by omega
      have hw := seek_loop_walk ((rest.length : Int) + 1) (rest.take (r.toNat - 2))
        rest[r.toNat - 2] (rest.drop (r.toNat - 2 + 1))
        { before := [], slide := first, after := rest, sc := 1 } hd (by rw [← hr]; omega)
      rw [← hr] at hw
      refine ⟨_, hw, ?_, ?_, ?_, ?_⟩
      · simp only [nav_t.chain, List.reverse_append, List.reverse_cons, List.reverse_nil,
          List.nil_append, List.reverse_reverse, List.append_assoc, List.singleton_append]
        rw [List.cons_append, ← hd]
      · simp only [List.length_append, List.length_reverse, List.length_cons, List.length_nil]
        push_cast
        omega
      · intro _ _
        dsimp only
        rw [hlen]
        omega
      · intro h
        omega

/-- C14: for a deck with at least one slide whose lines all wrap without error, `max_lines`
is the largest `lines_consumed` that the layout pass has stored in a slide, and
`max_lines_slide` is the 1-based position of the last slide that has it. `ncurses_display`
returns 0 with no key read if and only if this largest value plus the top and bottom bars
exceeds `LINES`, and the diagnostic then names these numbers; otherwise it goes on to the
loop that reads keys. -/
theorem ncurses_display_too_short (cfg : config_h) (scr : screen_t) (IS_STOP : Nat)
    (deck : deck_t) (reload noreload slidenum : Int) (keys : List Int)
    (slides : List slide_t) (s : layout_t) (hne : deck.slide ≠ [])
    (hl : layout_slides scr deck.slide
      { max_lines := 0, max_lines_slide := -1, max_cols := 0, sc := 1 } =
        layout_result.ok (slides, s)) :
    (∀ x ∈ slides, x.lines_consumed ≤ s.max_lines) ∧
    (∃ (k : Nat) (x : slide_t), slides[k]? = some x ∧ x.lines_consumed = s.max_lines ∧
      s.max_lines_slide = (k : Int) + 1 ∧
      ∀ (j : Nat) (y : slide_t), k < j → slides[j]? = some y →
        y.lines_consumed < s.max_lines) ∧
    ((∃ e, ncurses_display cfg scr IS_STOP deck reload noreload slidenum keys =
        outcome.returned 0 e keys) ↔
      s.max_lines + (if deck.headers > 0 then 1 else 0) +
        (if slidenum ≠ 0 ∨ deck.headers > 1 then 1 else 0) > scr.LINES) ∧
    (s.max_lines + (if deck.headers > 0 then 1 else 0) +
        (if slidenum ≠ 0 ∨ deck.headers > 1 then 1 else 0) > scr.LINES →
      ncurses_display cfg scr IS_STOP deck reload noreload slidenum keys =
        outcome.returned 0
          (some (fatal_t.too_short scr.LINES
            (s.max_lines + (if deck.headers > 0 then 1 else 0) +
              (if slidenum ≠ 0 ∨ deck.headers > 1 then 1 else 0)) s.max_lines_slide))
          keys) := by
  obtain ⟨a1, _, _, a4, a5⟩ := layout_slides_spec scr _ _ _ _ hl
  dsimp only at a5
  have hlen : 0 < slides.length := by
    rw [a1]; exact List.length_pos.2 hne
  have hbad : ¬ (∀ x ∈ slides, x.lines_consumed < s.max_lines ∧ s.max_lines = 0) := by
    intro h
    obtain ⟨x, rest, hx⟩ := List.exists_cons_of_length_pos hlen
    have h1 := h x (by rw [hx]; exact List.mem_cons_self _ _)
    have h2 := a4 x (by rw [hx]; exact List.mem_cons_self _ _)
    omega
  have hfatal : s.max_lines + (if deck.headers > 0 then 1 else 0) +
        (if slidenum ≠ 0 ∨ deck.headers > 1 then 1 else 0) > scr.LINES →
      ncurses_display cfg scr IS_STOP deck reload noreload slidenum keys =
        outcome.returned 0
          (some (fatal_t.too_short scr.LINES
            (s.max_lines + (if deck.headers > 0 then 1 else 0) +
              (if slidenum ≠ 0 ∨ deck.headers > 1 then 1 else 0)) s.max_lines_slide))
          keys := by
    intro h
    unfold ncurses_display
    simp only [hl]
    rw [if_pos h]
  refine ⟨fun x hx => (a4 x hx).2, ?_, ?_, hfatal⟩
  · rcases a5 with ⟨b1, _, b3⟩ | ⟨k, x, b1, b2, b3, b4⟩
    · exact absurd (fun x hx => ⟨b3 x hx, b1⟩) hbad
    · exact ⟨k, x, b1, b3, by rw [b2]; omega, b4⟩
  · constructor
    · rintro ⟨e, he⟩
      by_contra hn
      unfold ncurses_display at he
      simp only [hl] at he
      rw [if_neg hn] at he
      obtain ⟨first, rest, hx⟩ := List.exists_cons_of_length_pos hlen
      subst hx
      obtain ⟨st, hst, _⟩ := seek_spec first rest reload
      simp only [hst] at he
      have := display_loop_keys _ _ _ _ _ _ _ _ _ he
      omega
    · intro h
      exact ⟨_, hfatal h⟩

/-- Witness of C14: a deck of two slides with 1 and 3 lines on a terminal of 2 lines: the
diagnostic asks for 3 lines for slide 2, and the key `q` is not read. -/
theorem ncurses_display_too_short_witness :
    ncurses_display
        { prev_slide_binding := [107], next_slide_binding := [106], first_slide_binding := [103],
          last_slide_binding := [71], reload_binding := [114], quit_binding := [113] }
        { COLS := 80, LINES := 2, url_count_inline := fun _ => 0, url_len_inline := fun _ => 0 }
        0 { slide := [{ line := [{ text := "a".toList, length := 1, bits := 0 }],
                        lines_consumed := 0, stop := 0 },
                      { line := [{ text := "b".toList, length := 1, bits := 0 },
                                 { text := "c".toList, length := 1, bits := 0 },
                                 { text := "d".toList, length := 1, bits := 0 }],
                        lines_consumed := 0, stop := 0 }], headers := 0 }
        0 0 0 [113] =
      outcome.returned 0 (some (fatal_t.too_short 2 3 2)) [113] :=
  (ncurses_display_too_short
    { prev_slide_binding := [107], next_slide_binding := [106], first_slide_binding := [103],
      last_slide_binding := [71], reload_binding := [114], quit_binding := [113] }
    { COLS := 80, LINES := 2, url_count_inline := fun _ => 0, url_len_inline := fun _ => 0 }
    0 { slide := [{ line := [{ text := "a".toList, length := 1, bits := 0 }],
                    lines_consumed := 0, stop := 0 },
                  { line := [{ text := "b".toList, length := 1, bits := 0 },
                             { text := "c".toList, length := 1, bits := 0 },
                             { text := "d".toList, length := 1, bits := 0 }],
                    lines_consumed := 0, stop := 0 }], headers := 0 }
    0 0 0 [113]
    [{ line := [{ text := "a".toList, length := 1, bits := 0 }],
       lines_consumed := 1, stop := 0 },
     { line := [{ text := "b".toList, length := 1, bits := 0 },
                { text := "c".toList, length := 1, bits := 0 },
                { text := "d".toList, length := 1, bits := 0 }],
       lines_consumed := 3, stop := 0 }]
    { max_lines := 3, max_lines_slide := 2, max_cols := 1, sc := 3 }
    (by decide) (by decide)).2.2.2 (by decide)

end Viewer

/-! ## Navigation: the slide counter -/

namespace Viewer

theorem step_next_inv (st : nav_t) (h : st.sc = (st.before.length : Int) + 1) :
    (step_next st).sc = ((step_next st).before.length : Int) + 1 ∧
      (step_next st).before.length + (step_next st).after.length =
        st.before.length + st.after.length := by
  unfold step_next
  cases ha : st.after with
  | nil => exact ⟨h, by rw [ha]⟩
  | cons x xs =>
    simp only [List.length_cons]
    constructor
    · push_cast; omega
    · omega

theorem step_prev_inv (st : nav_t) (h : st.sc = (st.before.length : Int) + 1) :
    (step_prev st).sc = ((step_prev st).before.length : Int) + 1 ∧
      (step_prev st).before.length + (step_prev st).after.length =
        st.before.length + st.after.length := by
  unfold step_prev
  cases hb : st.before with
  | nil => exact ⟨h, by rw [hb]⟩
  | cons x xs =>
    rw [hb] at h
    simp only [List.length_cons] at h ⊢
    constructor
    · push_cast at h; omega
    · omega

theorem key_prev_inv (IS_STOP : Nat) (st : nav_t) (h : st.sc = (st.before.length : Int) + 1) :
    (key_prev IS_STOP st).sc = ((key_prev IS_STOP st).before.length : Int) + 1 ∧
      (key_prev IS_STOP st).before.length + (key_prev IS_STOP st).after.length =
        st.before.length + st.after.length := by
  unfold key_prev
  split
  · exact ⟨h, rfl⟩
  · cases hb : st.before with
    | nil => exact ⟨h, by rw [hb]⟩
    | cons x xs =>
      rw [hb] at h
      simp only [List.length_cons] at h ⊢
      constructor
      · push_cast at h; omega
      · omega

theorem key_next_inv (IS_STOP : Nat) (st : nav_t) (h : st.sc = (st.before.length : Int) + 1) :
    (key_next IS_STOP st).sc = ((key_next IS_STOP st).before.length : Int) + 1 ∧
      (key_next IS_STOP st).before.length + (key_next IS_STOP st).after.length =
        st.before.length + st.after.length := by
  unfold key_next
  split
  · exact ⟨h, rfl⟩
  · exact step_next_inv st h

theorem goto_walk_inv (i : Int) :
    ∀ (fuel : Nat) (st st' : nav_t), goto_walk i fuel st = some st' →
      st.sc = (st.before.length : Int) + 1 →
      st'.sc = (st'.before.length : Int) + 1 ∧
        st'.before.length + st'.after.length = st.before.length + st.after.length := by
  intro fuel
  induction fuel with
  | zero => intro st st' h; simp [goto_walk] at h
  | succ n ih =>
    intro st st' h hi
    rw [goto_walk] at h
    split at h
    · split at h
      · have a := step_next_inv st hi
        have b := ih _ _ h a.1
        exact ⟨b.1, by omega⟩
      · have a := step_prev_inv st hi
        have b := ih _ _ h a.1
        exact ⟨b.1, by omega⟩
    · cases h
      exact ⟨hi, rfl⟩

theorem key_first_inv (st : nav_t) :
    (key_first st).sc = ((key_first st).before.length : Int) + 1 ∧
      (key_first st).before.length + (key_first st).after.length =
        st.before.length + st.after.length := by
  unfold key_first
  cases hc : st.chain with
  | nil =>
    have := congrArg List.length hc
    simp [nav_t.chain] at this
  | cons x xs =>
    have := congrArg List.length hc
    simp only [nav_t.chain, List.length_append, List.length_reverse, List.length_cons] at this
    simp only [List.length_nil]
    constructor
    · rfl
    · omega

theorem last_loop_inv :
    ∀ (k : Nat) (st : nav_t), st.sc = (st.before.length : Int) + 1 →
      (last_loop k st).sc = ((last_loop k st).before.length : Int) + 1 ∧
        (last_loop k st).before.length + (last_loop k st).after.length =
          st.before.length + st.after.length := by
  intro k
  induction k with
  | zero => intro st h; exact ⟨h, rfl⟩
  | succ n ih =>
    intro st h
    rw [last_loop]
    have a := step_next_inv st h
    have b := ih _ a.1
    exact ⟨b.1, by omega⟩

theorem on_key_inv (cfg : config_h) (IS_STOP : Nat) (noreload : Int) (st st' : nav_t) (c : Int)
    (keys keys' : List Int)
    (h : on_key cfg IS_STOP noreload st c keys = nav_result.next st' keys')
    (hi : st.sc = (st.before.length : Int) + 1) :
    st'.sc = (st'.before.length : Int) + 1 ∧
      st'.before.length + st'.after.length = st.before.length + st.after.length := by
  unfold on_key at h
  split at h
  · cases h; exact key_prev_inv IS_STOP st hi
  · cases h; exact key_next_inv IS_STOP st hi
  · split at h
    · split at h
      · rename_i st1 h1
        cases h
        exact goto_walk_inv _ _ _ _ h1 hi
      · cases h
    · cases h; exact ⟨hi, rfl⟩
  · cases h; exact key_first_inv st
  · cases h; exact last_loop_inv _ st hi
  · split at h
    · cases h
    · cases h; exact ⟨hi, rfl⟩
  · cases h
  · cases h; exact ⟨hi, rfl⟩

/-- In every state that can be reached, `sc` is the 1-based position of the current slide in
the chain, and the chain has as many slides as at the start. -/
theorem reachable_inv (cfg : config_h) (IS_STOP : Nat) (noreload : Int) (first : slide_t)
    (rest : List slide_t) (reload : Int) (st : nav_t)
    (h : reachable cfg IS_STOP noreload first rest reload st) :
    st.sc = (st.before.length : Int) + 1 ∧
      st.before.length + st.after.length = rest.length := by
  induction h with
  | start st hs =>
    obtain ⟨st0, h0, h1, h2, _⟩ := seek_spec first rest reload
    rw [hs] at h0
    cases h0
    refine ⟨h2, ?_⟩
    have := congrArg List.length h1
    simp only [nav_t.chain, List.length_append, List.length_reverse, List.length_cons] at this
    omega
  | step st st' c keys keys' _ hk ih =>
    have := on_key_inv cfg IS_STOP noreload st st' c keys keys' hk ih.1
    exact ⟨this.1, by omega⟩

/-- C16: for a deck of `n` slides that passes the layout pass, `ncurses_display` called with
`reload = r` enters the key loop, and waits for the first key, in a state over the same chain
of slides: for `1 ≤ r ≤ n` the current slide is the `r`-th one (`r - 1` slides in front of
it) and the slide counter is `r`; for `r ≤ 0` or `r > n` it is the first slide with the
counter 1. So for the counter `sc` of any reachable state of a deck of the same size, which
is what the reload key returns, the call with `reload = sc` starts at the same position. -/
theorem ncurses_display_resumes (cfg : config_h) (scr : screen_t) (IS_STOP : Nat)
    (deck : deck_t) (reload noreload slidenum : Int) (first : slide_t) (rest : List slide_t)
    (s : layout_t)
    (hl : layout_slides scr deck.slide
      { max_lines := 0, max_lines_slide := -1, max_cols := 0, sc := 1 } =
        layout_result.ok (first :: rest, s))
    (hh : ¬ s.max_lines + (if deck.headers > 0 then 1 else 0) +
        (if slidenum ≠ 0 ∨ deck.headers > 1 then 1 else 0) > scr.LINES) :
    ∃ st, ncurses_display cfg scr IS_STOP deck reload noreload slidenum [] =
        outcome.waiting st ∧
      (∀ keys, ncurses_display cfg scr IS_STOP deck reload noreload slidenum keys =
        display_loop cfg IS_STOP noreload (keys.length + 1) st keys) ∧
      st.chain = first :: rest ∧ st.chain[st.before.length]? = some st.slide ∧
      (1 ≤ reload → reload ≤ deck.slides →
        (st.before.length : Int) + 1 = reload ∧ st.sc = reload) ∧
      (reload ≤ 0 ∨ deck.slides < reload → st.before = [] ∧ st.slide = first ∧ st.sc = 1) ∧
      (∀ (cfg0 : config_h) (stop0 : Nat) (noreload0 : Int) (first0 : slide_t)
        (rest0 : List slide_t) (reload0 : Int) (st0 : nav_t),
        reachable cfg0 stop0 noreload0 first0 rest0 reload0 st0 →
        rest0.length = rest.length → reload = st0.sc →
        st.before.length = st0.before.length ∧ st.sc = st0.sc) := by
  obtain ⟨a1, _⟩ := layout_slides_spec scr _ _ _ _ hl
  have hn : deck.slides = (rest.length : Int) + 1 := by
    unfold deck_t.slides
    rw [← a1]
    simp
  obtain ⟨st, h0, h1, h2, h3, h4⟩ := seek_spec first rest reload
  have hnd : ∀ keys, ncurses_display cfg scr IS_STOP deck reload noreload slidenum keys =
      display_loop cfg IS_STOP noreload (keys.length + 1) st keys := by
    intro keys
    unfold ncurses_display
    simp only [hl]
    rw [if_neg hh]
    simp only [h0]
  refine ⟨st, by rw [hnd]; rfl, hnd, h1, ?_, ?_, ?_, ?_⟩
  · unfold nav_t.chain
    rw [List.getElem?_append_right (by simp)]
    simp
  · intro ha hb
    have := h3 ha (by omega)
    exact ⟨by omega, this⟩
  · intro ha
    have := h4 (by omega)
    subst this
    exact ⟨rfl, rfl, rfl⟩
  · intro cfg0 stop0 noreload0 first0 rest0 reload0 st0 hr hlen he
    have hi := reachable_inv _ _ _ _ _ _ _ hr
    have := h3 (by omega) (by omega)
    exact ⟨by omega, by omega⟩

/-- Witness of C16: a deck of three slides called with `reload = 2` waits for the first key
on the second slide, with the slide counter 2. -/
theorem ncurses_display_resumes_witness :
    ∃ st, ncurses_display bindings_kjgGrq screen_80x24 0 (plain_deck ["a", "b", "c"]) 2 0 0 [] =
        outcome.waiting st ∧
      st.slide = plain_slide "b" ∧ st.sc = 2 ∧ st.before = [plain_slide "a"] ∧
      st.after = [plain_slide "c"] := by
  obtain ⟨st, h, _, _, _, _, _, _⟩ := ncurses_display_resumes bindings_kjgGrq screen_80x24 0
    (plain_deck ["a", "b", "c"]) 2 0 0 (plain_slide "a") [plain_slide "b", plain_slide "c"]
    { max_lines := 1, max_lines_slide := 3, max_cols := 1, sc := 4 } (by decide) (by decide)
  refine ⟨st, h, ?_⟩
  have e : ncurses_display bindings_kjgGrq screen_80x24 0 (plain_deck ["a", "b", "c"]) 2 0 0 [] =
      outcome.waiting { before := [plain_slide "a"], slide := plain_slide "b",
                        after := [plain_slide "c"], sc := 2 } := by decide
  rw [e] at h
  cases h
  exact ⟨rfl, rfl, rfl, rfl⟩

/-! ## Navigation: reload and quit -/

/-- C15: in every state that the key loop of `ncurses_display` can reach on a deck of `n`
slides, whatever keys were read, the current slide has a 1-based position `k` with
`1 ≤ k ≤ n` (it stands at index `k - 1` of the chain); a key of the reload binding, with
reload enabled (`noreload == 0`), ends the loop with the return value `k`, and a key of the
quit binding ends it with the return value 0. -/
theorem ncurses_display_reload_quit (cfg : config_h) (IS_STOP : Nat) (noreload : Int)
    (first : slide_t) (rest : List slide_t) (reload : Int) (st : nav_t) (c : Int)
    (keys : List Int) (fuel : Nat)
    (hr : reachable cfg IS_STOP noreload first rest reload st) :
    (1 ≤ st.before.length + 1 ∧ st.before.length + 1 ≤ rest.length + 1 ∧
      st.chain.length = rest.length + 1 ∧ st.chain[st.before.length + 1 - 1]? = some st.slide) ∧
    (key_branch cfg c = branch_t.reload → noreload = 0 →
      display_loop cfg IS_STOP noreload (fuel + 1) st (c :: keys) =
        outcome.returned ((st.before.length + 1 : Nat) : Int) none keys) ∧
    (key_branch cfg c = branch_t.quit →
      display_loop cfg IS_STOP noreload (fuel + 1) st (c :: keys) =
        outcome.returned 0 none keys) := by
  have hi := reachable_inv _ _ _ _ _ _ _ hr
  refine ⟨⟨by omega, by omega, ?_, ?_⟩, ?_, ?_⟩
  · simp only [nav_t.chain, List.length_append, List.length_reverse, List.length_cons]
    omega
  · unfold nav_t.chain
    rw [Nat.add_sub_cancel, List.getElem?_append_right (by simp)]
    simp
  · intro hb hn
    rw [display_loop]
    simp only [on_key, hb, hn, if_true]
    rw [hi.1]
    push_cast
    rfl
  · intro hb
    rw [display_loop]
    simp only [on_key, hb]

/-- Witness of C15: on a deck of 10 slides, the state on slide 5 is reached, and there the
key `r` makes the loop return 5 and the key `q` makes it return 0; the whole call, started on
slide 1 and fed the keys `j j j j r`, returns 5. -/
theorem ncurses_display_reload_quit_witness :
    display_loop bindings_kjgGrq 0 0 1
        { before := ["4", "3", "2", "1"].map plain_slide, slide := plain_slide "5",
          after := ["6", "7", "8", "9", "10"].map plain_slide, sc := 5 } [114] =
        outcome.returned 5 none [] ∧
      display_loop bindings_kjgGrq 0 0 1
        { before := ["4", "3", "2", "1"].map plain_slide, slide := plain_slide "5",
          after := ["6", "7", "8", "9", "10"].map plain_slide, sc := 5 } [113] =
        outcome.returned 0 none [] ∧
      ncurses_display bindings_kjgGrq screen_80x24 0
        (plain_deck ["1", "2", "3", "4", "5", "6", "7", "8", "9", "10"]) 0 0 0
        [106, 106, 106, 106, 114] = outcome.returned 5 none [] :=
  ⟨(ncurses_display_reload_quit bindings_kjgGrq 0 0 (plain_slide "1")
      (["2", "3", "4", "5", "6", "7", "8", "9", "10"].map plain_slide) 5
      { before := ["4", "3", "2", "1"].map plain_slide, slide := plain_slide "5",
        after := ["6", "7", "8", "9", "10"].map plain_slide, sc := 5 } 114 [] 0
      (reachable.start _ (by decide))).2.1 (by decide) rfl,
   (ncurses_display_reload_quit bindings_kjgGrq 0 0 (plain_slide "1")
      (["2", "3", "4", "5", "6", "7", "8", "9", "10"].map plain_slide) 5
      { before := ["4", "3", "2", "1"].map plain_slide, slide := plain_slide "5",
        after := ["6", "7", "8", "9", "10"].map plain_slide, sc := 5 } 113 [] 0
      (reachable.start _ (by decide))).2.2 (by decide),
   by decide⟩

end Viewer

/-! ## Navigation: the digit keys -/

namespace Viewer

theorem step_next_chain (st : nav_t) : (step_next st).chain = st.chain := by
  unfold step_next
  cases ha : st.after with
  | nil => simp only [nav_t.chain, ha]
  | cons x xs => simp [nav_t.chain, ha]

theorem step_prev_chain (st : nav_t) : (step_prev st).chain = st.chain := by
  unfold step_prev
  cases hb : st.before with
  | nil => simp only [nav_t.chain, hb]
  | cons x xs => simp [nav_t.chain, hb]

/-- The loop `while(sc != i)` ends, for a target `i` between 1 and the number of slides, with
the slide at position `i` current and `sc` equal to `i`; the chain of slides is as before. -/
theorem goto_walk_spec (i : Int) :
    ∀ (fuel : Nat) (st : nav_t), st.sc = (st.before.length : Int) + 1 →
      1 ≤ i → i ≤ st.slides → (i - st.sc).natAbs < fuel →
      ∃ st', goto_walk i fuel st = some st' ∧ st'.chain = st.chain ∧ st'.sc = i ∧
        st'.sc = (st'.before.length : Int) + 1 := by
  intro fuel
  induction fuel with
  | zero => intro st _ _ _ h; omega
  | succ n ih =>
    intro st hi h1 h2 hf
    unfold nav_t.slides at h2
    rw [goto_walk]
    by_cases he : st.sc = i
    · rw [if_neg (by simpa using he)]
      exact ⟨st, rfl, rfl, he, hi⟩
    · rw [if_pos he]
      by_cases hlt : st.sc < i
      · rw [if_pos hlt]
        have hinv := step_next_inv st hi
        have hsc : (step_next st).sc = st.sc + 1 := by
          unfold step_next
          cases ha : st.after with
          | nil => rw [ha] at h2; simp only [List.length_nil] at h2; omega
          | cons x xs => rfl
        obtain ⟨st', a, b, c, d⟩ := ih (step_next st) hinv.1 h1
          (by unfold nav_t.slides; omega) (by omega)
        exact ⟨st', a, by rw [b, step_next_chain], c, d⟩
      · rw [if_neg hlt]
        have hinv := step_prev_inv st hi
        have hsc : (step_prev st).sc = st.sc - 1 := by
          unfold step_prev
          cases hb : st.before with
          | nil => rw [hb] at hi; simp only [List.length_nil] at hi; omega
          | cons x xs => rfl
        obtain ⟨st', a, b, c, d⟩ := ih (step_prev st) hinv.1 h1
          (by unfold nav_t.slides; omega) (by omega)
        exact ⟨st', a, by rw [b, step_prev_chain], c, d⟩

theorem decimal_loop_ge :
    ∀ (ds : List Int) (v : Int), (∀ d ∈ ds, 48 ≤ d ∧ d ≤ 57) → 0 ≤ v →
      v ≤ ds.foldl (fun v d => v * 10 + (d - 48)) v := by
  intro ds
  induction ds with
  | nil => intro v _ _; exact Int.le_refl _
  | cons d ds ih =>
    intro v hd hv
    have h1 := hd d (List.mem_cons_self _ _)
    have := ih (v * 10 + (d - 48)) (fun x hx => hd x (List.mem_cons_of_mem _ hx)) (by omega)
    simp only [List.foldl_cons]
    omega

theorem int32_eq (x : Int) (h0 : 0 ≤ x) (h1 : x < 2147483648) : int32 x = x := by
  unfold int32
  omega

/-- While the value stays below `2^31`, `get_slide_number` returns the decimal value of the
digits that arrive before the timeout. -/
theorem get_slide_loop_digits :
    ∀ (ds : List Int) (v : Int) (rest : List Int), (∀ d ∈ ds, 48 ≤ d ∧ d ≤ 57) → 0 ≤ v →
      ds.foldl (fun v d => v * 10 + (d - 48)) v < 2147483648 →
      get_slide_loop (ds ++ ERR :: rest) v =
        (ds.foldl (fun v d => v * 10 + (d - 48)) v, rest) := by
  intro ds
  induction ds with
  | nil =>
    intro v rest _ _ _
    simp [get_slide_loop]
  | cons d ds ih =>
    intro v rest hd hv hlt
    have h1 := hd d (List.mem_cons_self _ _)
    have hd' : ∀ x ∈ ds, 48 ≤ x ∧ x ≤ 57 := fun x hx => hd x (List.mem_cons_of_mem _ hx)
    simp only [List.foldl_cons] at hlt ⊢
    have hge := decimal_loop_ge ds (v * 10 + (d - 48)) hd' (by omega)
    rw [List.cons_append, get_slide_loop, if_neg (by unfold ERR; omega), if_neg (by omega),
      int32_eq _ (by omega) (by omega)]
    exact ih _ rest hd' (by omega) hlt

theorem char_of_int_digit (c : Int) (h0 : 0 ≤ c) (h1 : c ≤ 127) : char_of_int c = c := by
  unfold char_of_int
  omega

/-- The digit branch for a value that does not overflow: a value between 1 and the number of
slides makes the slide at that position current, a larger value leaves the state as it is. -/
theorem on_key_digits (cfg : config_h) (IS_STOP : Nat) (noreload : Int) (st : nav_t) (c : Int)
    (ds rest : List Int) (hb : key_branch cfg c = branch_t.digit) (hc : 49 ≤ c ∧ c ≤ 57)
    (hd : ∀ d ∈ ds, 48 ≤ d ∧ d ≤ 57) (hv : decimal_value c ds < 2147483648)
    (hi : st.sc = (st.before.length : Int) + 1) :
    1 ≤ decimal_value c ds ∧
    (decimal_value c ds ≤ st.slides →
      ∃ st', on_key cfg IS_STOP noreload st c (ds ++ ERR :: rest) = nav_result.next st' rest ∧
        st'.chain = st.chain ∧ st'.sc = decimal_value c ds ∧
        (st'.before.length : Int) + 1 = decimal_value c ds) ∧
    (st.slides < decimal_value c ds →
      on_key cfg IS_STOP noreload st c (ds ++ ERR :: rest) = nav_result.next st rest) := by
  have hge := decimal_loop_ge ds (c - 48) hd (by omega)
  have hg : get_slide_number (char_of_int c) (ds ++ ERR :: rest) = (decimal_value c ds, rest) := by
    unfold get_slide_number
    rw [char_of_int_digit c (by omega) (by omega), int32_eq _ (by omega) (by omega)]
    exact get_slide_loop_digits ds (c - 48) rest hd (by omega) hv
  unfold decimal_value at *
  refine ⟨by omega, ?_, ?_⟩
  · intro hle
    have hs : 0 ≤ st.slides := by unfold nav_t.slides; omega
    obtain ⟨st', a, b, c1, d⟩ := goto_walk_spec _ (st.slides.toNat + 1) st hi
      (by omega : 1 ≤ ds.foldl (fun v d => v * 10 + (d - 48)) (c - 48)) hle
      (by unfold nav_t.slides at hle hs ⊢; omega)
    refine ⟨st', ?_, b, c1, by omega⟩
    unfold on_key
    simp only [hb, hg]
    rw [if_pos ⟨by omega, hle⟩]
    simp only [a]
  · intro hgt
    unfold on_key
    simp only [hb, hg]
    rw [if_neg (by omega)]

/-- C17: on a deck of 3 slides, shown at slide 1, the digit keys `4294967299` typed within
the timeout have a decimal value above the number of slides, yet `get_slide_number` returns
3 (the value wraps in its `int`) and the loop jumps to slide 3: the key `r` pressed next
returns 3, where after the ignored sequence `99` it returns 1 (and on 20 slides it returns
12 after `12`). For every state, digit key
and sequence of digits whose value stays below `2^31` the sequence does what the claim
says: a value between 1 and the number of slides makes that slide current with the slide
counter equal to it, over the same chain of slides, and a larger value changes nothing. -/
theorem get_slide_number_wraps :
    decimal_value 52 [50, 57, 52, 57, 54, 55, 50, 57, 57] = 4294967299 ∧
      get_slide_number 52 [50, 57, 52, 57, 54, 55, 50, 57, 57, ERR] = (3, []) ∧
      on_key bindings_kjgGrq 0 0
        { before := [], slide := plain_slide "a", after := [plain_slide "b", plain_slide "c"],
          sc := 1 } 52 [50, 57, 52, 57, 54, 55, 50, 57, 57, ERR] =
        nav_result.next
          { before := [plain_slide "b", plain_slide "a"], slide := plain_slide "c", after := [],
            sc := 3 } [] ∧
      ncurses_display bindings_kjgGrq screen_80x24 0 (plain_deck ["a", "b", "c"]) 0 0 0
        [52, 50, 57, 52, 57, 54, 55, 50, 57, 57, ERR, 114] = outcome.returned 3 none [] ∧
      ncurses_display bindings_kjgGrq screen_80x24 0 (plain_deck ["a", "b", "c"]) 0 0 0
        [57, 57, ERR, 114] = outcome.returned 1 none [] ∧
      ncurses_display bindings_kjgGrq screen_80x24 0
        (plain_deck ["1", "2", "3", "4", "5", "6", "7", "8", "9", "10", "11", "12", "13", "14",
          "15", "16", "17", "18", "19", "20"]) 0 0 0
        [49, 50, ERR, 114] = outcome.returned 12 none [] ∧
      (∀ (cfg : config_h) (IS_STOP : Nat) (noreload : Int) (st : nav_t) (c : Int)
        (ds rest : List Int), key_branch cfg c = branch_t.digit → 49 ≤ c ∧ c ≤ 57 →
        (∀ d ∈ ds, 48 ≤ d ∧ d ≤ 57) → decimal_value c ds < 2147483648 →
        st.sc = (st.before.length : Int) + 1 →
        1 ≤ decimal_value c ds ∧
        (decimal_value c ds ≤ st.slides →
          ∃ st', on_key cfg IS_STOP noreload st c (ds ++ ERR :: rest) =
              nav_result.next st' rest ∧
            st'.chain = st.chain ∧ st'.sc = decimal_value c ds ∧
            (st'.before.length : Int) + 1 = decimal_value c ds) ∧
        (st.slides < decimal_value c ds →
          on_key cfg IS_STOP noreload st c (ds ++ ERR :: rest) = nav_result.next st rest)) :=
  ⟨by decide, by decide, by decide, by decide, by decide, by decide, on_key_digits⟩

end Viewer

/-! ## Navigation: stop bits -/

namespace Viewer

theorem print_loop_skip (IS_STOP : Nat) (S : Int) (rest : List line_t) :
    ∀ (pre : List line_t) (stop : Int), (∀ x ∈ pre, stop_flagged IS_STOP x = false) →
      stop ≤ S → print_loop IS_STOP S (pre ++ rest) stop = print_loop IS_STOP S rest stop := by
  intro pre
  induction pre with
  | nil => intro stop _ _; rfl
  | cons p pre ih =>
    intro stop hp hs
    have h1 : ¬ CHECK_BIT p.bits IS_STOP ≠ 0 := by
      have := hp p (List.mem_cons_self _ _)
      simpa [stop_flagged] using this
    rw [List.cons_append, print_loop]
    simp only [if_neg h1]
    rw [if_neg (by omega)]
    exact ih stop (fun x hx => hp x (List.mem_cons_of_mem _ hx)) hs

theorem print_loop_pass (IS_STOP : Nat) (S : Int) (s : line_t) (rest : List line_t)
    (stop : Int) (hs : stop_flagged IS_STOP s = true) (h : stop < S) :
    print_loop IS_STOP S (s :: rest) stop = print_loop IS_STOP S rest (stop + 1) := by
  have h1 : CHECK_BIT s.bits IS_STOP ≠ 0 := by simpa [stop_flagged] using hs
  rw [print_loop]
  simp only [if_pos h1]
  rw [if_neg (by omega)]

theorem print_loop_break (IS_STOP : Nat) (S : Int) (s : line_t) (rest : List line_t)
    (stop : Int) (hs : stop_flagged IS_STOP s = true) (h : stop = S) :
    print_loop IS_STOP S (s :: rest) stop = (S + 1, rest) := by
  have h1 : CHECK_BIT s.bits IS_STOP ≠ 0 := by simpa [stop_flagged] using hs
  rw [print_loop]
  simp only [if_pos h1]
  rw [if_pos (by omega), h]

theorem print_loop_end (IS_STOP : Nat) (S : Int) (pre : List line_t) (stop : Int)
    (hp : ∀ x ∈ pre, stop_flagged IS_STOP x = false) (h : stop ≤ S) :
    print_loop IS_STOP S pre stop = (stop, []) := by
  have := print_loop_skip IS_STOP S [] pre stop hp h
  rw [List.append_nil] at this
  rw [this, print_loop]

/-- The frame of a slide with exactly three stop-flagged lines `s1`, `s2`, `s3`, for the
stop-counts 0 to 3: the number of stop bits passed and the lines left. -/
theorem print_loop_three (IS_STOP : Nat) (A0 A1 A2 A3 : List line_t) (s1 s2 s3 : line_t)
    (h0 : ∀ x ∈ A0, stop_flagged IS_STOP x = false)
    (h1 : ∀ x ∈ A1, stop_flagged IS_STOP x = false)
    (h2 : ∀ x ∈ A2, stop_flagged IS_STOP x = false)
    (h3 : ∀ x ∈ A3, stop_flagged IS_STOP x = false)
    (f1 : stop_flagged IS_STOP s1 = true) (f2 : stop_flagged IS_STOP s2 = true)
    (f3 : stop_flagged IS_STOP s3 = true) :
    print_loop IS_STOP 0 (A0 ++ s1 :: (A1 ++ s2 :: (A2 ++ s3 :: A3))) 0 =
        (1, A1 ++ s2 :: (A2 ++ s3 :: A3)) ∧
      print_loop IS_STOP 1 (A0 ++ s1 :: (A1 ++ s2 :: (A2 ++ s3 :: A3))) 0 =
        (2, A2 ++ s3 :: A3) ∧
      print_loop IS_STOP 2 (A0 ++ s1 :: (A1 ++ s2 :: (A2 ++ s3 :: A3))) 0 = (3, A3) ∧
      print_loop IS_STOP 3 (A0 ++ s1 :: (A1 ++ s2 :: (A2 ++ s3 :: A3))) 0 = (3, []) := by
  refine ⟨?_, ?_, ?_, ?_⟩
  · rw [print_loop_skip _ _ _ A0 0 h0 (by omega), print_loop_break _ _ _ _ _ f1 rfl]
    rfl
  · rw [print_loop_skip _ _ _ A0 0 h0 (by omega), print_loop_pass _ _ _ _ _ f1 (by omega),
      print_loop_skip _ _ _ A1 _ h1 (by omega), print_loop_break _ _ _ _ _ f2 (by omega)]
    rfl
  · rw [print_loop_skip _ _ _ A0 0 h0 (by omega), print_loop_pass _ _ _ _ _ f1 (by omega),
      print_loop_skip _ _ _ A1 _ h1 (by omega), print_loop_pass _ _ _ _ _ f2 (by omega),
      print_loop_skip _ _ _ A2 _ h2 (by omega), print_loop_break _ _ _ _ _ f3 (by omega)]
    rfl
  · rw [print_loop_skip _ _ _ A0 0 h0 (by omega), print_loop_pass _ _ _ _ _ f1 (by omega),
      print_loop_skip _ _ _ A1 _ h1 (by omega), print_loop_pass _ _ _ _ _ f2 (by omega),
      print_loop_skip _ _ _ A2 _ h2 (by omega), print_loop_pass _ _ _ _ _ f3 (by omega),
      print_loop_end _ _ A3 _ h3 (by omega)]
    rfl

/-- When the stop-count is at least the number of stop-flagged lines still to come, the
frame shows all lines. -/
theorem print_loop_all (IS_STOP : Nat) (S : Int) :
    ∀ (lines : List line_t) (stop : Int),
      stop + (lines.countP (stop_flagged IS_STOP) : Int) ≤ S →
      print_loop IS_STOP S lines stop =
        (stop + (lines.countP (stop_flagged IS_STOP) : Int), []) := by
  intro lines
  induction lines with
  | nil => intro stop _; simp [print_loop]
  | cons l lines ih =>
    intro stop h
    by_cases hf : stop_flagged IS_STOP l = true
    · rw [List.countP_cons_of_pos _ _ hf] at h ⊢
      push_cast at h ⊢
      rw [print_loop_pass _ _ _ _ _ hf (by omega), ih _ (by omega)]
      congr 1
      omega
    · rw [List.countP_cons_of_neg _ _ hf] at h ⊢
      have hf' : ∀ x ∈ [l], stop_flagged IS_STOP x = false := by
        intro x hx
        rw [List.mem_singleton.1 hx]
        simpa using hf
      have := print_loop_skip IS_STOP S lines [l] stop hf' (by omega)
      rw [List.singleton_append] at this
      rw [this, ih _ h]

/-- When more stop-flagged lines are to come than the stop-count allows, the frame stops
with one stop bit more than the stop-count passed. -/
theorem print_loop_stops (IS_STOP : Nat) (S : Int) :
    ∀ (lines : List line_t) (stop : Int), stop ≤ S →
      S < stop + (lines.countP (stop_flagged IS_STOP) : Int) →
      (print_loop IS_STOP S lines stop).1 = S + 1 := by
  intro lines
  induction lines with
  | nil => intro stop h1 h2; simp at h2; omega
  | cons l lines ih =>
    intro stop h1 h2
    by_cases hf : stop_flagged IS_STOP l = true
    · rw [List.countP_cons_of_pos _ _ hf] at h2
      push_cast at h2
      by_cases he : stop = S
      · rw [print_loop_break _ _ _ _ _ hf he]
      · rw [print_loop_pass _ _ _ _ _ hf (by omega)]
        exact ih _ (by omega) (by omega)
    · rw [List.countP_cons_of_neg _ _ hf] at h2
      have hf' : ∀ x ∈ [l], stop_flagged IS_STOP x = false := by
        intro x hx
        rw [List.mem_singleton.1 hx]
        simpa using hf
      have := print_loop_skip IS_STOP S lines [l] stop hf' (by omega)
      rw [List.singleton_append] at this
      rw [this]
      exact ih _ h1 h2

theorem with_stop_self (st : nav_t) (n : Int) (h : st.slide.stop = n) : with_stop st n = st := by
  cases st with
  | mk before slide after sc =>
    cases slide with
    | mk line lc stop =>
      simp only [with_stop]
      dsimp only at h
      rw [h]

theorem key_next_with_stop (IS_STOP : Nat) (st : nav_t) (n : Int) :
    key_next IS_STOP (with_stop st n) =
      if (print_loop IS_STOP n st.slide.line 0).1 ≠ 0 ∧
          (print_loop IS_STOP n st.slide.line 0).2 ≠ [] then with_stop st (n + 1)
      else step_next (with_stop st n) := rfl

theorem key_prev_with_stop (IS_STOP : Nat) (st : nav_t) (n : Int) :
    key_prev IS_STOP (with_stop st n) =
      if (print_loop IS_STOP n st.slide.line 0).1 > 1 ∨
          ((print_loop IS_STOP n st.slide.line 0).1 = 1 ∧
            (print_loop IS_STOP n st.slide.line 0).2 = []) then with_stop st (n - 1)
      else
        match st.before with
        | [] => with_stop st n
        | prev :: before =>
          { before := before,
            slide := { prev with stop := if prev.stop > 0 then 0 else prev.stop },
            after := (with_stop st n).slide :: st.after,
            sc := st.sc - 1 } := by
  unfold key_prev frame
  cases hb : st.before <;> simp [with_stop, hb]

/-- Counterexample to C18 as stated: the slide with the three stop-flagged lines `a`, `b`,
`c` and nothing behind them: from stop-count 0 the first two NEXT keys raise the stop-count
to 1 and 2, and the third one already makes the next slide current. -/
theorem key_next_moves_at_third :
    ([stop_line 7 "a", stop_line 7 "b", stop_line 7 "c"].countP (stop_flagged 7) = 3 ∧
      (middle_state [stop_line 7 "a", stop_line 7 "b", stop_line 7 "c"] 0).after ≠ []) ∧
    key_next 7 (middle_state [stop_line 7 "a", stop_line 7 "b", stop_line 7 "c"] 0) =
      middle_state [stop_line 7 "a", stop_line 7 "b", stop_line 7 "c"] 1 ∧
    key_next 7 (middle_state [stop_line 7 "a", stop_line 7 "b", stop_line 7 "c"] 1) =
      middle_state [stop_line 7 "a", stop_line 7 "b", stop_line 7 "c"] 2 ∧
    key_next 7 (middle_state [stop_line 7 "a", stop_line 7 "b", stop_line 7 "c"] 2) =
      { before := [(middle_state [stop_line 7 "a", stop_line 7 "b", stop_line 7 "c"] 2).slide,
                   plain_slide "p"],
        slide := plain_slide "n", after := [], sc := 3 } := by
  decide

/-- C18, amended: for a slide with exactly three stop-flagged lines `s1`, `s2`, `s3` (the
lines `A0`, `A1`, `A2`, `A3` around them have no stop bit) that has a next slide `nx`,
starting with stop-count 0: the first two keys of the NEXT branch keep the slide current and
raise its stop-count to 1 and 2. When lines follow the last stop-flagged line, the third key
raises it to 3 and the fourth makes the next slide current; when the last stop-flagged line
is the last line of the slide, the third key already makes the next slide current. -/
theorem key_next_three_stops (IS_STOP : Nat) (st : nav_t) (A0 A1 A2 A3 : List line_t)
    (s1 s2 s3 : line_t) (nx : slide_t) (af : List slide_t)
    (hl : st.slide.line = A0 ++ s1 :: (A1 ++ s2 :: (A2 ++ s3 :: A3)))
    (h0 : ∀ x ∈ A0, stop_flagged IS_STOP x = false)
    (h1 : ∀ x ∈ A1, stop_flagged IS_STOP x = false)
    (h2 : ∀ x ∈ A2, stop_flagged IS_STOP x = false)
    (h3 : ∀ x ∈ A3, stop_flagged IS_STOP x = false)
    (f1 : stop_flagged IS_STOP s1 = true) (f2 : stop_flagged IS_STOP s2 = true)
    (f3 : stop_flagged IS_STOP s3 = true)
    (hs : st.slide.stop = 0) (ha : st.after = nx :: af) :
    key_next IS_STOP st = with_stop st 1 ∧
    key_next IS_STOP (key_next IS_STOP st) = with_stop st 2 ∧
    (A3 ≠ [] →
      key_next IS_STOP (key_next IS_STOP (key_next IS_STOP st)) = with_stop st 3 ∧
      key_next IS_STOP (key_next IS_STOP (key_next IS_STOP (key_next IS_STOP st))) =
        { before := (with_stop st 3).slide :: st.before, slide := nx, after := af,
          sc := st.sc + 1 }) ∧
    (A3 = [] →
      key_next IS_STOP (key_next IS_STOP (key_next IS_STOP st)) =
        { before := (with_stop st 2).slide :: st.before, slide := nx, after := af,
          sc := st.sc + 1 }) := by
  obtain ⟨p0, p1, p2, p3⟩ := print_loop_three IS_STOP A0 A1 A2 A3 s1 s2 s3 h0 h1 h2 h3 f1 f2 f3
  rw [← hl] at p0 p1 p2 p3
  have e0 : key_next IS_STOP st = with_stop st 1 := by
    have := key_next_with_stop IS_STOP st 0
    rw [with_stop_self st 0 hs, p0, if_pos ⟨by dsimp only; omega, by simp⟩] at this
    exact this
  have e1 : key_next IS_STOP (with_stop st 1) = with_stop st 2 := by
    rw [key_next_with_stop, p1, if_pos ⟨by dsimp only; omega, by simp⟩]
    rfl
  have m : ∀ n, step_next (with_stop st n) =
      { before := (with_stop st n).slide :: st.before, slide := nx, after := af,
        sc := st.sc + 1 } := by
    intro n
    simp only [step_next, with_stop, ha]
  refine ⟨e0, by rw [e0, e1], ?_, ?_⟩
  · intro hne
    have e2 : key_next IS_STOP (with_stop st 2) = with_stop st 3 := by
      rw [key_next_with_stop, p2, if_pos ⟨by dsimp only; omega, hne⟩]
      rfl
    have e3 : key_next IS_STOP (with_stop st 3) = step_next (with_stop st 3) := by
      rw [key_next_with_stop, p3, if_neg (by simp)]
    exact ⟨by rw [e0, e1, e2], by rw [e0, e1, e2, e3, m]⟩
  · intro he
    have e2 : key_next IS_STOP (with_stop st 2) = step_next (with_stop st 2) := by
      rw [key_next_with_stop, p2, if_neg (by simp [he])]
    rw [e0, e1, e2, m]

/-- Witness of C18: the slide with the lines `t`, `a`, `b`, `c`, `e`, of which `a`, `b` and
`c` are stop-flagged: three NEXT keys raise the stop-count to 3 and the fourth makes the next
slide current. -/
theorem key_next_three_stops_witness :
    key_next 7 (key_next 7 (key_next 7 (middle_state
        [plain_line "t", stop_line 7 "a", stop_line 7 "b", stop_line 7 "c", plain_line "e"]
        0))) =
      with_stop (middle_state
        [plain_line "t", stop_line 7 "a", stop_line 7 "b", stop_line 7 "c", plain_line "e"]
        0) 3 ∧
    key_next 7 (key_next 7 (key_next 7 (key_next 7 (middle_state
        [plain_line "t", stop_line 7 "a", stop_line 7 "b", stop_line 7 "c", plain_line "e"]
        0)))) =
      { before := [(with_stop (middle_state
          [plain_line "t", stop_line 7 "a", stop_line 7 "b", stop_line 7 "c", plain_line "e"]
          0) 3).slide, plain_slide "p"],
        slide := plain_slide "n", after := [], sc := 2 + 1 } :=
  (key_next_three_stops 7 (middle_state
      [plain_line "t", stop_line 7 "a", stop_line 7 "b", stop_line 7 "c", plain_line "e"] 0)
    [plain_line "t"] [] [] [plain_line "e"] (stop_line 7 "a") (stop_line 7 "b")
    (stop_line 7 "c") (plain_slide "n") [] rfl (by decide) (by decide) (by decide) (by decide)
    (by decide) (by decide) (by decide) rfl rfl).2.2.1 (by decide)

/-- Counterexample to C19 as stated: the slide with the three stop-flagged lines `a`, `b`,
`c` and nothing behind them is fully revealed at stop-count 2 (the frame passes all three
stop bits and no line is left, and a NEXT key there leaves the slide): from that state two
PREV keys lower the stop-count to 1 and 0, and the third one already makes the previous
slide current. -/
theorem key_prev_moves_at_third :
    frame 7 (middle_state [stop_line 7 "a", stop_line 7 "b", stop_line 7 "c"] 2) = (3, []) ∧
    (key_next 7 (middle_state [stop_line 7 "a", stop_line 7 "b", stop_line 7 "c"] 2)).slide =
      plain_slide "n" ∧
    key_prev 7 (middle_state [stop_line 7 "a", stop_line 7 "b", stop_line 7 "c"] 2) =
      middle_state [stop_line 7 "a", stop_line 7 "b", stop_line 7 "c"] 1 ∧
    key_prev 7 (middle_state [stop_line 7 "a", stop_line 7 "b", stop_line 7 "c"] 1) =
      middle_state [stop_line 7 "a", stop_line 7 "b", stop_line 7 "c"] 0 ∧
    key_prev 7 (middle_state [stop_line 7 "a", stop_line 7 "b", stop_line 7 "c"] 0) =
      { before := [], slide := plain_slide "p",
        after := [(middle_state [stop_line 7 "a", stop_line 7 "b", stop_line 7 "c"] 0).slide,
                  plain_slide "n"],
        sc := 1 } := by
  decide

/-- C19, amended: for a slide with exactly three stop-flagged lines `s1`, `s2`, `s3` that has
a previous slide `p`, starting with stop-count 3: three keys of the PREV branch keep the
slide current and lower its stop-count to 2, 1 and 0, and the fourth makes the previous
slide current, with its stop-count set to 0 when it was positive and left as it was
otherwise (so 0 when it was not negative). From stop-count 2, which is the fully revealed
state when the last stop-flagged line is the last line of the slide, the third key makes
the previous slide current. -/
theorem key_prev_three_stops (IS_STOP : Nat) (st : nav_t) (A0 A1 A2 A3 : List line_t)
    (s1 s2 s3 : line_t) (p : slide_t) (bf : List slide_t)
    (hl : st.slide.line = A0 ++ s1 :: (A1 ++ s2 :: (A2 ++ s3 :: A3)))
    (h0 : ∀ x ∈ A0, stop_flagged IS_STOP x = false)
    (h1 : ∀ x ∈ A1, stop_flagged IS_STOP x = false)
    (h2 : ∀ x ∈ A2, stop_flagged IS_STOP x = false)
    (h3 : ∀ x ∈ A3, stop_flagged IS_STOP x = false)
    (f1 : stop_flagged IS_STOP s1 = true) (f2 : stop_flagged IS_STOP s2 = true)
    (f3 : stop_flagged IS_STOP s3 = true)
    (hs : st.slide.stop = 3) (hb : st.before = p :: bf) :
    key_prev IS_STOP st = with_stop st 2 ∧
    key_prev IS_STOP (key_prev IS_STOP st) = with_stop st 1 ∧
    key_prev IS_STOP (key_prev IS_STOP (key_prev IS_STOP st)) = with_stop st 0 ∧
    key_prev IS_STOP (key_prev IS_STOP (key_prev IS_STOP (key_prev IS_STOP st))) =
      { before := bf, slide := { p with stop := if p.stop > 0 then 0 else p.stop },
        after := (with_stop st 0).slide :: st.after, sc := st.sc - 1 } ∧
    (0 ≤ p.stop →
      (key_prev IS_STOP (key_prev IS_STOP (key_prev IS_STOP (key_prev IS_STOP st)))).slide =
        { p with stop := 0 }) ∧
    key_prev IS_STOP (key_prev IS_STOP (key_prev IS_STOP (with_stop st 2))) =
      { before := bf, slide := { p with stop := if p.stop > 0 then 0 else p.stop },
        after := (with_stop st 0).slide :: st.after, sc := st.sc - 1 } := by
  obtain ⟨p0, p1, p2, p3⟩ := print_loop_three IS_STOP A0 A1 A2 A3 s1 s2 s3 h0 h1 h2 h3 f1 f2 f3
  rw [← hl] at p0 p1 p2 p3
  have e3 : key_prev IS_STOP st = with_stop st 2 := by
    have := key_prev_with_stop IS_STOP st 3
    rw [with_stop_self st 3 hs, p3, if_pos (Or.inl (by dsimp only; omega))] at this
    exact this
  have e2 : key_prev IS_STOP (with_stop st 2) = with_stop st 1 := by
    rw [key_prev_with_stop, p2, if_pos (Or.inl (by dsimp only; omega))]
    rfl
  have e1 : key_prev IS_STOP (with_stop st 1) = with_stop st 0 := by
    rw [key_prev_with_stop, p1, if_pos (Or.inl (by dsimp only; omega))]
    rfl
  have e0 : key_prev IS_STOP (with_stop st 0) =
      { before := bf, slide := { p with stop := if p.stop > 0 then 0 else p.stop },
        after := (with_stop st 0).slide :: st.after, sc := st.sc - 1 } := by
    rw [key_prev_with_stop, p0, if_neg (by simp), hb]
  refine ⟨e3, by rw [e3, e2], by rw [e3, e2, e1], by rw [e3, e2, e1, e0], ?_,
    by rw [e2, e1, e0]⟩
  intro hp
  rw [e3, e2, e1, e0]
  dsimp only
  by_cases h : p.stop > 0
  · rw [if_pos h]
  · rw [if_neg h]
    congr 1
    omega

/-- Witness of C19: the slide with the lines `t`, `a`, `b`, `c`, `e`, of which `a`, `b` and
`c` are stop-flagged, at stop-count 3: the third PREV key leaves it current with stop-count
0 and the fourth makes the previous slide current. -/
theorem key_prev_three_stops_witness :
    key_prev 7 (key_prev 7 (key_prev 7 (middle_state
        [plain_line "t", stop_line 7 "a", stop_line 7 "b", stop_line 7 "c", plain_line "e"]
        3))) =
      with_stop (middle_state
        [plain_line "t", stop_line 7 "a", stop_line 7 "b", stop_line 7 "c", plain_line "e"]
        3) 0 ∧
    (key_prev 7 (key_prev 7 (key_prev 7 (key_prev 7 (middle_state
        [plain_line "t", stop_line 7 "a", stop_line 7 "b", stop_line 7 "c", plain_line "e"]
        3))))).slide = { plain_slide "p" with stop := 0 } :=
  ⟨(key_prev_three_stops 7 (middle_state
      [plain_line "t", stop_line 7 "a", stop_line 7 "b", stop_line 7 "c", plain_line "e"] 3)
    [plain_line "t"] [] [] [plain_line "e"] (stop_line 7 "a") (stop_line 7 "b")
    (stop_line 7 "c") (plain_slide "p") [] rfl (by decide) (by decide) (by decide) (by decide)
    (by decide) (by decide) (by decide) rfl rfl).2.2.1,
   (key_prev_three_stops 7 (middle_state
      [plain_line "t", stop_line 7 "a", stop_line 7 "b", stop_line 7 "c", plain_line "e"] 3)
    [plain_line "t"] [] [] [plain_line "e"] (stop_line 7 "a") (stop_line 7 "b")
    (stop_line 7 "c") (plain_slide "p") [] rfl (by decide) (by decide) (by decide) (by decide)
    (by decide) (by decide) (by decide) rfl rfl).2.2.2.2.1 (by decide)⟩

/-- Counterexample to C20 as stated: the slide with the lines `a`, `b`, `c`, `d`, of which
`a` and `c` are stop-flagged, has a previous slide and the stop-count 1, and its frame ends
behind `c`, with the line `d` not shown; the PREV key lowers the stop-count to 0 and the
slide stays current, where the claim makes the previous slide current. -/
theorem key_prev_decrements_at_one :
    (middle_state [stop_line 7 "a", plain_line "b", stop_line 7 "c", plain_line "d"] 1).slide.stop
        = 1 ∧
      frame 7 (middle_state [stop_line 7 "a", plain_line "b", stop_line 7 "c", plain_line "d"] 1)
        = (2, [plain_line "d"]) ∧
      (middle_state [stop_line 7 "a", plain_line "b", stop_line 7 "c", plain_line "d"] 1).before
        = [plain_slide "p"] ∧
      key_prev 7 (middle_state [stop_line 7 "a", plain_line "b", stop_line 7 "c", plain_line "d"] 1)
        = middle_state [stop_line 7 "a", plain_line "b", stop_line 7 "c", plain_line "d"] 0 := by
  decide

/-- C20, amended: on a key of the PREV branch in a state whose current slide has the
stop-count `S`: if `S ≥ 1` and the slide has a stop-flagged line, `S` is lowered by one and
the slide stays current, whether or not the slide was shown to its last line. If `S ≥ 0` and
the slide has no stop-flagged line, or `S = 0` and a line follows the first stop-flagged
line, then without a previous slide the state is unchanged, and with a previous slide that
one becomes current, its stop-count set to 0 when it was positive and left as it was
otherwise (so 0 when it was not negative). -/
theorem key_prev_spec (IS_STOP : Nat) (st : nav_t) :
    (1 ≤ st.slide.stop → 1 ≤ st.slide.line.countP (stop_flagged IS_STOP) →
      key_prev IS_STOP st = with_stop st (st.slide.stop - 1)) ∧
    (0 ≤ st.slide.stop →
      (st.slide.line.countP (stop_flagged IS_STOP) = 0 ∨
        (st.slide.stop = 0 ∧ ∃ pre s post, st.slide.line = pre ++ s :: post ∧
          (∀ x ∈ pre, stop_flagged IS_STOP x = false) ∧ stop_flagged IS_STOP s = true ∧
          post ≠ [])) →
      (st.before = [] → key_prev IS_STOP st = st) ∧
      (∀ p bf, st.before = p :: bf →
        key_prev IS_STOP st =
          { before := bf, slide := { p with stop := if p.stop > 0 then 0 else p.stop },
            after := st.slide :: st.after, sc := st.sc - 1 } ∧
        (0 ≤ p.stop → (key_prev IS_STOP st).slide = { p with stop := 0 }))) := by
  constructor
  · intro hs hc
    have hcond : (frame IS_STOP st).1 > 1 ∨
        ((frame IS_STOP st).1 = 1 ∧ (frame IS_STOP st).2 = []) := by
      unfold frame
      by_cases hle : (st.slide.line.countP (stop_flagged IS_STOP) : Int) ≤ st.slide.stop
      · rw [print_loop_all IS_STOP _ _ 0 (by omega)]
        dsimp only
        by_cases h1 : st.slide.line.countP (stop_flagged IS_STOP) = 1
        · right
          exact ⟨by omega, rfl⟩
        · left
          omega
      · left
        rw [print_loop_stops IS_STOP _ _ 0 (by omega) (by omega)]
        omega
    unfold key_prev
    rw [if_pos hcond]
    rfl
  · intro hs hc
    have hcond : ¬ ((frame IS_STOP st).1 > 1 ∨
        ((frame IS_STOP st).1 = 1 ∧ (frame IS_STOP st).2 = [])) := by
      unfold frame
      rcases hc with hc | ⟨h0, pre, s, post, hl, hp, hf, hne⟩
      · rw [print_loop_all IS_STOP _ _ 0 (by omega), hc]
        simp
      · rw [hl, h0, print_loop_skip _ _ _ pre 0 hp (by omega),
          print_loop_break _ _ _ _ _ hf rfl]
        simp [hne]
    have hk : key_prev IS_STOP st =
        match st.before with
        | [] => st
        | prev :: before =>
          { before := before,
            slide := { prev with stop := if prev.stop > 0 then 0 else prev.stop },
            after := st.slide :: st.after, sc := st.sc - 1 } := by
      unfold key_prev
      rw [if_neg hcond]
    refine ⟨?_, ?_⟩
    · intro hb
      rw [hk, hb]
    · intro p bf hb
      rw [hk, hb]
      refine ⟨rfl, ?_⟩
      intro hp
      dsimp only
      by_cases h : p.stop > 0
      · rw [if_pos h]
      · rw [if_neg h]
        congr 1
        omega

/-- Witness of C20: on the slide with the stop-flagged lines `a` and `c` between `b` and
`d`, the PREV key at stop-count 1 lowers the stop-count to 0, and at stop-count 0 it makes
the previous slide current. -/
theorem key_prev_spec_witness :
    key_prev 7 (middle_state [stop_line 7 "a", plain_line "b", stop_line 7 "c", plain_line "d"] 1)
        = with_stop
          (middle_state [stop_line 7 "a", plain_line "b", stop_line 7 "c", plain_line "d"] 1)
          (1 - 1) ∧
      (key_prev 7
        (middle_state [stop_line 7 "a", plain_line "b", stop_line 7 "c", plain_line "d"] 0)).slide
        = { plain_slide "p" with stop := 0 } :=
  ⟨(key_prev_spec 7
      (middle_state [stop_line 7 "a", plain_line "b", stop_line 7 "c", plain_line "d"] 1)).1
      (by decide) (by decide),
   (((key_prev_spec 7
      (middle_state [stop_line 7 "a", plain_line "b", stop_line 7 "c", plain_line "d"] 0)).2
      (by decide)
      (Or.inr ⟨rfl, [], stop_line 7 "a",
        [plain_line "b", stop_line 7 "c", plain_line "d"], rfl, by decide, by decide,
        by decide⟩)).2 (plain_slide "p") [] rfl).2 (by decide)⟩

end Viewer

/-! ## The loader: header length, tabs and a first page of header lines only -/

/-- Counterexample to C21 as stated: for the stream `% a\n% b\n% c\nx\n` the first page has
three leading lines that begin with `%`, and the header chain of the document has these
three lines. -/
theorem markdown_load_three_percent_lines :
    ∃ doc, markdown_load 3 4 "% a\n% b\n% c\nx\n".toList = some doc ∧
      doc.header.map (fun l => l.text) = ["% a".toList, "% b".toList, "% c".toList] ∧
      doc.header.length = 3 ∧ page_texts doc.page = ["x".toList] := by
  refine ⟨_, rfl, by decide, by decide, by decide⟩

/-- C21, amended: whenever `markdown_load` returns a document, its header chain is the whole
leading run of the lines of the first page that begin with `%` (the lines in front of the
first horizontal rule), whatever the length of that run: the chain has as many lines as the
run, every line of it begins with `%`, and the first page is left with the lines from the
first other line on. -/
theorem markdown_load_percent_run (IS_CODE IS_HR : Nat) (input : List Char)
    (doc : document_t) (h : markdown_load IS_CODE IS_HR input = some doc) :
    doc.header.map (fun l => l.text) =
        ((stored_lines input).takeWhile (fun t => !is_hr IS_CODE IS_HR t)).takeWhile
          begins_percent ∧
      doc.header.length =
        (((stored_lines input).takeWhile (fun t => !is_hr IS_CODE IS_HR t)).takeWhile
          begins_percent).length ∧
      (∀ l ∈ doc.header, begins_percent l.text = true) ∧
      (doc.page.head?.map (fun p => p.line.map (fun l => l.text))) =
        some (((stored_lines input).takeWhile (fun t => !is_hr IS_CODE IS_HR t)).dropWhile
          begins_percent) := by
  obtain ⟨first, others, hp, hf, hl⟩ := markdown_load_eq IS_CODE IS_HR input
  have e : (begins_percent ∘ fun l : line_t => l.text) = is_header_line := by
    funext l
    exact (is_header_line_eq l).symm
  rw [hl] at h
  split at h
  · cases h
  · cases h
    have h1 : (first.line.takeWhile is_header_line).map (fun l => l.text) =
        ((stored_lines input).takeWhile (fun t => !is_hr IS_CODE IS_HR t)).takeWhile
          begins_percent := by
      rw [← hf, List.takeWhile_map, e]
    refine ⟨h1, ?_, ?_, ?_⟩
    · rw [← h1, List.length_map]
    · intro l hl
      have := List.mem_takeWhile_imp hl
      rw [← is_header_line_eq]
      exact this
    · show some ((first.line.dropWhile is_header_line).map (fun l => l.text)) = _
      rw [← hf, List.dropWhile_map, e]

/-- Witness of C21: a stream with five leading `%` lines gives a header chain of five
lines. -/
theorem markdown_load_percent_run_witness :
    ∃ doc, markdown_load 3 4 "%1\n%2\n%3\n%4\n%5\nx\n".toList = some doc ∧
      doc.header.length = 5 := by
  refine ⟨_, rfl, ?_⟩
  exact (markdown_load_percent_run 3 4 "%1\n%2\n%3\n%4\n%5\nx\n".toList _ rfl).2.1.trans
    (by decide)

theorem tab_loop_eq (text : cstring_t) : tab_loop 5 0 text = text ++ List.replicate 5 ' ' := by
  simp [tab_loop, cstring_t.expand, List.replicate]

/-- C22: for the stream `\tx\n`, `markdown_load` stores the line as five blanks followed by
`x`, not four: the loop `for (i = 0; i <= 4; i++)` appends a blank for each of `i = 0 .. 4`.
Every tab of every stream adds five blanks to the buffer, and the buffer is what
`markdown_analyse` receives (a tab at the start of a line gives the offset 5). -/
theorem markdown_load_tab_five_blanks :
    load_text "\tx".toList = "     x".toList ∧
      (load_loop 3 4 "\tx".toList).text = "     x".toList ∧
      markdown_load 3 4 "\tx\n".toList =
        some { page := [{ line := [{ text := "     x".toList,
                                     bits := markdown_analyse 3 4 "     x".toList,
                                     offset := 5 }] }],
               header := [] } ∧
      (∀ text : cstring_t, load_char text '\t' = text ++ List.replicate 5 ' ') ∧
      (∀ (IS_CODE IS_HR : Nat) (st : load_state),
        (load_step IS_CODE IS_HR st '\t').text = st.text ++ List.replicate 5 ' ') := by
  refine ⟨by decide, by decide, by decide, ?_, ?_⟩
  · intro text
    simp only [load_char, if_true]
    exact tab_loop_eq text
  · intro IS_CODE IS_HR st
    have h : ('\t' : Char) ≠ '\n' := by decide
    simp only [load_step, h, if_false, load_char, if_true]
    exact tab_loop_eq st.text

/-- C23: for the stream `% Title\n% Author\n`, whose first page consists of two lines that
begin with `%`, the header loop of `markdown_load` walks off the end of the chain and reads
`line->text` of a `NULL` line: the function returns no document. This happens for a stream
exactly when the lines in front of its first horizontal rule are at least one and all of
them begin with `%`; for every other stream the function returns a document. -/
theorem markdown_load_percent_only_fails :
    markdown_load 3 4 "% Title\n% Author\n".toList = none ∧
      (load_pages 3 4 "% Title\n% Author\n".toList).head?.map (fun p => header_walk p.line) =
        some none ∧
      (∀ (IS_CODE IS_HR : Nat) (input : List Char),
        markdown_load IS_CODE IS_HR input = none ↔
          ((stored_lines input).takeWhile (fun t => !is_hr IS_CODE IS_HR t) ≠ [] ∧
            ∀ t ∈ (stored_lines input).takeWhile (fun t => !is_hr IS_CODE IS_HR t),
              begins_percent t = true)) ∧
      (∀ (IS_CODE IS_HR : Nat) (input : List Char),
        ¬ ((stored_lines input).takeWhile (fun t => !is_hr IS_CODE IS_HR t) ≠ [] ∧
            ∀ t ∈ (stored_lines input).takeWhile (fun t => !is_hr IS_CODE IS_HR t),
              begins_percent t = true) →
          ∃ doc, markdown_load IS_CODE IS_HR input = some doc) := by
  have key : ∀ (IS_CODE IS_HR : Nat) (input : List Char),
      markdown_load IS_CODE IS_HR input = none ↔
        ((stored_lines input).takeWhile (fun t => !is_hr IS_CODE IS_HR t) ≠ [] ∧
          ∀ t ∈ (stored_lines input).takeWhile (fun t => !is_hr IS_CODE IS_HR t),
            begins_percent t = true) := by
    intro IS_CODE IS_HR input
    obtain ⟨first, others, _, hf, hl⟩ := markdown_load_eq IS_CODE IS_HR input
    have hc : (first.line ≠ [] ∧ first.line.all is_header_line = true) ↔
        ((stored_lines input).takeWhile (fun t => !is_hr IS_CODE IS_HR t) ≠ [] ∧
          ∀ t ∈ (stored_lines input).takeWhile (fun t => !is_hr IS_CODE IS_HR t),
            begins_percent t = true) := by
      rw [all_header_iff, hf, ← hf]
      simp only [ne_eq, List.map_eq_nil_iff]
    rw [hl, ← hc]
    constructor
    · intro h
      by_contra hn
      rw [if_neg hn] at h
      cases h
    · intro h
      rw [if_pos h]
  refine ⟨by decide, by decide, key, ?_⟩
  intro IS_CODE IS_HR input hn
  cases hm : markdown_load IS_CODE IS_HR input with
  | none => exact absurd ((key IS_CODE IS_HR input).1 hm) hn
  | some doc => exact ⟨doc, rfl⟩

/-! ## The inline interpreter: the stack after a reference -/

theorem peek_drop (s : List Char) (i k : Nat) : peek s (i + k) = peek (s.drop i) k := by
  unfold peek
  rw [List.getD_eq_getElem?_getD, List.getD_eq_getElem?_getD, List.getElem?_drop]

theorem wcschr_from_prefix_isSome (ch : Char) (post : List Char) :
    ∀ (pre : List Char) (k : Nat), '\x00' ∉ pre →
      (wcschr_from (pre ++ ch :: post) k ch).isSome = true := by
  intro pre
  induction pre with
  | nil => intro k _; simp [wcschr_from]
  | cons x xs ih =>
    intro k h
    have hx : x ≠ '\x00' := fun e => h (by simp [e])
    rw [List.cons_append, wcschr_from]
    by_cases hc : x = ch
    · simp [hc]
    · rw [if_neg hc, if_neg hx]
      exact ih (k + 1) (fun h' => h (List.mem_cons_of_mem _ h'))

/-- A reference `[L](T)` at a place where markup may open is resolved, and the character
pushed on the stack afterwards is the `)` at which the scan of the target stopped. -/
theorem inline_open_link (s : List Char) (colors : Bool) (i : Nat) (st : inline_state)
    (L T rest : List Char)
    (hs : s.drop i = '[' :: (L ++ ']' :: '(' :: (T ++ ')' :: rest)))
    (hL : L ≠ []) (hL1 : ']' ∉ L) (hL0 : '\x00' ∉ L) (hT1 : ')' ∉ T) (hT0 : '\x00' ∉ T) :
    inline_open s colors i st =
      some (i + L.length + 3 + T.length,
        { window := (((((if colors then st.window.wattron_pair CP_HEADER
              else st.window).wattron_underline).wprintw L).wprintw
              ([' ', '['] ++ (Nat.repr st.urls.length).toList ++ [']'])).wattroff_underline).wattron_pair
                CP_FG,
          stack := ')' :: st.stack,
          urls := st.urls ++ [{ link_name := L.dropLast, link_name_length := L.length - 1,
                                target := T, target_length := T.length }] }) := by
  have f1 : peek s i = '[' := by
    have := peek_drop s i 0
    rw [Nat.add_zero, hs] at this
    exact this
  have f2 : wcschr s i ']' = some (i + L.length + 1) := by
    unfold wcschr
    rw [hs]
    have := wcschr_from_append ']' ('(' :: (T ++ ')' :: rest)) ('[' :: L) i
      (by simp [hL1]) (by simp [hL0])
    simpa [Nat.add_assoc] using this
  have f3 : peek s (i + L.length + 1 + 1) = '(' := by
    have e : i + L.length + 1 + 1 = i + (('[' :: L) ++ [']']).length := by
      simp only [List.length_append, List.length_cons, List.length_nil]; omega
    have e2 : '[' :: (L ++ ']' :: '(' :: (T ++ ')' :: rest)) =
        (('[' :: L) ++ [']']) ++ '(' :: (T ++ ')' :: rest) := by simp
    rw [e, peek_drop, hs, e2]
    exact peek_append_cons _ _ _
  have f4 : (wcschr s i ')').isSome = true := by
    unfold wcschr
    have e2 : '[' :: (L ++ ']' :: '(' :: (T ++ ')' :: rest)) =
        ('[' :: (L ++ ']' :: '(' :: T)) ++ ')' :: rest := by simp
    rw [hs, e2]
    apply wcschr_from_prefix_isSome
    simp [hL0, hT0]
  have f5 : s.drop (i + 1) = L ++ ']' :: '(' :: (T ++ ')' :: rest) := by
    have : s.drop (i + 1) = (s.drop i).drop 1 := by rw [List.drop_drop]
    rw [this, hs]
    rfl
  have f6 : peek s (i + L.length + 3 + T.length) = ')' := by
    have e : i + L.length + 3 + T.length = i + ('[' :: (L ++ ']' :: '(' :: T)).length := by
      simp only [List.length_append, List.length_cons]; omega
    have e2 : '[' :: (L ++ ']' :: '(' :: (T ++ ')' :: rest)) =
        ('[' :: (L ++ ']' :: '(' :: T)) ++ ')' :: rest := by simp
    rw [e, peek_drop, hs, e2]
    exact peek_append_cons _ _ _
  have hne : ('[' : Char) ≠ '!' := by decide
  unfold inline_open
  simp only [f1, f2, f3, f4, hne, decide_True, decide_False, Option.isSome_some, Bool.and_self,
    Bool.true_or, Bool.or_true, if_true, if_false, Bool.false_eq_true]
  rw [inline_link_eq s colors i st.window st.urls L T rest '(' f5 hL hL1 hL0 hT1]
  simp only [f6, cstack_t.push]

/-- The form `![L](T)`: the `!` is skipped and the reference behind it is resolved. -/
theorem inline_open_bang (s : List Char) (colors : Bool) (i : Nat) (st : inline_state)
    (h0 : peek s i = '!') (h1 : peek s (i + 1) = '[')
    (h2 : (wcschr s (i + 1) ']').isSome = true) :
    inline_open s colors i st = inline_open s colors (i + 1) st := by
  have hi : i < s.length := lt_of_peek_ne s i (by rw [h0]; decide)
  have h3 : (wcschr s i ']').isSome = true := by
    unfold wcschr at h2 ⊢
    rw [List.drop_eq_getElem_cons hi]
    have hx : s[i] = '!' := by
      unfold peek at h0
      rw [List.getD_eq_getElem?_getD, List.getElem?_eq_getElem hi] at h0
      exact h0
    rw [hx, wcschr_from, if_neg (by decide), if_neg (by decide)]
    exact h2
  have hne : ('[' : Char) ≠ '!' := by decide
  have hne2 : ('!' : Char) ≠ '[' := by decide
  unfold inline_open
  simp only [h0, h1, h2, h3, hne, hne2, decide_True, decide_False, Bool.and_self, Bool.true_or,
    Bool.or_true, Bool.false_and, Bool.true_and, Bool.or_false, Bool.false_or, if_true,
    if_false, Bool.false_eq_true]

/-- C25: on the line `*a [b](c) d*` the scan ends with the stack `)`, `*`: resolving the
reference has pushed the `)` at which the target scan stopped, so the final `*` does not find
its opener on top of the stack; it is written, and the bold is only ended by the drain at
the end of the line. The same holds with `![b](c)`; without a reference, in `*a d*`, the
final `*` closes the bold and is not written. For every line and every state, resolving a
reference `[L](T)` or `![L](T)` (label not empty and without `]`, target without `)`)
leaves the stack with a `)` pushed on it. -/
theorem inline_display_reference_pushes_paren :
    inline_scan "*a [b](c) d*".toList true (default_window true) [] =
        Run.ok { window := { pair := CP_FG, underline := false,
                             out := [Out.color CP_BOLD, Out.ch 'a', Out.ch ' ',
                                     Out.color CP_HEADER, Out.underline_on, Out.ch 'b',
                                     Out.ch ' ', Out.ch '[', Out.ch '0', Out.ch ']',
                                     Out.underline_off, Out.color CP_FG, Out.ch ' ',
                                     Out.ch 'd', Out.ch '*'] },
                 stack := [')', '*'],
                 urls := [{ link_name := [], link_name_length := 0, target := ['c'],
                            target_length := 1 }] } ∧
      (∃ w urls, inline_display "*a [b](c) d*".toList true (default_window true) [] =
          Run.ok (w, urls) ∧ w.printed = "a b [0] d*".toList) ∧
      (∃ w urls, inline_display "*a ![b](c) d*".toList true (default_window true) [] =
          Run.ok (w, urls) ∧ w.printed = "a b [0] d*".toList) ∧
      inline_display "*a d*".toList true (default_window true) [] =
        Run.ok ({ pair := CP_FG, underline := false,
                  out := [Out.color CP_BOLD, Out.ch 'a', Out.ch ' ', Out.ch 'd',
                          Out.color CP_FG] }, []) ∧
      (∀ (s : List Char) (colors : Bool) (i : Nat) (st : inline_state) (L T rest : List Char),
        s.drop i = '[' :: (L ++ ']' :: '(' :: (T ++ ')' :: rest)) →
        L ≠ [] → ']' ∉ L → '\x00' ∉ L → ')' ∉ T → '\x00' ∉ T →
        ∃ j w urls, inline_open s colors i st =
          some (j, { window := w, stack := ')' :: st.stack, urls := urls })) ∧
      (∀ (s : List Char) (colors : Bool) (i : Nat) (st : inline_state) (L T rest : List Char),
        s.drop i = '!' :: '[' :: (L ++ ']' :: '(' :: (T ++ ')' :: rest)) →
        L ≠ [] → ']' ∉ L → '\x00' ∉ L → ')' ∉ T → '\x00' ∉ T →
        ∃ j w urls, inline_open s colors i st =
          some (j, { window := w, stack := ')' :: st.stack, urls := urls })) := by
  refine ⟨by decide, ⟨_, _, rfl, by decide⟩, ⟨_, _, rfl, by decide⟩, by decide, ?_, ?_⟩
  · intro s colors i st L T rest hs hL hL1 hL0 hT1 hT0
    exact ⟨_, _, _, inline_open_link s colors i st L T rest hs hL hL1 hL0 hT1 hT0⟩
  · intro s colors i st L T rest hs hL hL1 hL0 hT1 hT0
    have h0 : peek s i = '!' := by
      have := peek_drop s i 0
      rw [Nat.add_zero, hs] at this
      exact this
    have h1 : peek s (i + 1) = '[' := by
      rw [peek_drop, hs]
      rfl
    have hs1 : s.drop (i + 1) = '[' :: (L ++ ']' :: '(' :: (T ++ ')' :: rest)) := by
      have : s.drop (i + 1) = (s.drop i).drop 1 := by rw [List.drop_drop]
      rw [this, hs]
      rfl
    have h2 : (wcschr s (i + 1) ']').isSome = true := by
      unfold wcschr
      rw [hs1]
      have e : '[' :: (L ++ ']' :: '(' :: (T ++ ')' :: rest)) =
          ('[' :: L) ++ ']' :: '(' :: (T ++ ')' :: rest) := by simp
      rw [e]
      apply wcschr_from_prefix_isSome
      simp [hL0]
    rw [inline_open_bang s colors i st h0 h1 h2]
    exact ⟨_, _, _, inline_open_link s colors (i + 1) st L T rest hs1 hL hL1 hL0 hT1 hT0⟩

/-! ## The inline interpreter: a symbol behind a symbol -/

theorem open_action_printed (colors : Bool) (c : Char) (w : WINDOW) :
    (open_action colors c w).printed = w.printed := by
  unfold open_action
  split
  · split
    · simp [WINDOW.wattron_pair, WINDOW.printed, List.filterMap_append]
    · rfl
  · split
    · simp [WINDOW.wattron_underline, WINDOW.printed, List.filterMap_append]
    · split
      · simp [WINDOW.wattron_pair, WINDOW.printed, List.filterMap_append]
      · rfl

/-- The body of the loop on a symbol that does not close the top of the stack, with no
backslash pending, at a place where markup may not open: the symbol is written. -/
theorem inline_body_literal (s : List Char) (colors : Bool) (i : Nat) (st : inline_state)
    (hsym : peek s i = '*' ∨ peek s i = '_' ∨ peek s i = '`')
    (htop : st.stack.top (peek s i) = false ∨
      (iswalnum (peek s (i + 1)) = true ∧ peek s (i + 1) ≠ '\x00'))
    (hbs : st.stack.top '\\' = false) (hopen : may_open s i = false) :
    inline_body s colors i st =
      some (i, { st with window := st.window.waddnwstr (peek s i) }) := by
  unfold inline_body
  have hsp : special.contains (peek s i) = true := by
    rw [special_contains_iff]
    rcases hsym with h | h | h <;> simp [h]
  have hne : peek s i ≠ '\\' := by
    rcases hsym with h | h | h <;> rw [h] <;> decide
  have hc : (st.stack.top (peek s i) && (!iswalnum (peek s (i + 1)) ||
      decide (peek s (i + 1) = '\x00') || decide (peek s i = '\\'))) = false := by
    rcases htop with h | ⟨h1, h2⟩
    · simp [h]
    · simp [h1, h2, hne]
  simp only [hsp, hc, hbs, hopen, if_true, Bool.false_eq_true, if_false]

/-- Counterexample to C26 as stated: in the line made of `*`, `_`, a backtick, `x`, a
backtick, `_`, `*` the `*` and the `_` open markup (the stack is `_`, `*` at index 2), and
the backtick at index 2, which stands immediately after the opening `_`, is written and
not pushed; the line comes out as the backtick, `x`, the backtick, bold and underlined. In
the line made of a backtick, `*x*` and a backtick, the `*` at index 1 stands immediately
after the opening backtick and is written, and so is the second `*`. -/
theorem inline_display_third_symbol_written :
    (inline_body "*_`x`_*".toList true 0
          { window := default_window true, stack := [], urls := [] } =
        some (0, { window := { pair := CP_BOLD, underline := false,
                               out := [Out.color CP_BOLD] },
                   stack := ['*'], urls := [] }) ∧
      inline_body "*_`x`_*".toList true 1
          { window := { pair := CP_BOLD, underline := false, out := [Out.color CP_BOLD] },
            stack := ['*'], urls := [] } =
        some (1, { window := { pair := CP_BOLD, underline := true,
                               out := [Out.color CP_BOLD, Out.underline_on] },
                   stack := ['_', '*'], urls := [] }) ∧
      peek "*_`x`_*".toList 2 = '`' ∧
      inline_body "*_`x`_*".toList true 2
          { window := { pair := CP_BOLD, underline := true,
                        out := [Out.color CP_BOLD, Out.underline_on] },
            stack := ['_', '*'], urls := [] } =
        some (2, { window := { pair := CP_BOLD, underline := true,
                               out := [Out.color CP_BOLD, Out.underline_on, Out.ch '`'] },
                   stack := ['_', '*'], urls := [] }) ∧
      inline_display "*_`x`_*".toList true (default_window true) [] =
        Run.ok ({ pair := CP_FG, underline := false,
                  out := [Out.color CP_BOLD, Out.underline_on, Out.ch '`', Out.ch 'x',
                          Out.ch '`', Out.underline_off, Out.color CP_FG] }, [])) ∧
    (inline_body "`*x*`".toList true 1
          { window := { pair := CP_CODE, underline := false, out := [Out.color CP_CODE] },
            stack := ['`'], urls := [] } =
        some (1, { window := { pair := CP_CODE, underline := false,
                               out := [Out.color CP_CODE, Out.ch '*'] },
                   stack := ['`'], urls := [] }) ∧
      inline_display "`*x*`".toList true (default_window true) [] =
        Run.ok ({ pair := CP_FG, underline := false,
                  out := [Out.color CP_CODE, Out.ch '*', Out.ch 'x', Out.ch '*',
                          Out.color CP_FG] }, [])) := by
  decide

/-- C26, amended: a markup symbol (`*`, `_` or a backtick) that stands immediately after a
`*` or a `_` which is itself at the start of the line or after a white-space character
opens markup: when the scan reaches the first symbol at index `i` with no backslash pending
and the first symbol not on top of the stack, the body of the loop at `i` pushes the first
symbol and turns its attribute on, and the body at `i + 1` pushes the second symbol on top
of it and turns its attribute on (unless the second symbol equals the first and no
alphanumeric character follows, in which case it closes); neither symbol is written. A
symbol immediately after a backtick, and a symbol after a `*` or `_` that stands after a
character other than white space (a third symbol in a row), may not open: unless it closes
the top of the stack it is written and nothing is pushed. -/
theorem inline_body_second_symbol (s : List Char) (colors : Bool) (i : Nat)
    (st : inline_state) (hbs : st.stack.top '\\' = false) :
    (peek s i = '*' ∨ peek s i = '_' → i = 0 ∨ iswspace (peek s (i - 1)) = true →
      peek s (i + 1) = '*' ∨ peek s (i + 1) = '_' ∨ peek s (i + 1) = '`' →
      st.stack.top (peek s i) = false →
      peek s (i + 1) ≠ peek s i ∨ iswalnum (peek s (i + 2)) = true →
      inline_body s colors i st =
        some (i, { st with window := open_action colors (peek s i) st.window,
                           stack := peek s i :: st.stack }) ∧
      inline_body s colors (i + 1)
          { st with window := open_action colors (peek s i) st.window,
                    stack := peek s i :: st.stack } =
        some (i + 1, { st with
          window := open_action colors (peek s (i + 1))
            (open_action colors (peek s i) st.window),
          stack := peek s (i + 1) :: peek s i :: st.stack }) ∧
      (open_action colors (peek s (i + 1)) (open_action colors (peek s i) st.window)).printed =
        st.window.printed) ∧
    (peek s i = '`' →
      peek s (i + 1) = '*' ∨ peek s (i + 1) = '_' ∨ peek s (i + 1) = '`' →
      st.stack.top (peek s (i + 1)) = false ∨
        (iswalnum (peek s (i + 2)) = true ∧ peek s (i + 2) ≠ '\x00') →
      inline_body s colors (i + 1) st =
        some (i + 1, { st with window := st.window.waddnwstr (peek s (i + 1)) })) ∧
    (iswspace (peek s i) = false → peek s (i + 1) = '*' ∨ peek s (i + 1) = '_' →
      peek s (i + 2) = '*' ∨ peek s (i + 2) = '_' ∨ peek s (i + 2) = '`' →
      st.stack.top (peek s (i + 2)) = false ∨
        (iswalnum (peek s (i + 3)) = true ∧ peek s (i + 3) ≠ '\x00') →
      inline_body s colors (i + 2) st =
        some (i + 2, { st with window := st.window.waddnwstr (peek s (i + 2)) })) := by
  refine ⟨?_, ?_, ?_⟩
  · intro h1 hpos h2 htop hnc
    have hm1 : may_open s i = true := by
      unfold may_open
      rcases hpos with h | h
      · simp [h]
      · simp [h]
    have hm2 : may_open s (i + 1) = true := by
      unfold may_open
      simp only [Nat.add_sub_cancel]
      have e : i + 1 - 2 = i - 1 := by omega
      rw [e]
      rcases hpos with h' | h'
      · subst h'
        rcases h1 with h | h <;> simp [h]
      · rcases h1 with h | h <;> simp [h, h']
    have hb1 : peek s i ≠ '\\' := by
      rcases h1 with h | h <;> rw [h] <;> decide
    have hsym1 : peek s i = '*' ∨ peek s i = '_' ∨ peek s i = '`' := by
      rcases h1 with h | h
      · exact Or.inl h
      · exact Or.inr (Or.inl h)
    refine ⟨?_, ?_, ?_⟩
    · have := inline_body_open s colors i st hsym1 (Or.inl htop) hbs hm1
      simpa [cstack_t.push] using this
    · have htop2 : cstack_t.top (peek s i :: st.stack) (peek s (i + 1)) = false ∨
          (iswalnum (peek s (i + 1 + 1)) = true ∧ peek s (i + 1 + 1) ≠ '\x00') := by
        rcases hnc with h | h
        · left
          simp only [cstack_t.top, List.head?_cons, Option.some.injEq, decide_eq_false_iff_not]
          exact fun e => h e.symm
        · right
          exact ⟨h, (iswalnum_not_special _ h).2⟩
      have hbs2 : cstack_t.top (peek s i :: st.stack) '\\' = false := by
        simp only [cstack_t.top, List.head?_cons, Option.some.injEq, decide_eq_false_iff_not]
        exact hb1
      have := inline_body_open s colors (i + 1)
        { st with window := open_action colors (peek s i) st.window,
                  stack := peek s i :: st.stack } h2 htop2 hbs2 hm2
      simpa [cstack_t.push] using this
    · rw [open_action_printed, open_action_printed]
  · intro h1 h2 htop
    have hb : peek s (i + 1) ≠ '\\' := by
      rcases h2 with h | h | h <;> rw [h] <;> decide
    have hm : may_open s (i + 1) = false := by
      unfold may_open
      simp only [Nat.add_sub_cancel]
      simp +decide [h1, hb, iswspace, isspace]
    exact inline_body_literal s colors (i + 1) st h2 htop hbs hm
  · intro h0 h1 h2 htop
    have hb : peek s (i + 2) ≠ '\\' := by
      rcases h2 with h | h | h <;> rw [h] <;> decide
    have hw : iswspace (peek s (i + 1)) = false := by
      rcases h1 with h | h <;> rw [h] <;> decide
    have hm : may_open s (i + 2) = false := by
      unfold may_open
      have e1 : i + 2 - 1 = i + 1 := by omega
      have e2 : i + 2 - 2 = i := by omega
      rw [e1, e2]
      simp [h0, hw, hb]
    exact inline_body_literal s colors (i + 2) st h2 htop hbs hm

/-- Witness of C26: in the line `*_word_*` the `*` at index 0 and the `_` behind it both
open. -/
theorem inline_body_second_symbol_witness :
    inline_body "*_word_*".toList true 0
        { window := default_window true, stack := [], urls := [] } =
      some (0, { window := open_action true '*' (default_window true), stack := ['*'],
                 urls := [] }) ∧
    inline_body "*_word_*".toList true (0 + 1)
        { window := open_action true '*' (default_window true), stack := ['*'], urls := [] } =
      some (0 + 1, { window := open_action true '_' (open_action true '*' (default_window true)),
                     stack := ['_', '*'], urls := [] }) ∧
    inline_display "*_word_*".toList true (default_window true) [] =
      Run.ok ({ pair := CP_FG, underline := false,
                out := [Out.color CP_BOLD, Out.underline_on, Out.ch 'w', Out.ch 'o',
                        Out.ch 'r', Out.ch 'd', Out.underline_off, Out.color CP_FG] }, []) :=
  ⟨((inline_body_second_symbol "*_word_*".toList true 0
      { window := default_window true, stack := [], urls := [] } (by decide)).1
      (Or.inl (by decide)) (Or.inl rfl) (Or.inr (Or.inl (by decide))) (by decide)
      (Or.inl (by decide))).1,
   ((inline_body_second_symbol "*_word_*".toList true 0
      { window := default_window true, stack := [], urls := [] } (by decide)).1
      (Or.inl (by decide)) (Or.inl rfl) (Or.inr (Or.inl (by decide))) (by decide)
      (Or.inl (by decide))).2.1,
   by decide⟩

/-! ## Key codes and key bindings -/

namespace Viewer

theorem char_of_int_small (c : Int) (h0 : -128 ≤ c) (h1 : c ≤ 127) : char_of_int c = c := by
  unfold char_of_int
  omega

/-- On a key code that fits the `char` parameter, `evaluate_binding` finds exactly the
entries in front of the terminator. -/
theorem evaluate_binding_iff (c : Int) :
    ∀ bindings : List Int,
      evaluate_binding bindings c = true ↔ c ∈ bindings.takeWhile (fun b => decide (b ≠ 0)) := by
  intro bindings
  induction bindings with
  | nil => simp [evaluate_binding]
  | cons b bs ih =>
    rw [evaluate_binding]
    by_cases hb : b = 0
    · simp [hb, List.takeWhile_cons]
    · by_cases hc : c = b
      · simp [hb, hc, List.takeWhile_cons]
      · rw [if_neg hb, if_neg hc, ih]
        simp [hb, List.takeWhile_cons, hc]

/-- C27: the key code 259 (`KEY_UP` of curses) is an entry of the binding array `259, 107`,
and `evaluate_binding`, called with it as `ncurses_display` does, returns false: the
parameter `char c` keeps only the low 8 bits of the code, 3, and 3 is compared with the
`int` entries; no branch of the key loop sees the key as bound. With the array `3` it
returns true for the code 259, which is no entry. For every key code that fits a `char`
(-128 .. 127) the function returns true if and only if the code is one of the entries
before the terminator. -/
theorem evaluate_binding_truncates_key :
    char_of_int 259 = 3 ∧
      evaluate_binding [259, 107] (char_of_int 259) = false ∧
      evaluate_binding [3] (char_of_int 259) = true ∧
      key_branch { prev_slide_binding := [259, 107], next_slide_binding := [258, 106],
                   first_slide_binding := [103], last_slide_binding := [71],
                   reload_binding := [114], quit_binding := [113] } 259 = branch_t.other ∧
      key_branch { prev_slide_binding := [259, 107], next_slide_binding := [258, 106],
                   first_slide_binding := [103], last_slide_binding := [71],
                   reload_binding := [114], quit_binding := [113] } 107 = branch_t.prev ∧
      (∀ (bindings : List Int) (c : Int), -128 ≤ c → c ≤ 127 →
        (evaluate_binding bindings (char_of_int c) = true ↔
          c ∈ bindings.takeWhile (fun b => decide (b ≠ 0)))) := by
  refine ⟨by decide, by decide, by decide, by decide, by decide, ?_⟩
  intro bindings c h0 h1
  rw [char_of_int_small c h0 h1]
  exact evaluate_binding_iff c bindings

end Viewer

/-! ## Navigation: the range of the stop-count -/

namespace Viewer

/-- The frame of a slide with stop-count 0 ends behind the first stop-flagged line. -/
theorem print_loop_zero (IS_STOP : Nat) :
    ∀ lines : List line_t,
      print_loop IS_STOP 0 lines 0 =
        match lines.dropWhile (fun l => !stop_flagged IS_STOP l) with
        | [] => (0, [])
        | _ :: post => (1, post) := by
  intro lines
  induction lines with
  | nil => rfl
  | cons l lines ih =>
    by_cases hf : stop_flagged IS_STOP l = true
    · rw [print_loop_break IS_STOP 0 l lines 0 hf rfl]
      simp [List.dropWhile_cons, hf]
    · have hf' : ∀ x ∈ [l], stop_flagged IS_STOP x = false := by
        intro x hx
        rw [List.mem_singleton.1 hx]
        simpa using hf
      have := print_loop_skip IS_STOP 0 lines [l] 0 hf' (Int.le_refl _)
      rw [List.singleton_append] at this
      rw [this, ih]
      simp [List.dropWhile_cons, hf]

theorem key_prev_bounded (IS_STOP : Nat) (st : nav_t) (h : st.all (stop_bounded IS_STOP)) :
    (key_prev IS_STOP st).all (stop_bounded IS_STOP) := by
  obtain ⟨hb, hs, ha⟩ := h
  unfold key_prev
  split
  · rename_i hc
    refine ⟨hb, ?_, ha⟩
    obtain ⟨h1, h2⟩ := hs
    refine ⟨?_, ?_⟩
    · show st.slide.stop - 1 ≤ (stop_lines IS_STOP st.slide : Int)
      omega
    · intro hsh
      have h0 := h2 hsh
      show 0 ≤ st.slide.stop - 1
      by_contra hn
      have hz : st.slide.stop = 0 := by omega
      unfold frame at hc
      rw [hz, print_loop_zero] at hc
      unfold stops_at_last_line at hsh
      cases hd : st.slide.line.dropWhile (fun l => !stop_flagged IS_STOP l) with
      | nil => rw [hd] at hc; simp at hc
      | cons x post =>
        rw [hd] at hc hsh
        simp only [gt_iff_lt, Int.lt_irrefl, true_and, false_or] at hc
        rw [hc] at hsh
        simp at hsh
  · cases hbf : st.before with
    | nil => exact ⟨hb, hs, ha⟩
    | cons p bf =>
      rw [hbf] at hb
      have hp := hb p (List.mem_cons_self _ _)
      refine ⟨fun sl hsl => hb sl (List.mem_cons_of_mem _ hsl), ?_, ?_⟩
      · obtain ⟨h1, h2⟩ := hp
        refine ⟨?_, ?_⟩
        · show (if p.stop > 0 then 0 else p.stop) ≤ (stop_lines IS_STOP p : Int)
          split <;> omega
        · intro hsh
          have := h2 hsh
          show 0 ≤ (if p.stop > 0 then 0 else p.stop)
          split <;> omega
      · intro sl hsl
        rcases List.mem_cons.1 hsl with e | e
        · rw [e]; exact hs
        · exact ha sl e

theorem step_next_all (P : slide_t → Prop) (st : nav_t) (h : st.all P) : (step_next st).all P := by
  obtain ⟨hb, hs, ha⟩ := h
  unfold step_next
  cases haf : st.after with
  | nil => exact ⟨hb, hs, ha⟩
  | cons n af =>
    rw [haf] at ha
    refine ⟨?_, ha n (List.mem_cons_self _ _), fun sl hsl => ha sl (List.mem_cons_of_mem _ hsl)⟩
    intro sl hsl
    rcases List.mem_cons.1 hsl with e | e
    · rw [e]; exact hs
    · exact hb sl e

theorem step_prev_all (P : slide_t → Prop) (st : nav_t) (h : st.all P) : (step_prev st).all P := by
  obtain ⟨hb, hs, ha⟩ := h
  unfold step_prev
  cases hbf : st.before with
  | nil => exact ⟨hb, hs, ha⟩
  | cons p bf =>
    rw [hbf] at hb
    refine ⟨fun sl hsl => hb sl (List.mem_cons_of_mem _ hsl), hb p (List.mem_cons_self _ _), ?_⟩
    intro sl hsl
    rcases List.mem_cons.1 hsl with e | e
    · rw [e]; exact hs
    · exact ha sl e

theorem key_next_bounded (IS_STOP : Nat) (st : nav_t) (h : st.all (stop_bounded IS_STOP)) :
    (key_next IS_STOP st).all (stop_bounded IS_STOP) := by
  unfold key_next
  split
  · rename_i hc
    obtain ⟨hb, hs, ha⟩ := h
    refine ⟨hb, ?_, ha⟩
    obtain ⟨h1, h2⟩ := hs
    refine ⟨?_, ?_⟩
    · show st.slide.stop + 1 ≤ (stop_lines IS_STOP st.slide : Int)
      by_contra hn
      unfold stop_lines at h1 hn
      have hle : 0 + (st.slide.line.countP (stop_flagged IS_STOP) : Int) ≤ st.slide.stop := by
        omega
      unfold frame at hc
      rw [print_loop_all IS_STOP _ _ 0 hle] at hc
      exact hc.2 rfl
    · intro hsh
      have := h2 hsh
      show 0 ≤ st.slide.stop + 1
      omega
  · exact step_next_all _ st h

theorem goto_walk_all (P : slide_t → Prop) (i : Int) :
    ∀ (fuel : Nat) (st st' : nav_t), goto_walk i fuel st = some st' → st.all P → st'.all P := by
  intro fuel
  induction fuel with
  | zero => intro st st' h; simp [goto_walk] at h
  | succ n ih =>
    intro st st' h hp
    rw [goto_walk] at h
    split at h
    · split at h
      · exact ih _ _ h (step_next_all P st hp)
      · exact ih _ _ h (step_prev_all P st hp)
    · cases h
      exact hp

theorem nav_all_iff (P : slide_t → Prop) (st : nav_t) : st.all P ↔ ∀ sl ∈ st.chain, P sl := by
  unfold nav_t.all nav_t.chain
  constructor
  · rintro ⟨hb, hs, ha⟩ sl hsl
    rcases List.mem_append.1 hsl with e | e
    · exact hb sl (List.mem_reverse.1 e)
    · rcases List.mem_cons.1 e with e | e
      · rw [e]; exact hs
      · exact ha sl e
  · intro h
    refine ⟨fun sl hsl => h sl ?_, h _ ?_, fun sl hsl => h sl ?_⟩
    · exact List.mem_append_left _ (List.mem_reverse.2 hsl)
    · exact List.mem_append_right _ (List.mem_cons_self _ _)
    · exact List.mem_append_right _ (List.mem_cons_of_mem _ hsl)

theorem key_first_all (P : slide_t → Prop) (st : nav_t) (h : st.all P) : (key_first st).all P := by
  have hc := (nav_all_iff P st).1 h
  unfold key_first
  cases hch : st.chain with
  | nil => exact h
  | cons x xs =>
    rw [hch] at hc
    exact ⟨fun sl hsl => absurd hsl (List.not_mem_nil _), hc x (List.mem_cons_self _ _),
      fun sl hsl => hc sl (List.mem_cons_of_mem _ hsl)⟩

theorem last_loop_all (P : slide_t → Prop) :
    ∀ (k : Nat) (st : nav_t), st.all P → (last_loop k st).all P := by
  intro k
  induction k with
  | zero => intro st h; exact h
  | succ n ih =>
    intro st h
    rw [last_loop]
    exact ih _ (step_next_all P st h)

theorem on_key_bounded (cfg : config_h) (IS_STOP : Nat) (noreload : Int) (st st' : nav_t)
    (c : Int) (keys keys' : List Int)
    (h : on_key cfg IS_STOP noreload st c keys = nav_result.next st' keys')
    (hp : st.all (stop_bounded IS_STOP)) : st'.all (stop_bounded IS_STOP) := by
  unfold on_key at h
  split at h
  · cases h; exact key_prev_bounded IS_STOP st hp
  · cases h; exact key_next_bounded IS_STOP st hp
  · split at h
    · split at h
      · rename_i st1 h1
        cases h
        exact goto_walk_all _ _ _ _ _ h1 hp
      · cases h
    · cases h; exact hp
  · cases h; exact key_first_all _ st hp
  · cases h; exact last_loop_all _ _ st hp
  · split at h
    · cases h
    · cases h; exact hp
  · cases h
  · cases h; exact hp

theorem key_prev_lines (IS_STOP : Nat) (st : nav_t) :
    (key_prev IS_STOP st).chain.map (fun sl => sl.line) = st.chain.map (fun sl => sl.line) := by
  unfold key_prev
  split
  · simp [nav_t.chain]
  · cases hb : st.before with
    | nil => rfl
    | cons p bf => simp [nav_t.chain, hb]

theorem key_next_lines (IS_STOP : Nat) (st : nav_t) :
    (key_next IS_STOP st).chain.map (fun sl => sl.line) = st.chain.map (fun sl => sl.line) := by
  unfold key_next
  split
  · simp [nav_t.chain]
  · rw [step_next_chain]

theorem goto_walk_chain (i : Int) :
    ∀ (fuel : Nat) (st st' : nav_t), goto_walk i fuel st = some st' → st'.chain = st.chain := by
  intro fuel
  induction fuel with
  | zero => intro st st' h; simp [goto_walk] at h
  | succ n ih =>
    intro st st' h
    rw [goto_walk] at h
    split at h
    · split at h
      · rw [ih _ _ h, step_next_chain]
      · rw [ih _ _ h, step_prev_chain]
    · cases h
      rfl

theorem key_first_chain (st : nav_t) : (key_first st).chain = st.chain := by
  unfold key_first
  cases hc : st.chain with
  | nil => exact hc
  | cons x xs => simp [nav_t.chain]

theorem last_loop_chain : ∀ (k : Nat) (st : nav_t), (last_loop k st).chain = st.chain := by
  intro k
  induction k with
  | zero => intro st; rfl
  | succ n ih =>
    intro st
    rw [last_loop, ih, step_next_chain]

theorem on_key_lines (cfg : config_h) (IS_STOP : Nat) (noreload : Int) (st st' : nav_t)
    (c : Int) (keys keys' : List Int)
    (h : on_key cfg IS_STOP noreload st c keys = nav_result.next st' keys') :
    st'.chain.map (fun sl => sl.line) = st.chain.map (fun sl => sl.line) := by
  unfold on_key at h
  split at h
  · cases h; exact key_prev_lines IS_STOP st
  · cases h; exact key_next_lines IS_STOP st
  · split at h
    · split at h
      · rename_i st1 h1
        cases h
        rw [goto_walk_chain _ _ _ _ h1]
      · cases h
    · cases h; rfl
  · cases h; rw [key_first_chain]
  · cases h; rw [last_loop_chain]
  · split at h
    · cases h
    · cases h; rfl
  · cases h
  · cases h; rfl

/-- From a deck whose slides all have the stop-count 0, every reachable state has the lines
of the deck, and every stop-count in it is at most the number of stop-flagged lines of its
slide and is not negative unless the first stop-flagged line of the slide is its last
line. -/
theorem reachable_bounded (cfg : config_h) (IS_STOP : Nat) (noreload : Int) (first : slide_t)
    (rest : List slide_t) (reload : Int) (st : nav_t)
    (h0 : ∀ sl ∈ first :: rest, sl.stop = 0)
    (h : reachable cfg IS_STOP noreload first rest reload st) :
    st.all (stop_bounded IS_STOP) ∧
      st.chain.map (fun sl => sl.line) = (first :: rest).map (fun sl => sl.line) := by
  induction h with
  | start st hs =>
    obtain ⟨st0, e0, e1, _⟩ := seek_spec first rest reload
    rw [hs] at e0
    cases e0
    refine ⟨?_, by rw [e1]⟩
    rw [nav_all_iff, e1]
    intro sl hsl
    have := h0 sl hsl
    unfold stop_bounded
    rw [this]
    exact ⟨Int.ofNat_nonneg _, fun _ => Int.le_refl _⟩
  | step st st' c keys keys' _ hk ih =>
    exact ⟨on_key_bounded cfg IS_STOP noreload st st' c keys keys' hk ih.1,
      by rw [on_key_lines cfg IS_STOP noreload st st' c keys keys' hk, ih.2]⟩

/-- C24: a deck of one slide whose only line is stop-flagged starts with the stop-count 0;
the frame passes one stop bit and no line is left, so the PREV key lowers the stop-count to
-1: the state after the key `k` is reachable and has a negative stop-count (a second `k`
gives -2). For every deck whose slides start with the stop-count 0, every reachable state
has the lines of the deck, every stop-count in it is at most the number of stop-flagged
lines of its slide, and it is at least 0 on every slide whose first stop-flagged line is
not its last line. -/
theorem key_prev_stop_negative :
    stop_lines 7 { line := [stop_line 7 "a"], lines_consumed := 1, stop := 0 } = 1 ∧
      frame 7 { before := [], slide := { line := [stop_line 7 "a"], lines_consumed := 1,
                                         stop := 0 }, after := [], sc := 1 } = (1, []) ∧
      key_prev 7 { before := [], slide := { line := [stop_line 7 "a"], lines_consumed := 1,
                                            stop := 0 }, after := [], sc := 1 } =
        { before := [], slide := { line := [stop_line 7 "a"], lines_consumed := 1,
                                   stop := -1 }, after := [], sc := 1 } ∧
      ncurses_display bindings_kjgGrq screen_80x24 7
          { slide := [{ line := [stop_line 7 "a"], lines_consumed := 0, stop := 0 }],
            headers := 0 } 0 0 0 [107] =
        outcome.waiting
          { before := [], slide := { line := [stop_line 7 "a"], lines_consumed := 1,
                                     stop := -1 }, after := [], sc := 1 } ∧
      ncurses_display bindings_kjgGrq screen_80x24 7
          { slide := [{ line := [stop_line 7 "a"], lines_consumed := 0, stop := 0 }],
            headers := 0 } 0 0 0 [107, 107] =
        outcome.waiting
          { before := [], slide := { line := [stop_line 7 "a"], lines_consumed := 1,
                                     stop := -2 }, after := [], sc := 1 } ∧
      reachable bindings_kjgGrq 7 0
        { line := [stop_line 7 "a"], lines_consumed := 1, stop := 0 } [] 0
        { before := [], slide := { line := [stop_line 7 "a"], lines_consumed := 1,
                                   stop := -1 }, after := [], sc := 1 } ∧
      (∀ (cfg : config_h) (IS_STOP : Nat) (noreload : Int) (first : slide_t)
        (rest : List slide_t) (reload : Int) (st : nav_t),
        (∀ sl ∈ first :: rest, sl.stop = 0) →
        reachable cfg IS_STOP noreload first rest reload st →
        st.chain.map (fun sl => sl.line) = (first :: rest).map (fun sl => sl.line) ∧
          ∀ sl ∈ st.chain, sl.stop ≤ (stop_lines IS_STOP sl : Int) ∧
            (stops_at_last_line IS_STOP sl = false → 0 ≤ sl.stop)) := by
  refine ⟨by decide, by decide, by decide, by decide, by decide, ?_, ?_⟩
  · exact reachable.step
      { before := [], slide := { line := [stop_line 7 "a"], lines_consumed := 1, stop := 0 },
        after := [], sc := 1 } _ 107 [] []
      (reachable.start _ (by decide)) (by decide)
  · intro cfg IS_STOP noreload first rest reload st h0 hr
    obtain ⟨h1, h2⟩ := reachable_bounded cfg IS_STOP noreload first rest reload st h0 hr
    exact ⟨h2, (nav_all_iff _ st).1 h1⟩

end Viewer

end Smdp
